import Mathlib

/-!
# github-events-spider: a verification development of `cmd/main.go`

The file embeds the parts of `cmd/main.go` that the specification talks about:

* the archive key and date string built with `fmt.Sprintf`, and `time.Parse`
  on that date string (lines 293-301);
* the line scanner of the decode loop (`bufio.Scanner`, lines 315-326);
* the stored procedure `extract_commits` (lines 560-638);
* one tick of `invokeBackendProcedures` (lines 197-234) as a transition system;
* `bulkLoadGitHubEventArchives` together with `insertGitHubEvents`
  (lines 236-349) as a transition system over goroutine program counters.

Definitions come first, theorems follow.
-/

namespace Spider

/-! ## Formatting: `fmt.Sprintf` with the verbs the program uses -/

/-- The verb `%d` on a non-negative integer: its decimal digits. -/
def fmtD (n : Nat) : List Char := Nat.toDigits 10 n

/-- The verb `%02d` on a non-negative integer: decimal digits, padded with
zeros on the left up to width 2. -/
def fmt02D (n : Nat) : List Char :=
  List.replicate (2 - (fmtD n).length) '0' ++ fmtD n

/-- An interpreter for `fmt.Sprintf` restricted to the verbs `%d` and `%02d`
and to non-negative integer operands (every operand in the program is a loop
counter that starts at 0, 1 or 2019 and only grows). -/
def sprintf : List Char → List Nat → List Char
  | [], _ => []
  | '%' :: 'd' :: rest, a :: args => fmtD a ++ sprintf rest args
  | '%' :: '0' :: '2' :: 'd' :: rest, a :: args => fmt02D a ++ sprintf rest args
  | c :: rest, args => c :: sprintf rest args

/-- Line 293: `date := fmt.Sprintf("%d-%02d-%02d-%d", year, month, day, hour)`. -/
def dateString (year month day hour : Nat) : String :=
  String.mk (sprintf "%d-%02d-%02d-%d".toList [year, month, day, hour])

/-- Line 299: `filename := fmt.Sprintf("%d-%02d-%02d-%d.json.gz", year, month, day, hour)`. -/
def filename (year month day hour : Nat) : String :=
  String.mk (sprintf "%d-%02d-%02d-%d.json.gz".toList [year, month, day, hour])

/-- Line 301: `fileURL := "https://data.gharchive.org/" + filename`. -/
def fileURL (year month day hour : Nat) : String :=
  "https://data.gharchive.org/" ++ filename year month day hour

/-- A number zero-padded to two digits, in the words of the specification
(`{month:02}`): a leading zero in front of a single digit. -/
def zeroPad2 (n : Nat) : String :=
  if n < 10 then "0" ++ toString n else toString n

/-- The archive key in the words of the specification:
`{year}-{month:02}-{day:02}-{hour}.json.gz`. -/
def specKey (year month day hour : Nat) : String :=
  toString year ++ "-" ++ zeroPad2 month ++ "-" ++ zeroPad2 day ++ "-" ++ toString hour
    ++ ".json.gz"

/-! ## `time.Parse("2006-01-02-15", date)` -/

/-- Instants, in nanoseconds since 0001-01-01T00:00:00Z. -/
abbrev Time := Int

/-- The ASCII digit test of package `time`. -/
def isDigit (c : Char) : Bool := decide ('0' ≤ c) && decide (c ≤ '9')

/-- The value of an ASCII digit. -/
def digitVal (c : Char) : Nat := c.toNat - '0'.toNat

/-- The helper `getnum(s, fixed)` of package `time`: one or two digits, two
required when `fixed`. -/
def getnum (s : List Char) (fixed : Bool) : Option (Nat × List Char) :=
  match s with
  | [] => none
  | [c0] => if isDigit c0 && !fixed then some (digitVal c0, []) else none
  | c0 :: c1 :: rest =>
    if isDigit c0 then
      if isDigit c1 then some (digitVal c0 * 10 + digitVal c1, rest)
      else if fixed then none else some (digitVal c0, c1 :: rest)
    else none

/-- The four-digit year of layout element `2006`. -/
def getYear (s : List Char) : Option (Nat × List Char) :=
  match s with
  | a :: b :: c :: d :: rest =>
    if isDigit a && isDigit b && isDigit c && isDigit d then
      some (digitVal a * 1000 + digitVal b * 100 + digitVal c * 10 + digitVal d, rest)
    else none
  | _ => none

/-- Skip the literal `-` of the layout. -/
def skipDash (s : List Char) : Option (List Char) :=
  match s with
  | '-' :: rest => some rest
  | _ => none

/-- Leap years of the Gregorian calendar. -/
def isLeap (y : Nat) : Bool := y % 4 = 0 && (y % 100 != 0 || y % 400 = 0)

/-- Number of days of month `m` of year `y`. -/
def daysIn (m y : Nat) : Nat :=
  if m = 2 then (if isLeap y then 29 else 28)
  else if m = 4 ∨ m = 6 ∨ m = 9 ∨ m = 11 then 30 else 31

/-- Days of year `y` before the first of month `m`. -/
def daysBeforeMonth (m y : Nat) : Nat :=
  ((List.range (m - 1)).map (fun i => daysIn (i + 1) y)).sum

/-- Days between 0001-01-01 and the first of January of year `y`. -/
def daysBeforeYear (y : Nat) : Int :=
  365 * ((y : Int) - 1) + ((y : Int) - 1) / 4 - ((y : Int) - 1) / 100 + ((y : Int) - 1) / 400

/-- The instant `time.Date(y, m, d, h, 0, 0, 0, time.UTC)`. -/
def dateUTC (y m d h : Nat) : Time :=
  (((daysBeforeYear y + daysBeforeMonth m y + ((d : Int) - 1)) * 24 + h) * 3600) * 1000000000

/-- The call `time.Parse("2006-01-02-15", date)`: `none` stands for a
non-nil error (malformed text, month, day or hour out of range, extra text). -/
def timeParse (date : String) : Option Time :=
  match getYear date.toList with
  | none => none
  | some (y, r1) =>
    match skipDash r1 with
    | none => none
    | some r2 =>
      match getnum r2 true with
      | none => none
      | some (m, r3) =>
        if m = 0 ∨ 12 < m then none else
        match skipDash r3 with
        | none => none
        | some r4 =>
          match getnum r4 true with
          | none => none
          | some (d, r5) =>
            match skipDash r5 with
            | none => none
            | some r6 =>
              match getnum r6 false with
              | none => none
              | some (h, r7) =>
                if 24 ≤ h then none
                else if r7 ≠ [] then none
                else if d < 1 ∨ daysIn m y < d then none
                else some (dateUTC y m d h)

/-! ## The line scanner of the decode loop -/

/-- Bytes of a decompressed archive. -/
abbrev Byte := UInt8

/-- The constant `bufio.MaxScanTokenSize`, the buffer limit of a scanner
made by `bufio.NewScanner`. -/
def maxScanTokenSize : Nat := 64 * 1024

/-- The helper `dropCR` of `bufio.ScanLines`: drop one trailing carriage return. -/
def dropCR (l : List Byte) : List Byte :=
  if l.getLast? = some 13 then l.dropLast else l

/-- The lines returned by the loop `for scanner.Scan() { line := scanner.Text() ... }`
(lines 315-317) over the unread bytes, `cur` being the bytes of the current
line read so far.  A line is returned when its newline (or the end of the
input, for a non-empty last line) is in the buffer; when `maxScanTokenSize`
bytes hold no newline the buffer cannot grow, `Scan` records `ErrTooLong`,
returns false, and the loop ends. -/
def scanFrom : List Byte → List Byte → List (List Byte)
  | [], cur =>
    if cur = [] then []
    else if maxScanTokenSize ≤ cur.length then []
    else [dropCR cur]
  | b :: bs, cur =>
    if b = 10 then
      if maxScanTokenSize ≤ cur.length then []
      else dropCR cur :: scanFrom bs []
    else scanFrom bs (cur ++ [b])

/-- The lines the decode loop sees for a blob. -/
def scanLines (blob : List Byte) : List (List Byte) := scanFrom blob []

/-- The newline-delimited lines of a blob: the blob split at every newline,
a last line without newline included, one trailing carriage return dropped. -/
def linesFrom : List Byte → List Byte → List (List Byte)
  | [], cur => if cur = [] then [] else [dropCR cur]
  | b :: bs, cur =>
    if b = 10 then dropCR cur :: linesFrom bs [] else linesFrom bs (cur ++ [b])

/-- The newline-delimited lines of a blob. -/
def blobLines (blob : List Byte) : List (List Byte) := linesFrom blob []

/-! ## The stored procedure `extract_commits` -/

/-- The largest `BIGINT`. -/
def bigintMax : Int := 9223372036854775807

/-- A row of `github_events`, reduced to what the procedure reads: the key,
whether `$.type` is `PushEvent`, and `JSON_LENGTH(payload, "$.commits")`. -/
structure EventRow where
  event_id : Int
  isPush : Bool
  commits : Nat
  deriving DecidableEq, Repr

/-- The state of one backend partition: the row of `github_commits_rollup`,
the tables `github_events` and `numbers`, and the `event_id` column of
`github_commits`. -/
structure Partition where
  last_aggregated_id : Int
  github_events : List EventRow
  numbers : List Nat
  github_commits : List Int
  deriving DecidableEq, Repr

/-- The aggregate `MAX(event_id)` over `github_events`: `NULL` on an empty table. -/
def maxEventId : List EventRow → Option Int
  | [] => none
  | r :: rs =>
    match maxEventId rs with
    | none => some r.event_id
    | some m => some (max r.event_id m)

/-- The predicate `x BETWEEN lo AND hi` with a possibly `NULL` upper bound. -/
def between (x lo : Int) (hi : Option Int) : Bool :=
  match hi with
  | none => false
  | some h => decide (lo ≤ x) && decide (x ≤ h)

/-- The rows added by `INSERT IGNORE INTO github_commits ... FROM numbers INNER JOIN (...)
events ON numbers.n < JSON_LENGTH(payload, "$.commits")`: one per number and
push event of the range. -/
def newCommitRows (p : Partition) (start_id : Int) (end_id : Option Int) : List Int :=
  p.numbers.flatMap (fun n =>
    (p.github_events.filter (fun r =>
      r.isPush && between r.event_id start_id end_id && decide (n < r.commits))).map
      (fun r => r.event_id))

/-- Outcome of a call of the procedure. -/
inductive CallOutcome where
  | outOfRange
  | dmlFailed
  | count (n : Nat)
  deriving DecidableEq, Repr

/-- One call `CALL extract_commits()`.  `commitsOk` is the outcome of the
statement `INSERT IGNORE INTO github_commits ...` (a failed statement inserts
nothing) and `dailyOk` the outcome of the statement
`INSERT INTO daily_github_commits ...`, whose table is not part of the state;
a failed statement ends the call.  The sum `last_aggregated_id+1` is a `BIGINT` expression and
raises `BIGINT value is out of range` beyond `bigintMax`; the comparison
`start_id <= end_id` is not true when `end_id` is `NULL`. -/
def extract_commits (p : Partition) (commitsOk dailyOk : Bool) : Partition × CallOutcome :=
  if bigintMax < p.last_aggregated_id + 1 then (p, CallOutcome.outOfRange)
  else
    let start_id := p.last_aggregated_id + 1
    let end_id := maxEventId p.github_events
    match end_id with
    | none =>
      (p, CallOutcome.count ((p.github_commits.filter (fun e => between e start_id none)).length))
    | some e =>
      if start_id ≤ e then
        if commitsOk then
          let p1 :=
            { p with github_commits := p.github_commits ++ newCommitRows p start_id (some e) }
          if dailyOk then
            let p2 := { p1 with last_aggregated_id := e }
            (p2, CallOutcome.count
              ((p2.github_commits.filter (fun x => between x start_id (some e))).length))
          else (p1, CallOutcome.dmlFailed)
        else (p, CallOutcome.dmlFailed)
      else
        (p, CallOutcome.count
          ((p.github_commits.filter (fun x => between x start_id (some e))).length))

/-! ## Executions of a transition system -/

/-- Run a schedule: the state after taking the listed actions in order,
`none` when some action is not enabled in the state it meets. -/
def runFrom {σ α : Type} (step : σ → α → Option σ) : σ → List α → Option σ
  | s, [] => some s
  | s, a :: as =>
    match step s a with
    | none => none
    | some s' => runFrom step s' as

/-! ## One tick of `invokeBackendProcedures` (lines 197-234) -/

/-- Reduction of an integer to the range of `int64` (two's complement). -/
def wrap64 (x : Int) : Int :=
  (x + 9223372036854775808) % 18446744073709551616 - 9223372036854775808

/-- Whether an integer is an `int64` value. -/
def isInt64 (x : Int) : Bool :=
  decide (-9223372036854775808 ≤ x) && decide (x ≤ 9223372036854775807)

/-- Program counter of the goroutine started at line 206 for one backend. -/
inductive CallPC where
  /-- Before the call `db.QueryRowContext(...).Scan(&cnt)` of line 210 returns. -/
  | query
  /-- The call returned `cnt` without error; line 215 is next. -/
  | add (cnt : Int)
  /-- The call returned an error: logged, returned (`wg.Done` has run). -/
  | failed
  /-- Line 215 has added `cnt`; returned (`wg.Done` has run). -/
  | added (cnt : Int)
  deriving DecidableEq, Repr

/-- Program counter of `invokeBackendProcedures`. -/
inductive AggPC where
  /-- Lines 199-204: `commitsCnt := 0`, `wg.Add(backendsArg)`. -/
  | start
  /-- Line 205: the range loop, `i` goroutines started so far. -/
  | spawn (i : Nat)
  /-- Line 218: `wg.Wait()`. -/
  | wait
  /-- Lines 220-224: the aggregate is read and logged. -/
  | report
  /-- Lines 226-230: the check of `ctx.Done()`. -/
  | ctxCheck
  /-- Line 232: `time.Sleep`. -/
  | sleep
  /-- The function has returned. -/
  | returned
  deriving DecidableEq, Repr

/-- State of the aggregator: the program counters, the shared counter
`commitsCnt`, the counter of the wait group, the cancellation of `ctx`, and
(history) the aggregates logged by the ticks so far. -/
structure AggState where
  pc : AggPC
  commitsCnt : Int
  wg : Nat
  calls : List CallPC
  cancelled : Bool
  logged : List Int
  deriving DecidableEq, Repr

/-- Actions of the aggregator: a step of the main loop, the return of the
call of goroutine `i` (`none` for an error, `some cnt` for a count), the
atomic add of goroutine `i`, and the cancellation of the context. -/
inductive AggAction where
  | main
  | query (i : Nat) (r : Option Int)
  | add (i : Nat)
  | cancel
  deriving DecidableEq, Repr

/-- The state in which `invokeBackendProcedures` is entered. -/
def aggInit : AggState :=
  { pc := AggPC.start, commitsCnt := 0, wg := 0, calls := [], cancelled := false, logged := [] }

/-- The range loop of line 205 over `backendsArg` backends after `i` iterations. -/
def aggLoop (backendsArg i : Nat) : AggPC :=
  if i < backendsArg then AggPC.spawn i else AggPC.wait

/-- One step of the aggregator with `backendsArg` backends
(`len(backendDBs) = backendsArg`). -/
def aggStep (backendsArg : Nat) (s : AggState) : AggAction → Option AggState
  | AggAction.main =>
    match s.pc with
    | AggPC.start =>
      some { s with pc := aggLoop backendsArg 0, commitsCnt := 0, wg := backendsArg, calls := [] }
    | AggPC.spawn i =>
      some { s with pc := aggLoop backendsArg (i + 1), calls := s.calls ++ [CallPC.query] }
    | AggPC.wait => if s.wg = 0 then some { s with pc := AggPC.report } else none
    | AggPC.report =>
      some { s with pc := AggPC.ctxCheck, logged := s.logged ++ [s.commitsCnt] }
    | AggPC.ctxCheck =>
      if s.cancelled then some { s with pc := AggPC.returned }
      else some { s with pc := AggPC.sleep }
    | AggPC.sleep => some { s with pc := AggPC.start }
    | AggPC.returned => none
  | AggAction.query i r =>
    match s.calls[i]? with
    | some CallPC.query =>
      match r with
      | none => some { s with calls := s.calls.set i CallPC.failed, wg := s.wg - 1 }
      | some cnt =>
        if isInt64 cnt then some { s with calls := s.calls.set i (CallPC.add cnt) } else none
    | _ => none
  | AggAction.add i =>
    match s.calls[i]? with
    | some (CallPC.add cnt) =>
      some { s with calls := s.calls.set i (CallPC.added cnt),
                    commitsCnt := wrap64 (s.commitsCnt + cnt), wg := s.wg - 1 }
    | _ => none
  | AggAction.cancel => some { s with cancelled := true }

/-- The count a goroutine has added to `commitsCnt`. -/
def CallPC.contribution : CallPC → Int
  | CallPC.added cnt => cnt
  | _ => 0

/-- The count returned by a call that succeeded. -/
def CallPC.returnedCount : CallPC → Int
  | CallPC.added cnt => cnt
  | CallPC.add cnt => cnt
  | _ => 0

/-- Whether the goroutine has returned. -/
def CallPC.isDone : CallPC → Bool
  | CallPC.failed => true
  | CallPC.added _ => true
  | _ => false

/-- Sum of the counts of the partitions whose call succeeded. -/
def okSum (calls : List CallPC) : Int := (calls.map CallPC.returnedCount).sum

/-- Steps a goroutine of line 206 still has to take. -/
def CallPC.work : CallPC → Nat
  | CallPC.query => 2
  | CallPC.add _ => 1
  | _ => 0

/-- Steps the main loop still has to take before the aggregate of the tick
is read, counting 3 for every goroutine still to start. -/
def AggPC.rank (backendsArg : Nat) : AggPC → Nat
  | AggPC.start => 3 * backendsArg + 2
  | AggPC.spawn i => 3 * (backendsArg - i) + 1
  | AggPC.wait => 1
  | _ => 0

/-- A bound on the number of steps before the aggregate of the tick is read. -/
def tickWork (backendsArg : Nat) (s : AggState) : Nat :=
  s.pc.rank backendsArg + (s.calls.map CallPC.work).sum

/-- The main loop is inside a tick: the aggregate has not been read yet. -/
def AggPC.inTick : AggPC → Bool
  | AggPC.start => true
  | AggPC.spawn _ => true
  | AggPC.wait => true
  | _ => false

/-! ## `bulkLoadGitHubEventArchives` and `insertGitHubEvents` (lines 236-349)

The two functions run as goroutines that share the channel `eventsCh`, the
channel `finishedCh`, the wait group of the pool and the context.  The model
is a transition system over the program counters of the orchestrator
(`bulkLoadGitHubEventArchives`), of the pool goroutine (`insertGitHubEvents`)
and of its workers.  The type `Event` stands for `github.Event`, and the
results of the calls into other packages and into the environment
(`time.Now`, `os.Stat`, `utils.DownloadFile`, `utils.ReadGzFile`,
`db.PrepareContext`, `stmt.ExecContext`) are carried by the actions. -/

/-- Capacity of `eventsCh` (line 283: `make(chan *github.Event, 100000)`). -/
def eventsChCap : Nat := 100000

/-- The flag `threadsArg` and the JSON decoder of line 320: the pointer left
in `event` by `json.NewDecoder(...).Decode(&event)` on a line, `none` for nil. -/
structure Config (Event : Type) where
  threadsArg : Nat
  decode : List Byte → Option Event

/-- A time bucket: one hour of one day. -/
structure Bucket where
  year : Nat
  month : Nat
  day : Nat
  hour : Nat
  deriving DecidableEq, Repr

/-- Chronological (lexicographic) order of buckets. -/
def Bucket.lt (a b : Bucket) : Prop :=
  a.year < b.year ∨ (a.year = b.year ∧ (a.month < b.month ∨ (a.month = b.month ∧
    (a.day < b.day ∨ (a.day = b.day ∧ a.hour < b.hour)))))

instance (a b : Bucket) : Decidable (a.lt b) := by
  unfold Bucket.lt; exact inferInstance

/-- Program counter of `bulkLoadGitHubEventArchives` inside the day loop. -/
inductive OrchPC (Event : Type) where
  /-- Lines 283-290: new channels and counters, `go insertGitHubEvents(...)`. -/
  | dayStart
  /-- Lines 292-297: the head of the hour loop, the date and the clock. -/
  | hourCheck (hour : Nat)
  /-- Lines 299-303: the file name and `os.Stat`. -/
  | stat (hour : Nat)
  /-- Line 304: `utils.DownloadFile`. -/
  | download (hour : Nat)
  /-- Line 310: `utils.ReadGzFile`. -/
  | read (hour : Nat)
  /-- Line 316: `scanner.Scan()`, with the lines the scanner has yet to return. -/
  | scan (hour : Nat) (lines : List (List Byte))
  /-- Line 324: `eventsCh <- event`. -/
  | send (hour : Nat) (event : Option Event) (lines : List (List Byte))
  /-- Lines 329-333: the check of `ctx.Done()`. -/
  | ctxCheck (hour : Nat)
  /-- Lines 336-338: `eventsCh <- nil` for `i`. -/
  | sentinel (i : Nat)
  /-- Line 340: `<-finishedCh`. -/
  | waitFinished
  /-- Lines 341-345: the log line of the day. -/
  | report
  /-- The function has returned. -/
  | returned
  deriving DecidableEq, Repr

/-- Program counter of the pool goroutine `insertGitHubEvents`. -/
inductive PoolPC where
  /-- No pool goroutine has been started yet. -/
  | idle
  /-- Lines 237-245: `db.PrepareContext` and `wg.Add(threadsArg)`. -/
  | entry
  /-- Lines 246-273: the loop that starts the workers, at `threadID = i`. -/
  | spawn (i : Nat)
  /-- Line 274: `wg.Wait()`. -/
  | wait
  /-- Line 276: `finished <- true`. -/
  | sendFinished
  /-- The function has returned. -/
  | done
  deriving DecidableEq, Repr

/-- Program counter of a worker (lines 247-272). -/
inductive WorkerPC (Event : Type) where
  /-- Line 251: `event := <-eventsCh`. -/
  | recv
  /-- Lines 256-264: `json.Marshal` and `stmt.ExecContext` for the record. -/
  | exec (event : Event)
  /-- Lines 266-270: the check of `ctx.Done()`. -/
  | ctxCheck
  /-- The worker has returned (`wg.Done` has run). -/
  | done
  deriving DecidableEq, Repr

/-- Whether a worker has returned. -/
def WorkerPC.isDone {Event : Type} : WorkerPC Event → Bool
  | WorkerPC.done => true
  | _ => false

/-- State of the pipeline.  The fields up to `fatal` are program state; the
fields after it are history variables that record what has happened. -/
structure State (Event : Type) where
  /-- The loop counters of lines 280-282. -/
  year : Nat
  month : Nat
  day : Nat
  orch : OrchPC Event
  /-- The counters of lines 285-286 (`int64`). -/
  cntRows : Int
  cntBytes : Int
  /-- The buffer of `eventsCh`, oldest item first; `none` is nil. -/
  eventsCh : List (Option Event)
  pool : PoolPC
  /-- The counter of the wait group of line 244. -/
  wg : Nat
  /-- The workers of the pool of the day; index `i` has `threadID = i + 1`. -/
  workers : List (WorkerPC Event)
  /-- Whether the context is cancelled. -/
  cancelled : Bool
  /-- Whether `log.Fatal` of line 240 has ended the process. -/
  fatal : Bool
  /-- History: the buckets for which `os.Stat` was called, in order (whole run). -/
  attempts : List Bucket
  /-- History of the day: the readings of `time.Now()` at line 295, in order. -/
  readings : List Time
  /-- History of the day: the hours for which `os.Stat` was called, in order. -/
  hours : List Nat
  /-- History of the day: the hour whose check left the hour loop by `break`,
  with the clock reading of that check. -/
  stop : Option (Nat × Time)
  /-- History of the day: the items sent at line 324, each with its hour. -/
  enq : List (Nat × Option Event)
  /-- History of the day: the number of nils sent at line 337. -/
  nils : Nat
  /-- History of the day: the items received at line 251, each with the index
  of the receiving worker. -/
  deq : List (Nat × Option Event)
  /-- History of the day: the calls of `stmt.ExecContext` at line 261: worker
  index, record, and whether the call returned without error. -/
  ins : List (Nat × Event × Bool)
  deriving DecidableEq, Repr

/-- Actions of the pipeline. -/
inductive Action where
  /-- A step of the orchestrator that needs nothing from the environment. -/
  | orch
  /-- The hour check of lines 293-297 with the reading of `time.Now()`. -/
  | clock (now : Time)
  /-- The call `os.Stat` of line 303; `notExist` is `os.IsNotExist(err)`. -/
  | stat (notExist : Bool)
  /-- The call `utils.DownloadFile` of line 304; `ok` is `err == nil`. -/
  | download (ok : Bool)
  /-- The call `utils.ReadGzFile` of line 310: the bytes, or `none` for an error. -/
  | read (blob : Option (List Byte))
  /-- The call `db.PrepareContext` of line 238; `ok` is `err == nil`. -/
  | prepare (ok : Bool)
  /-- A step of the pool goroutine: start a worker, or pass `wg.Wait()`. -/
  | pool
  /-- The hand-over on the unbuffered channel `finishedCh` (lines 276 and 340). -/
  | finish
  /-- Worker `i` receives from `eventsCh` (line 251). -/
  | recv (i : Nat)
  /-- Worker `i` calls `stmt.ExecContext` (line 261); `ok` is `err == nil`. -/
  | exec (i : Nat) (ok : Bool)
  /-- Worker `i` checks `ctx.Done()` (lines 266-270). -/
  | check (i : Nat)
  /-- The context is cancelled (`globalCancel()`). -/
  | cancel
  deriving DecidableEq, Repr

/-- The state in which `bulkLoadGitHubEventArchives` is entered (line 280). -/
def init (Event : Type) : State Event :=
  { year := 2019, month := 1, day := 1, orch := OrchPC.dayStart, cntRows := 0, cntBytes := 0,
    eventsCh := [], pool := PoolPC.idle, wg := 0, workers := [], cancelled := false,
    fatal := false, attempts := [], readings := [], hours := [], stop := none, enq := [],
    nils := 0, deq := [], ins := [] }

/-- The loop `for i := 1; i <= threadsArg; i++` of line 336 at counter `i`. -/
def sentinelLoop {Event : Type} (cfg : Config Event) (i : Nat) : OrchPC Event :=
  if i ≤ cfg.threadsArg then OrchPC.sentinel i else OrchPC.waitFinished

/-- The loop `for hour := 0; hour <= 23; hour++` of line 292 at counter `hour`. -/
def hourLoop {Event : Type} (cfg : Config Event) (hour : Nat) : OrchPC Event :=
  if hour ≤ 23 then OrchPC.hourCheck hour else sentinelLoop cfg 1

/-- The loop `for i := 1; i <= threadsArg; i++` of line 246 at counter `i`. -/
def spawnLoop {Event : Type} (cfg : Config Event) (i : Nat) : PoolPC :=
  if i ≤ cfg.threadsArg then PoolPC.spawn i else PoolPC.wait

/-- The bucket of the hour loop at counter `hour`. -/
def State.bucket {Event : Type} (s : State Event) (hour : Nat) : Bucket :=
  { year := s.year, month := s.month, day := s.day, hour := hour }

/-- The end of the body of the day loop: the increments and tests of the
loops of lines 280-282, then the next day or the return. -/
def nextDay {Event : Type} (s : State Event) : State Event :=
  if s.day + 1 ≤ 31 then { s with day := s.day + 1, orch := OrchPC.dayStart }
  else if s.month + 1 ≤ 12 then { s with month := s.month + 1, day := 1, orch := OrchPC.dayStart }
  else if s.year + 1 ≤ 2019 then
    { s with year := s.year + 1, month := 1, day := 1, orch := OrchPC.dayStart }
  else { s with orch := OrchPC.returned }

/-- A step of the orchestrator that needs nothing from the environment. -/
def orchStep {Event : Type} (cfg : Config Event) (s : State Event) : Option (State Event) :=
  match s.orch with
  | OrchPC.dayStart =>
    some { s with orch := hourLoop cfg 0, eventsCh := [], cntRows := 0, cntBytes := 0,
                  pool := PoolPC.entry, wg := 0, workers := [], readings := [],
                  hours := [], stop := none, enq := [], nils := 0, deq := [], ins := [] }
  | OrchPC.scan hour [] => some { s with orch := OrchPC.ctxCheck hour }
  | OrchPC.scan hour (line :: lines) =>
    some { s with orch := OrchPC.send hour (cfg.decode line) lines }
  | OrchPC.send hour event lines =>
    if s.eventsCh.length < eventsChCap then
      some { s with orch := OrchPC.scan hour lines, eventsCh := s.eventsCh ++ [event],
                    cntRows := wrap64 (s.cntRows + 1), enq := s.enq ++ [(hour, event)] }
    else none
  | OrchPC.ctxCheck hour =>
    if s.cancelled then some { s with orch := OrchPC.returned }
    else some { s with orch := hourLoop cfg (hour + 1) }
  | OrchPC.sentinel i =>
    if s.eventsCh.length < eventsChCap then
      some { s with orch := sentinelLoop cfg (i + 1), eventsCh := s.eventsCh ++ [none],
                    nils := s.nils + 1 }
    else none
  | OrchPC.report => some (nextDay s)
  | _ => none

/-- The hour check of lines 293-297 with the clock reading `now`. -/
def clockStep {Event : Type} (cfg : Config Event) (now : Time) (s : State Event) :
    Option (State Event) :=
  match s.orch with
  | OrchPC.hourCheck hour =>
    match timeParse (dateString s.year s.month s.day hour) with
    | none =>
      some { s with orch := sentinelLoop cfg 1, readings := s.readings ++ [now],
                    stop := some (hour, now) }
    | some t =>
      if now < t then
        some { s with orch := sentinelLoop cfg 1, readings := s.readings ++ [now],
                      stop := some (hour, now) }
      else some { s with orch := OrchPC.stat hour, readings := s.readings ++ [now] }
  | _ => none

/-- The call of `os.Stat` (line 303). -/
def statStep {Event : Type} (notExist : Bool) (s : State Event) : Option (State Event) :=
  match s.orch with
  | OrchPC.stat hour =>
    some { s with orch := if notExist then OrchPC.download hour else OrchPC.read hour,
                  attempts := s.attempts ++ [s.bucket hour], hours := s.hours ++ [hour] }
  | _ => none

/-- The call of `utils.DownloadFile` (lines 304-307): on an error the `continue`. -/
def downloadStep {Event : Type} (cfg : Config Event) (ok : Bool) (s : State Event) :
    Option (State Event) :=
  match s.orch with
  | OrchPC.download hour =>
    some { s with orch := if ok then OrchPC.read hour else hourLoop cfg (hour + 1) }
  | _ => none

/-- The call of `utils.ReadGzFile` (lines 310-315). -/
def readStep {Event : Type} (blob : Option (List Byte)) (s : State Event) :
    Option (State Event) :=
  match s.orch with
  | OrchPC.read hour =>
    match blob with
    | none => some { s with orch := OrchPC.ctxCheck hour }
    | some b =>
      some { s with orch := OrchPC.scan hour (scanLines b),
                    cntBytes := wrap64 (s.cntBytes + b.length) }
  | _ => none

/-- The call of `db.PrepareContext` (lines 238-245): `log.Fatal` on an error,
else `wg.Add(threadsArg)`. -/
def prepareStep {Event : Type} (cfg : Config Event) (ok : Bool) (s : State Event) :
    Option (State Event) :=
  match s.pool with
  | PoolPC.entry =>
    if ok then some { s with pool := spawnLoop cfg 1, wg := cfg.threadsArg }
    else some { s with fatal := true }
  | _ => none

/-- A step of the pool goroutine: `go func(threadID int)` or `wg.Wait()`. -/
def poolStep {Event : Type} (cfg : Config Event) (s : State Event) : Option (State Event) :=
  match s.pool with
  | PoolPC.spawn i =>
    some { s with pool := spawnLoop cfg (i + 1), workers := s.workers ++ [WorkerPC.recv] }
  | PoolPC.wait => if s.wg = 0 then some { s with pool := PoolPC.sendFinished } else none
  | _ => none

/-- The hand-over on `finishedCh`. -/
def finishStep {Event : Type} (s : State Event) : Option (State Event) :=
  match s.pool, s.orch with
  | PoolPC.sendFinished, OrchPC.waitFinished =>
    some { s with pool := PoolPC.done, orch := OrchPC.report }
  | _, _ => none

/-- Worker `i` receives from `eventsCh`; on nil it returns. -/
def recvStep {Event : Type} (i : Nat) (s : State Event) : Option (State Event) :=
  match s.workers[i]?, s.eventsCh with
  | some WorkerPC.recv, none :: rest =>
    some { s with workers := s.workers.set i WorkerPC.done, eventsCh := rest, wg := s.wg - 1,
                  deq := s.deq ++ [(i, none)] }
  | some WorkerPC.recv, some e :: rest =>
    some { s with workers := s.workers.set i (WorkerPC.exec e), eventsCh := rest,
                  deq := s.deq ++ [(i, some e)] }
  | _, _ => none

/-- Worker `i` marshals and inserts its record; on an error the `continue`. -/
def execStep {Event : Type} (i : Nat) (ok : Bool) (s : State Event) : Option (State Event) :=
  match s.workers[i]? with
  | some (WorkerPC.exec e) =>
    some { s with workers := s.workers.set i (if ok then WorkerPC.ctxCheck else WorkerPC.recv),
                  ins := s.ins ++ [(i, e, ok)] }
  | _ => none

/-- Worker `i` checks the context; when cancelled it returns. -/
def checkStep {Event : Type} (i : Nat) (s : State Event) : Option (State Event) :=
  match s.workers[i]? with
  | some WorkerPC.ctxCheck =>
    if s.cancelled then some { s with workers := s.workers.set i WorkerPC.done, wg := s.wg - 1 }
    else some { s with workers := s.workers.set i WorkerPC.recv }
  | _ => none

/-- One step of the pipeline. -/
def step {Event : Type} (cfg : Config Event) (s : State Event) (a : Action) :
    Option (State Event) :=
  if s.fatal then none
  else
    match a with
    | Action.orch => orchStep cfg s
    | Action.clock now => clockStep cfg now s
    | Action.stat notExist => statStep notExist s
    | Action.download ok => downloadStep cfg ok s
    | Action.read blob => readStep blob s
    | Action.prepare ok => prepareStep cfg ok s
    | Action.pool => poolStep cfg s
    | Action.finish => finishStep s
    | Action.recv i => recvStep i s
    | Action.exec i ok => execStep i ok s
    | Action.check i => checkStep i s
    | Action.cancel => some { s with cancelled := true }

/-- The states of a run: `runFrom` over the steps of the pipeline, from `init`. -/
def run {Event : Type} (cfg : Config Event) (sched : List Action) : Option (State Event) :=
  runFrom (step cfg) (init Event) sched

/-- The records among the items of a list. -/
def records {Event : Type} (items : List (Option Event)) : List Event :=
  items.filterMap id

/-- The records received by worker `i`, in order. -/
def recvBy {Event : Type} (i : Nat) (deq : List (Nat × Option Event)) : List Event :=
  deq.filterMap (fun x => if x.1 = i then x.2 else none)

/-- The number of nils received by worker `i`. -/
def nilsBy {Event : Type} (i : Nat) (deq : List (Nat × Option Event)) : Nat :=
  deq.countP (fun x => decide (x.1 = i) && x.2.isNone)

/-- The number of sentinels received by worker `i`, where `sent` is the number
of items sent at line 324.  The channel is a queue and the nils of line 337
are sent after the items of line 324, so the sentinels received are the nils
among the items received after the first `sent`; a nil among the first `sent`
items received was sent at line 324, for a line that did not decode. -/
def sentinelsBy {Event : Type} (i : Nat) (sent : Nat) (deq : List (Nat × Option Event)) :
    Nat :=
  nilsBy i (deq.drop sent)

/-- The records worker `i` has passed to `stmt.ExecContext`, in order. -/
def insBy {Event : Type} (i : Nat) (ins : List (Nat × Event × Bool)) : List Event :=
  ins.filterMap (fun x => if x.1 = i then some x.2.1 else none)

/-- The record a worker holds between its receive and its insert call. -/
def WorkerPC.held {Event : Type} : WorkerPC Event → Option Event
  | WorkerPC.exec e => some e
  | _ => none

/-- A decoder for examples, standing in for the JSON decoder: a line that
starts with an opening brace decodes to the record numbered by its length,
any other line leaves `event` nil. -/
def demoDecode (line : List Byte) : Option Nat :=
  if line.head? = some 123 then some line.length else none

/-- A configuration for examples: `threadsArg` workers and `demoDecode`. -/
def demoConfig (threadsArg : Nat) : Config Nat :=
  { threadsArg := threadsArg, decode := demoDecode }

/-! ## The transitions of the pipeline, one by one

The relation `Step` lists the transitions of `step` one constructor each; it
is what the proofs analyse (`step_sound` shows that every step of `step` is
one of them). -/

/-- The transitions of `step`. -/
inductive Step {Event : Type} (cfg : Config Event) (s : State Event) :
    Action → State Event → Prop where
  | dayStart (hf : s.fatal = false) (hpc : s.orch = OrchPC.dayStart) :
    Step cfg s Action.orch
      { s with orch := hourLoop cfg 0, eventsCh := [], cntRows := 0, cntBytes := 0,
               pool := PoolPC.entry, wg := 0, workers := [], readings := [],
               hours := [], stop := none, enq := [], nils := 0, deq := [], ins := [] }
  | scanEnd (hour : Nat) (hf : s.fatal = false) (hpc : s.orch = OrchPC.scan hour []) :
    Step cfg s Action.orch { s with orch := OrchPC.ctxCheck hour }
  | scanLine (hour : Nat) (line : List Byte) (lines : List (List Byte))
    (hf : s.fatal = false) (hpc : s.orch = OrchPC.scan hour (line :: lines)) :
    Step cfg s Action.orch { s with orch := OrchPC.send hour (cfg.decode line) lines }
  | send (hour : Nat) (event : Option Event) (lines : List (List Byte))
    (hf : s.fatal = false) (hpc : s.orch = OrchPC.send hour event lines)
    (hcap : s.eventsCh.length < eventsChCap) :
    Step cfg s Action.orch
      { s with orch := OrchPC.scan hour lines, eventsCh := s.eventsCh ++ [event],
               cntRows := wrap64 (s.cntRows + 1), enq := s.enq ++ [(hour, event)] }
  | orchCancelled (hour : Nat) (hf : s.fatal = false) (hpc : s.orch = OrchPC.ctxCheck hour)
    (hc : s.cancelled = true) :
    Step cfg s Action.orch { s with orch := OrchPC.returned }
  | orchContinue (hour : Nat) (hf : s.fatal = false) (hpc : s.orch = OrchPC.ctxCheck hour)
    (hc : s.cancelled = false) :
    Step cfg s Action.orch { s with orch := hourLoop cfg (hour + 1) }
  | sentinel (i : Nat) (hf : s.fatal = false) (hpc : s.orch = OrchPC.sentinel i)
    (hcap : s.eventsCh.length < eventsChCap) :
    Step cfg s Action.orch
      { s with orch := sentinelLoop cfg (i + 1), eventsCh := s.eventsCh ++ [none],
               nils := s.nils + 1 }
  | report (hf : s.fatal = false) (hpc : s.orch = OrchPC.report) :
    Step cfg s Action.orch (nextDay s)
  | clockBreak (hour : Nat) (now : Time) (hf : s.fatal = false)
    (hpc : s.orch = OrchPC.hourCheck hour)
    (ht : timeParse (dateString s.year s.month s.day hour) = none
      ∨ ∃ t, timeParse (dateString s.year s.month s.day hour) = some t ∧ now < t) :
    Step cfg s (Action.clock now)
      { s with orch := sentinelLoop cfg 1, readings := s.readings ++ [now],
               stop := some (hour, now) }
  | clockPass (hour : Nat) (now t : Time) (hf : s.fatal = false)
    (hpc : s.orch = OrchPC.hourCheck hour)
    (ht : timeParse (dateString s.year s.month s.day hour) = some t) (hnow : ¬ now < t) :
    Step cfg s (Action.clock now)
      { s with orch := OrchPC.stat hour, readings := s.readings ++ [now] }
  | stat (hour : Nat) (notExist : Bool) (hf : s.fatal = false)
    (hpc : s.orch = OrchPC.stat hour) :
    Step cfg s (Action.stat notExist)
      { s with orch := if notExist then OrchPC.download hour else OrchPC.read hour,
               attempts := s.attempts ++ [s.bucket hour], hours := s.hours ++ [hour] }
  | download (hour : Nat) (ok : Bool) (hf : s.fatal = false)
    (hpc : s.orch = OrchPC.download hour) :
    Step cfg s (Action.download ok)
      { s with orch := if ok then OrchPC.read hour else hourLoop cfg (hour + 1) }
  | readFail (hour : Nat) (hf : s.fatal = false) (hpc : s.orch = OrchPC.read hour) :
    Step cfg s (Action.read none) { s with orch := OrchPC.ctxCheck hour }
  | readOk (hour : Nat) (b : List Byte) (hf : s.fatal = false)
    (hpc : s.orch = OrchPC.read hour) :
    Step cfg s (Action.read (some b))
      { s with orch := OrchPC.scan hour (scanLines b),
               cntBytes := wrap64 (s.cntBytes + b.length) }
  | prepareOk (hf : s.fatal = false) (hpool : s.pool = PoolPC.entry) :
    Step cfg s (Action.prepare true) { s with pool := spawnLoop cfg 1, wg := cfg.threadsArg }
  | prepareFail (hf : s.fatal = false) (hpool : s.pool = PoolPC.entry) :
    Step cfg s (Action.prepare false) { s with fatal := true }
  | spawn (i : Nat) (hf : s.fatal = false) (hpool : s.pool = PoolPC.spawn i) :
    Step cfg s Action.pool
      { s with pool := spawnLoop cfg (i + 1), workers := s.workers ++ [WorkerPC.recv] }
  | wait (hf : s.fatal = false) (hpool : s.pool = PoolPC.wait) (hwg : s.wg = 0) :
    Step cfg s Action.pool { s with pool := PoolPC.sendFinished }
  | finish (hf : s.fatal = false) (hpool : s.pool = PoolPC.sendFinished)
    (hpc : s.orch = OrchPC.waitFinished) :
    Step cfg s Action.finish { s with pool := PoolPC.done, orch := OrchPC.report }
  | recvNil (i : Nat) (rest : List (Option Event)) (hf : s.fatal = false)
    (hw : s.workers[i]? = some WorkerPC.recv) (hch : s.eventsCh = none :: rest) :
    Step cfg s (Action.recv i)
      { s with workers := s.workers.set i WorkerPC.done, eventsCh := rest, wg := s.wg - 1,
               deq := s.deq ++ [(i, none)] }
  | recvSome (i : Nat) (e : Event) (rest : List (Option Event)) (hf : s.fatal = false)
    (hw : s.workers[i]? = some WorkerPC.recv) (hch : s.eventsCh = some e :: rest) :
    Step cfg s (Action.recv i)
      { s with workers := s.workers.set i (WorkerPC.exec e), eventsCh := rest,
               deq := s.deq ++ [(i, some e)] }
  | exec (i : Nat) (e : Event) (ok : Bool) (hf : s.fatal = false)
    (hw : s.workers[i]? = some (WorkerPC.exec e)) :
    Step cfg s (Action.exec i ok)
      { s with workers := s.workers.set i (if ok then WorkerPC.ctxCheck else WorkerPC.recv),
               ins := s.ins ++ [(i, e, ok)] }
  | checkCancelled (i : Nat) (hf : s.fatal = false)
    (hw : s.workers[i]? = some WorkerPC.ctxCheck) (hc : s.cancelled = true) :
    Step cfg s (Action.check i) { s with workers := s.workers.set i WorkerPC.done, wg := s.wg - 1 }
  | checkContinue (i : Nat) (hf : s.fatal = false)
    (hw : s.workers[i]? = some WorkerPC.ctxCheck) (hc : s.cancelled = false) :
    Step cfg s (Action.check i) { s with workers := s.workers.set i WorkerPC.recv }
  | cancel (hf : s.fatal = false) : Step cfg s Action.cancel { s with cancelled := true }

/-- The orchestrator is inside the hour loop of the day (lines 292-334). -/
def OrchPC.inHours {Event : Type} : OrchPC Event → Bool
  | OrchPC.hourCheck _ => true
  | OrchPC.stat _ => true
  | OrchPC.download _ => true
  | OrchPC.read _ => true
  | OrchPC.scan _ _ => true
  | OrchPC.send _ _ _ => true
  | OrchPC.ctxCheck _ => true
  | _ => false

/-- The pool goroutine has passed `wg.Add(threadsArg)`. -/
def PoolPC.started : PoolPC → Bool
  | PoolPC.spawn _ => true
  | PoolPC.wait => true
  | PoolPC.sendFinished => true
  | PoolPC.done => true
  | _ => false

/-- The pool goroutine has left the loop that starts the workers. -/
def PoolPC.spawned : PoolPC → Bool
  | PoolPC.wait => true
  | PoolPC.sendFinished => true
  | PoolPC.done => true
  | _ => false

/-- The channel is a queue: what was sent is what was received followed by
what is still buffered. -/
def FifoOk {Event : Type} (enq deq : List (Nat × Option Event)) (nils : Nat)
    (eventsCh : List (Option Event)) : Prop :=
  enq.map Prod.snd ++ List.replicate nils none = deq.map Prod.snd ++ eventsCh

/-- The number of nils sent at line 337, by the position of the orchestrator. -/
def NilsOk {Event : Type} (n : Nat) (orch : OrchPC Event) (nils : Nat) : Prop :=
  (orch.inHours = true → nils = 0)
  ∧ (∀ i, orch = OrchPC.sentinel i → nils + 1 = i ∧ i ≤ n)
  ∧ (orch = OrchPC.waitFinished ∨ orch = OrchPC.report → nils = n)
  ∧ nils ≤ n

/-- The workers and the wait group, by the position of the pool goroutine. -/
def WorkersOk {Event : Type} (n : Nat) (pool : PoolPC) (workers : List (WorkerPC Event))
    (wg : Nat) : Prop :=
  (pool = PoolPC.idle ∨ pool = PoolPC.entry → workers = [])
  ∧ (∀ i, pool = PoolPC.spawn i → workers.length + 1 = i ∧ i ≤ n)
  ∧ (pool.spawned = true → workers.length = n)
  ∧ (pool.started = true → wg + workers.countP WorkerPC.isDone = n)
  ∧ (pool = PoolPC.sendFinished ∨ pool = PoolPC.done → wg = 0)

/-- The positions of the pool goroutine and of the orchestrator. -/
def PhaseOk {Event : Type} (pool : PoolPC) (orch : OrchPC Event) : Prop :=
  (pool = PoolPC.idle → orch = OrchPC.dayStart)
  ∧ (pool = PoolPC.done →
      orch = OrchPC.report ∨ orch = OrchPC.dayStart ∨ orch = OrchPC.returned)
  ∧ (orch = OrchPC.report → pool = PoolPC.done)

/-- The accounting invariant of the channel, the wait group and the loops. -/
structure PoolInv {Event : Type} (cfg : Config Event) (s : State Event) : Prop where
  fifo : FifoOk s.enq s.deq s.nils s.eventsCh
  nils : NilsOk cfg.threadsArg s.orch s.nils
  workers : WorkersOk cfg.threadsArg s.pool s.workers s.wg
  phase : PhaseOk s.pool s.orch

/-- The record worker `i` holds between its receive and its insert call. -/
def heldAt {Event : Type} (workers : List (WorkerPC Event)) (i : Nat) : Option Event :=
  (workers[i]?).bind WorkerPC.held

/-- Whether worker `i` exists and has returned. -/
def doneAt {Event : Type} (workers : List (WorkerPC Event)) (i : Nat) : Bool :=
  match workers[i]? with
  | some w => w.isDone
  | none => false

/-- Every worker has passed to `stmt.ExecContext` exactly the records it has
received, in the order of receipt, but for the record it holds. -/
def HeldOk {Event : Type} (workers : List (WorkerPC Event)) (deq : List (Nat × Option Event))
    (ins : List (Nat × Event × Bool)) : Prop :=
  ∀ i, recvBy i deq = insBy i ins ++ (heldAt workers i).toList

/-- The records received are, up to order, the records inserted and the
records held. -/
def PermOk {Event : Type} (workers : List (WorkerPC Event)) (deq : List (Nat × Option Event))
    (ins : List (Nat × Event × Bool)) : Prop :=
  List.Perm (records (deq.map Prod.snd))
    (ins.map (fun x => x.2.1) ++ workers.filterMap WorkerPC.held)

/-- Without cancellation a worker has returned exactly when it has received
a nil, and it has received at most one. -/
def ExitOk {Event : Type} (cancelled : Bool) (workers : List (WorkerPC Event))
    (deq : List (Nat × Option Event)) : Prop :=
  cancelled = false →
    (∀ i, nilsBy i deq = if doneAt workers i then 1 else 0)
    ∧ workers.countP WorkerPC.isDone = deq.countP (fun x => x.2.isNone)

/-- The invariant of the workers. -/
structure WorkInv {Event : Type} (s : State Event) : Prop where
  held : HeldOk s.workers s.deq s.ins
  perm : PermOk s.workers s.deq s.ins
  exit : ExitOk s.cancelled s.workers s.deq

/-- The hour counter of the orchestrator inside the hour loop. -/
def OrchPC.hour? {Event : Type} : OrchPC Event → Option Nat
  | OrchPC.hourCheck h => some h
  | OrchPC.stat h => some h
  | OrchPC.download h => some h
  | OrchPC.read h => some h
  | OrchPC.scan h _ => some h
  | OrchPC.send h _ _ => some h
  | OrchPC.ctxCheck h => some h
  | _ => none

/-- The first hour of the day for which `os.Stat` has not been called yet,
while the orchestrator is before or inside the hour loop. -/
def OrchPC.frontier {Event : Type} : OrchPC Event → Option Nat
  | OrchPC.dayStart => some 0
  | OrchPC.hourCheck h => some h
  | OrchPC.stat h => some h
  | OrchPC.download h => some (h + 1)
  | OrchPC.read h => some (h + 1)
  | OrchPC.scan h _ => some (h + 1)
  | OrchPC.send h _ _ => some (h + 1)
  | OrchPC.ctxCheck h => some (h + 1)
  | _ => none

/-- The bucket lies on a day before the day `(y, m, d)`. -/
def Bucket.dayLt (b : Bucket) (y m d : Nat) : Prop :=
  b.year < y ∨ (b.year = y ∧ (b.month < m ∨ (b.month = m ∧ b.day < d)))

/-- The buckets attempted so far are in increasing order and lie before the
position of the orchestrator. -/
def OrderOk {Event : Type} (y m d : Nat) (orch : OrchPC Event) (attempts : List Bucket) :
    Prop :=
  attempts.Pairwise Bucket.lt
  ∧ ∀ b ∈ attempts, b.dayLt y m d
      ∨ (b.year = y ∧ b.month = m ∧ b.day = d ∧ ∀ f, orch.frontier = some f → b.hour < f)

/-- The hour check of hour `k` with clock reading `r` leaves the hour loop:
the date does not parse, or its instant is after `r`. -/
def BrokeAt (y m d k : Nat) (r : Time) : Prop :=
  timeParse (dateString y m d k) = none
  ∨ ∃ t, timeParse (dateString y m d k) = some t ∧ r < t

/-- The date of hour `h` parses and its instant is not after the latest
clock reading of the day. -/
def NotAfter (y m d h : Nat) (readings : List Time) : Prop :=
  ∃ t c, timeParse (dateString y m d h) = some t ∧ readings.getLast? = some c ∧ t ≤ c

/-- The invariant of the hour loop of one day. -/
def DayOk {Event : Type} (y m d : Nat) (orch : OrchPC Event) (hours : List Nat)
    (stop : Option (Nat × Time)) (enq : List (Nat × Option Event)) (readings : List Time) :
    Prop :=
  orch ≠ OrchPC.dayStart →
    (∀ h, orch.hour? = some h → h ≤ 23)
    ∧ (∀ f, orch.frontier = some f → hours = List.range f ∧ stop = none)
    ∧ (orch.frontier = none → ∃ k, k ≤ 24 ∧ hours = List.range k)
    ∧ (∀ k r, stop = some (k, r) → hours = List.range k ∧ k ≤ 23 ∧ BrokeAt y m d k r)
    ∧ (∀ x ∈ enq, x.1 ∈ hours)
    ∧ (∀ h ∈ hours, NotAfter y m d h readings)
    ∧ (∀ h, orch = OrchPC.stat h → NotAfter y m d h readings)


/-! ## A measure of what is left to do -/

/-- The iterations left to the loops of lines 280-282 after the day
`year`-`month`-`day`. -/
def daysLeft (year month day : Nat) : Nat :=
  ((2019 - year) * 12 + (12 - month)) * 31 + (31 - day)

/-- The position of the orchestrator within the body of the day loop,
counted down. -/
def OrchPC.rank {Event : Type} : OrchPC Event → Nat
  | OrchPC.dayStart => 160
  | OrchPC.hourCheck h => 6 * (24 - h) + 8
  | OrchPC.stat h => 6 * (24 - h) + 7
  | OrchPC.download h => 6 * (24 - h) + 6
  | OrchPC.read h => 6 * (24 - h) + 5
  | OrchPC.scan h _ => 6 * (24 - h) + 4
  | OrchPC.send h _ _ => 6 * (24 - h) + 4
  | OrchPC.ctxCheck h => 6 * (24 - h) + 3
  | OrchPC.sentinel _ => 2
  | OrchPC.waitFinished => 2
  | OrchPC.report => 1
  | OrchPC.returned => 0

/-- The position of the orchestrator in the whole of
`bulkLoadGitHubEventArchives`, counted down. -/
def orchRank {Event : Type} (year month day : Nat) (orch : OrchPC Event) : Nat :=
  match orch with
  | OrchPC.returned => 0
  | pc => daysLeft year month day * 200 + pc.rank

/-- What the orchestrator still does at its position: the lines left to send,
the nils left to send. -/
def OrchPC.left {Event : Type} (n : Nat) : OrchPC Event → Nat
  | OrchPC.scan _ lines => 5 * lines.length + 1
  | OrchPC.send _ _ lines => 5 * lines.length + 5
  | OrchPC.sentinel i => 4 * (n + 1 - i) + 1
  | OrchPC.waitFinished => 1
  | _ => 0

/-- What the pool goroutine still does at its position. -/
def PoolPC.left (n : Nat) : PoolPC → Nat
  | PoolPC.idle => 0
  | PoolPC.entry => n + 3
  | PoolPC.spawn i => (n + 1 - i) + 2
  | PoolPC.wait => 2
  | PoolPC.sendFinished => 1
  | PoolPC.done => 0

/-- What a worker still does with what it holds. -/
def WorkerPC.left {Event : Type} : WorkerPC Event → Nat
  | WorkerPC.recv => 0
  | WorkerPC.exec _ => 2
  | WorkerPC.ctxCheck => 1
  | WorkerPC.done => 0

/-- What is left to do at the present position of the orchestrator: by the
orchestrator, for the items in the channel, by the pool goroutine and by the
workers. -/
def workLeft {Event : Type} (cfg : Config Event) (s : State Event) : Nat :=
  s.orch.left cfg.threadsArg + 3 * s.eventsCh.length + s.pool.left cfg.threadsArg
    + (s.workers.map WorkerPC.left).sum + (if s.fatal then 0 else 1)

/-- The measure of a state: the position of the orchestrator, then the work
left at this position, in the lexicographic order. -/
def remaining {Event : Type} (cfg : Config Event) (s : State Event) : Nat × Nat :=
  (orchRank s.year s.month s.day s.orch, workLeft cfg s)
/-! ## Example runs -/

/-- The instant 2019-01-01T00:00:00Z. -/
def newYear2019 : Time := 63681897600000000000

/-- A run of the first day with one worker and the blob `{}` in hour 0, in
which the insert call fails: the record is received, its insert fails, the
sentinel is sent and received, and the pool hands over on `finishedCh`. -/
def failedInsertRun : List Action :=
  [Action.orch, Action.clock (newYear2019 + 1), Action.stat false,
   Action.read (some [123, 125, 10]), Action.orch, Action.orch, Action.orch, Action.orch,
   Action.clock (newYear2019 + 1), Action.prepare true, Action.pool, Action.recv 0,
   Action.exec 0 false, Action.orch, Action.recv 0, Action.pool, Action.finish]

/-- The state reached by `failedInsertRun`. -/
def failedInsertEnd : State Nat :=
  { year := 2019, month := 1, day := 1, orch := OrchPC.report, cntRows := 1, cntBytes := 3,
    eventsCh := [], pool := PoolPC.done, wg := 0, workers := [WorkerPC.done],
    cancelled := false, fatal := false,
    attempts := [{ year := 2019, month := 1, day := 1, hour := 0 }],
    readings := [63681897600000000001, 63681897600000000001], hours := [0],
    stop := some (1, 63681897600000000001), enq := [(0, some 2)], nils := 1,
    deq := [(0, some 2), (0, none)], ins := [(0, 2, false)] }

/-- A run of the first day with one worker and a blob of two lines in hour 0,
`x` and `{}`: the first line does not decode. -/
def malformedLineRun : List Action :=
  [Action.orch, Action.clock (newYear2019 + 1), Action.stat false,
   Action.read (some [120, 10, 123, 125, 10]), Action.orch, Action.orch, Action.orch,
   Action.orch, Action.orch, Action.orch, Action.clock (newYear2019 + 1),
   Action.prepare true, Action.pool, Action.recv 0, Action.pool, Action.orch, Action.finish]

/-- A run of the first day with one worker and the blob `{}` in hour 0, in
which the context is cancelled while the worker holds the record. -/
def cancelledWorkerRun : List Action :=
  [Action.orch, Action.clock (newYear2019 + 1), Action.stat false,
   Action.read (some [123, 125, 10]), Action.orch, Action.orch, Action.orch, Action.orch,
   Action.clock (newYear2019 + 1), Action.prepare true, Action.pool, Action.recv 0,
   Action.exec 0 true, Action.cancel, Action.check 0, Action.pool, Action.orch,
   Action.finish]

/-- A run of the first day up to the cancellation of the context, after the
first of three records of hour 0 has been sent. -/
def cancelMidBlobRun : List Action :=
  [Action.orch, Action.clock (newYear2019 + 1), Action.stat false,
   Action.read (some [123, 125, 10, 123, 125, 10, 123, 125, 10]), Action.orch, Action.orch,
   Action.cancel]

/-- A run of the first day up to the cancellation of the context, while the
download of hour 0 is pending. -/
def cancelBeforeDownloadRun : List Action :=
  [Action.orch, Action.clock (newYear2019 + 7200000000000), Action.stat true, Action.cancel]

/-- A state at the check of lines 329-333 with the context cancelled: the
state reached by `cancelMidBlobRun` followed by five steps of the orchestrator. -/
def cancelledAtCheck : State Nat :=
  { year := 2019, month := 1, day := 1, orch := OrchPC.ctxCheck 0, cntRows := 3, cntBytes := 9,
    eventsCh := [some 2, some 2, some 2], pool := PoolPC.entry, wg := 0, workers := [],
    cancelled := true, fatal := false,
    attempts := [{ year := 2019, month := 1, day := 1, hour := 0 }],
    readings := [63681897600000000001], hours := [0], stop := none,
    enq := [(0, some 2), (0, some 2), (0, some 2)], nils := 0, deq := [], ins := [] }

/-- The state reached by `malformedLineRun`. -/
def malformedLineEnd : State Nat :=
  { year := 2019, month := 1, day := 1, orch := OrchPC.report, cntRows := 2, cntBytes := 5,
    eventsCh := [some 2, none], pool := PoolPC.done, wg := 0, workers := [WorkerPC.done],
    cancelled := false, fatal := false,
    attempts := [{ year := 2019, month := 1, day := 1, hour := 0 }],
    readings := [63681897600000000001, 63681897600000000001], hours := [0],
    stop := some (1, 63681897600000000001), enq := [(0, none), (0, some 2)], nils := 1,
    deq := [(0, none)], ins := [] }

/-- The state reached by `cancelledWorkerRun`. -/
def cancelledWorkerEnd : State Nat :=
  { year := 2019, month := 1, day := 1, orch := OrchPC.report, cntRows := 1, cntBytes := 3,
    eventsCh := [none], pool := PoolPC.done, wg := 0, workers := [WorkerPC.done],
    cancelled := true, fatal := false,
    attempts := [{ year := 2019, month := 1, day := 1, hour := 0 }],
    readings := [63681897600000000001, 63681897600000000001], hours := [0],
    stop := some (1, 63681897600000000001), enq := [(0, some 2)], nils := 1,
    deq := [(0, some 2)], ins := [(0, 2, true)] }

/-- The state reached from `cancelledAtCheck` when the orchestrator takes its
step and the pool goroutine prepares its statement. -/
def cancelledReturned : State Nat :=
  { year := 2019, month := 1, day := 1, orch := OrchPC.returned, cntRows := 3, cntBytes := 9,
    eventsCh := [some 2, some 2, some 2], pool := PoolPC.spawn 1, wg := 1, workers := [],
    cancelled := true, fatal := false,
    attempts := [{ year := 2019, month := 1, day := 1, hour := 0 }],
    readings := [63681897600000000001], hours := [0], stop := none,
    enq := [(0, some 2), (0, some 2), (0, some 2)], nils := 0, deq := [], ins := [] }

/-- A run of the first day with one worker in which the archive of hour 0
cannot be read and the context is cancelled before the check of
lines 329-333: the orchestrator returns, and the worker started by the pool
waits on the empty channel. -/
def cancelledNoSentinelRun : List Action :=
  [Action.orch, Action.clock (newYear2019 + 1), Action.stat false, Action.read none,
   Action.cancel, Action.orch, Action.prepare true, Action.pool]

/-- The state reached by `cancelledNoSentinelRun`. -/
def cancelledNoSentinelEnd : State Nat :=
  { year := 2019, month := 1, day := 1, orch := OrchPC.returned, cntRows := 0, cntBytes := 0,
    eventsCh := [], pool := PoolPC.wait, wg := 1, workers := [WorkerPC.recv],
    cancelled := true, fatal := false,
    attempts := [{ year := 2019, month := 1, day := 1, hour := 0 }],
    readings := [63681897600000000001], hours := [0], stop := none, enq := [], nils := 0,
    deq := [], ins := [] }

/-- A run of the first day in which the download of hour 0 fails and the
orchestrator goes on to hour 1. -/
def twoBucketsRun : List Action :=
  [Action.orch, Action.clock (newYear2019 + 7200000000000), Action.stat true,
   Action.download false, Action.clock (newYear2019 + 7200000000000), Action.stat false]

/-- The state reached by `twoBucketsRun`. -/
def twoBucketsEnd : State Nat :=
  { year := 2019, month := 1, day := 1, orch := OrchPC.read 1, cntRows := 0, cntBytes := 0,
    eventsCh := [], pool := PoolPC.entry, wg := 0, workers := [],
    cancelled := false, fatal := false,
    attempts := [{ year := 2019, month := 1, day := 1, hour := 0 },
                 { year := 2019, month := 1, day := 1, hour := 1 }],
    readings := [63681904800000000000, 63681904800000000000], hours := [0, 1],
    stop := none, enq := [], nils := 0, deq := [], ins := [] }


/-! ## Theorems -/

/-! ### The archive key -/

theorem toString_nat_data (n : Nat) : (toString n).data = fmtD n := rfl

theorem zeroPad2_data : ∀ n < 100, (zeroPad2 n).data = fmt02D n := by decide

theorem fmt02D_length : ∀ n < 100, (fmt02D n).length = 2 := by decide

theorem fmt02D_inj : ∀ a < 32, ∀ b < 32, fmt02D a = fmt02D b → a = b := by decide

theorem fmtD_inj_hour : ∀ a < 24, ∀ b < 24, fmtD a = fmtD b → a = b := by decide

theorem filename_data (y m d h : Nat) :
    (filename y m d h).data
      = fmtD y ++ '-' :: (fmt02D m ++ '-' :: (fmt02D d ++ '-' :: (fmtD h ++ ".json.gz".data))) := by
  have hf : "%d-%02d-%02d-%d.json.gz".toList
      = ['%', 'd', '-', '%', '0', '2', 'd', '-', '%', '0', '2', 'd', '-', '%', 'd',
         '.', 'j', 's', 'o', 'n', '.', 'g', 'z'] := by decide
  have hs : ".json.gz".data = ['.', 'j', 's', 'o', 'n', '.', 'g', 'z'] := by decide
  simp only [filename, hf, hs, sprintf, List.append_assoc, List.cons_append, List.nil_append]

theorem specKey_data (y m d h : Nat) (hm : m < 100) (hd : d < 100) :
    (specKey y m d h).data
      = fmtD y ++ '-' :: (fmt02D m ++ '-' :: (fmt02D d ++ '-' :: (fmtD h ++ ".json.gz".data))) := by
  have hdash : "-".data = ['-'] := by decide
  simp only [specKey, String.data_append, toString_nat_data, zeroPad2_data m hm,
    zeroPad2_data d hd, hdash, List.append_assoc, List.cons_append, List.nil_append]

theorem filename_eq_specKey (y m d h : Nat) (hm : m < 100) (hd : d < 100) :
    filename y m d h = specKey y m d h := by
  apply String.ext
  rw [filename_data, specKey_data y m d h hm hd]

theorem filename_inj (y m d h m' d' h' : Nat) (hm : m < 32) (hd : d < 32) (hh : h < 24)
    (hm' : m' < 32) (hd' : d' < 32) (hh' : h' < 24)
    (heq : filename y m d h = filename y m' d' h') : m = m' ∧ d = d' ∧ h = h' := by
  have h1 := congrArg String.data heq
  rw [filename_data, filename_data] at h1
  have h2 := List.append_cancel_left h1
  have h3 : fmt02D m ++ '-' :: (fmt02D d ++ '-' :: (fmtD h ++ ".json.gz".data))
      = fmt02D m' ++ '-' :: (fmt02D d' ++ '-' :: (fmtD h' ++ ".json.gz".data)) := by
    simpa using h2
  have h4 := List.append_inj h3 (by
    rw [fmt02D_length m (by omega), fmt02D_length m' (by omega)])
  have h5 : fmt02D d ++ '-' :: (fmtD h ++ ".json.gz".data)
      = fmt02D d' ++ '-' :: (fmtD h' ++ ".json.gz".data) := by
    simpa using h4.2
  have h6 := List.append_inj h5 (by
    rw [fmt02D_length d (by omega), fmt02D_length d' (by omega)])
  have h7 : fmtD h ++ ".json.gz".data = fmtD h' ++ ".json.gz".data := by
    simpa using h6.2
  have h8 := List.append_cancel_right h7
  exact ⟨fmt02D_inj m hm m' hm' h4.1, fmt02D_inj d hd d' hd' h6.1, fmtD_inj_hour h hh h' hh' h8⟩

/-- C8: for year 2019, month 1..12, day 1..31 and hour 0..23 the archive key
built at line 299 is the key of the specification (year in decimal, month and
day zero-padded to two digits, hour in decimal without padding, then
`.json.gz`), the URL of line 301 is `https://data.gharchive.org/` followed by
that key, and two buckets of the range with the same key are the same bucket. -/
theorem archive_key_format (m d h : Nat) (hm1 : 1 ≤ m) (hm : m ≤ 12) (hd1 : 1 ≤ d)
    (hd : d ≤ 31) (hh : h ≤ 23) :
    filename 2019 m d h = specKey 2019 m d h
    ∧ specKey 2019 m d h
        = "2019-" ++ zeroPad2 m ++ "-" ++ zeroPad2 d ++ "-" ++ toString h ++ ".json.gz"
    ∧ fileURL 2019 m d h = "https://data.gharchive.org/" ++ specKey 2019 m d h
    ∧ ∀ m' d' h', 1 ≤ m' → m' ≤ 12 → 1 ≤ d' → d' ≤ 31 → h' ≤ 23 →
        filename 2019 m d h = filename 2019 m' d' h' → m = m' ∧ d = d' ∧ h = h' := by
  have hk := filename_eq_specKey 2019 m d h (by omega) (by omega)
  refine ⟨hk, ?_, ?_, ?_⟩
  · rfl
  · rw [fileURL, hk]
  · intro m' d' h' _ hm' _ hd' hh' heq
    exact filename_inj 2019 m d h m' d' h' (by omega) (by omega) (by omega) (by omega)
      (by omega) (by omega) heq

/-- Witness of C8 at the bucket 2019-01-02 hour 3. -/
theorem archive_key_format_witness :
    filename 2019 1 2 3 = "2019-01-02-3.json.gz"
    ∧ fileURL 2019 1 2 3 = "https://data.gharchive.org/2019-01-02-3.json.gz" :=
  have h := archive_key_format 1 2 3 (by decide) (by decide) (by decide) (by decide) (by decide)
  ⟨h.1.trans (by decide), h.2.2.1.trans (by decide)⟩

/-! ### The line scanner -/

theorem scanFrom_long (k : Nat) (rest cur : List Byte)
    (hk : maxScanTokenSize ≤ cur.length + k) :
    scanFrom (List.replicate k 97 ++ 10 :: rest) cur = [] := by
  induction k generalizing cur with
  | zero =>
    have h : maxScanTokenSize ≤ cur.length := by simpa using hk
    simp [scanFrom, h]
  | succ k ih =>
    have h97 : ¬ ((97 : Byte) = 10) := by decide
    rw [List.replicate_succ, List.cons_append, scanFrom, if_neg h97]
    apply ih
    simp only [List.length_append, List.length_singleton]
    omega

theorem linesFrom_length_run (k : Nat) (rest cur : List Byte) :
    (linesFrom (List.replicate k 97 ++ 10 :: rest) cur).length
      = (linesFrom rest []).length + 1 := by
  induction k generalizing cur with
  | zero => simp [linesFrom]
  | succ k ih =>
    have h97 : ¬ ((97 : Byte) = 10) := by decide
    rw [List.replicate_succ, List.cons_append, linesFrom, if_neg h97]
    exact ih _

/-- C10 at the failing input: a blob of two newline-terminated lines, the
first of 65536 bytes `a`, the second `{}`.  The blob has two lines, and the
scanner of the decode loop returns none of them: the loop makes no decode
attempt and enqueues nothing. -/
theorem scan_stops_at_long_line :
    (blobLines (List.replicate 65536 97 ++ 10 :: [123, 125, 10])).length = 2
    ∧ scanLines (List.replicate 65536 97 ++ 10 :: [123, 125, 10]) = [] := by
  constructor
  · rw [blobLines, linesFrom_length_run]
    decide
  · exact scanFrom_long 65536 _ [] (by decide)

/-! ### The procedure `extract_commits` -/

theorem maxEventId_spec (rows : List EventRow) (m : Int) (h : maxEventId rows = some m) :
    (∃ r ∈ rows, r.event_id = m) ∧ ∀ r ∈ rows, r.event_id ≤ m := by
  induction rows generalizing m with
  | nil => simp [maxEventId] at h
  | cons r rs ih =>
    rw [maxEventId] at h
    cases hrs : maxEventId rs with
    | none =>
      rw [hrs] at h
      have hm : r.event_id = m := by simpa using h
      have hnil : rs = [] := by
        cases rs with
        | nil => rfl
        | cons a as =>
          rw [maxEventId] at hrs
          cases h2 : maxEventId as <;> rw [h2] at hrs <;> simp at hrs
      subst hnil
      exact ⟨⟨r, by simp, hm⟩, by intro x hx; simp at hx; rw [hx, hm]⟩
    | some m0 =>
      rw [hrs] at h
      have hm : max r.event_id m0 = m := by simpa using h
      obtain ⟨⟨r0, hr0, hr0m⟩, hle⟩ := ih m0 hrs
      refine ⟨?_, ?_⟩
      · rcases le_total r.event_id m0 with hc | hc
        · exact ⟨r0, List.mem_cons_of_mem _ hr0, by rw [hr0m, ← hm, max_eq_right hc]⟩
        · exact ⟨r, List.mem_cons_self _ _, by rw [← hm, max_eq_left hc]⟩
      · intro x hx
        rcases List.mem_cons.mp hx with hx | hx
        · rw [hx, ← hm]; exact le_max_left _ _
        · exact le_trans (hle x hx) (by rw [← hm]; exact le_max_right _ _)

theorem filter_between_empty (l : List Int) (lo : Int) (hi : Option Int)
    (h : ∀ e, hi = some e → e < lo) :
    (l.filter (fun x => between x lo hi)).length = 0 := by
  rw [List.length_eq_zero, List.filter_eq_nil_iff]
  intro x _
  cases hi with
  | none => simp [between]
  | some e =>
    have := h e rfl
    simp only [between, Bool.and_eq_true, decide_eq_true_eq, not_and, not_le]
    intro h1
    omega

/-- C6 (amended): for a cursor below the largest `BIGINT`, one call of
`extract_commits` leaves the cursor greater than or equal to its previous
value; when the cursor changes it is an event id present in `github_events`
and no event id is greater; and when no event id is greater than the cursor
the call leaves the cursor unchanged and returns the count 0. -/
theorem extract_commits_cursor (p : Partition) (commitsOk dailyOk : Bool)
    (hc : p.last_aggregated_id < bigintMax) :
    p.last_aggregated_id ≤ (extract_commits p commitsOk dailyOk).1.last_aggregated_id
    ∧ ((extract_commits p commitsOk dailyOk).1.last_aggregated_id ≠ p.last_aggregated_id →
        (∃ r ∈ p.github_events,
          r.event_id = (extract_commits p commitsOk dailyOk).1.last_aggregated_id)
        ∧ ∀ r ∈ p.github_events,
          r.event_id ≤ (extract_commits p commitsOk dailyOk).1.last_aggregated_id)
    ∧ ((∀ r ∈ p.github_events, r.event_id ≤ p.last_aggregated_id) →
        (extract_commits p commitsOk dailyOk).1.last_aggregated_id = p.last_aggregated_id
        ∧ (extract_commits p commitsOk dailyOk).2 = CallOutcome.count 0) := by
  have hno : ¬ (bigintMax < p.last_aggregated_id + 1) := by omega
  unfold extract_commits
  rw [if_neg hno]
  cases hmax : maxEventId p.github_events with
  | none =>
    simp only [ne_eq, not_true_eq_false, false_implies, le_refl, true_and]
    intro _
    rw [filter_between_empty _ _ none (by simp)]
  | some e =>
    obtain ⟨hmem, hle⟩ := maxEventId_spec _ e hmax
    by_cases hse : p.last_aggregated_id + 1 ≤ e
    · simp only [hse, if_true]
      have hnew : ¬ ∀ r ∈ p.github_events, r.event_id ≤ p.last_aggregated_id := by
        intro hall
        obtain ⟨r, hr, hre⟩ := hmem
        have := hall r hr
        omega
      cases commitsOk with
      | false =>
        simp only [Bool.false_eq_true, if_false, ne_eq, not_true_eq_false, false_implies,
          le_refl, true_and]
        exact fun hall => absurd hall hnew
      | true =>
        simp only [if_true]
        cases dailyOk with
        | true =>
          simp only [if_true]
          exact ⟨by omega, fun _ => ⟨hmem, hle⟩, fun hall => absurd hall hnew⟩
        | false =>
          simp only [Bool.false_eq_true, if_false, ne_eq, not_true_eq_false, false_implies,
            le_refl, true_and]
          exact fun hall => absurd hall hnew
    · simp only [hse, if_false, ne_eq, not_true_eq_false, false_implies, le_refl, true_and]
      intro _
      rw [filter_between_empty _ _ (some e) (by intro e' he'; cases he'; omega)]

/-- Witness of C6 (amended): cursor 7 with event ids 5 and 7. -/
theorem extract_commits_cursor_witness :
    (7 : Int) < bigintMax
    ∧ (extract_commits ⟨7, [⟨5, true, 2⟩, ⟨7, false, 0⟩], [0, 1, 2], [5, 5]⟩ true true).2
        = CallOutcome.count 0 :=
  ⟨by decide,
   ((extract_commits_cursor ⟨7, [⟨5, true, 2⟩, ⟨7, false, 0⟩], [0, 1, 2], [5, 5]⟩ true
      true (by decide)).2.2 (by decide)).2⟩

/-- C6 as stated fails at the cursor `bigintMax` with an empty `github_events`:
no event id is greater than the cursor, and the call does not return the
count 0; it fails with `BIGINT value is out of range`. -/
theorem extract_commits_cursor_counterexample :
    (∀ r ∈ (⟨bigintMax, [], [], []⟩ : Partition).github_events,
        r.event_id ≤ (⟨bigintMax, [], [], []⟩ : Partition).last_aggregated_id)
    ∧ (extract_commits ⟨bigintMax, [], [], []⟩ true true).2 = CallOutcome.outOfRange
    ∧ (extract_commits ⟨bigintMax, [], [], []⟩ true true).2 ≠ CallOutcome.count 0 := by
  decide

/-! ### Executions and invariants -/

theorem runFrom_append {σ α : Type} (step : σ → α → Option σ) (s : σ) (as bs : List α) :
    runFrom step s (as ++ bs) = (runFrom step s as).bind (fun t => runFrom step t bs) := by
  induction as generalizing s with
  | nil => simp [runFrom]
  | cons a as ih =>
    simp only [List.cons_append, runFrom]
    cases step s a with
    | none => simp
    | some s' => simpa using ih s'

/-- An invariant of the steps whose actions satisfy `P` holds after every
schedule of such actions. -/
theorem runFrom_invariant {σ α : Type} (step : σ → α → Option σ) (P : α → Prop)
    (Inv : σ → Prop)
    (hstep : ∀ s a s', P a → Inv s → step s a = some s' → Inv s')
    (s0 : σ) (sched : List α) (s : σ) (h0 : Inv s0) (hP : ∀ a ∈ sched, P a)
    (hrun : runFrom step s0 sched = some s) : Inv s := by
  induction sched generalizing s0 with
  | nil =>
    simp only [runFrom, Option.some.injEq] at hrun
    exact hrun ▸ h0
  | cons a as ih =>
    simp only [runFrom] at hrun
    cases hs : step s0 a with
    | none => simp [hs] at hrun
    | some s1 =>
      rw [hs] at hrun
      exact ih s1 (hstep s0 a s1 (hP a (List.mem_cons_self _ _)) h0 hs)
        (fun x hx => hP x (List.mem_cons_of_mem _ hx)) hrun

/-! ### Replacing one element of a list -/

theorem sum_map_set {β : Type} (f : β → Int) (l : List β) (i : Nat) (c c' : β)
    (h : l[i]? = some c) :
    ((l.set i c').map f).sum = (l.map f).sum - f c + f c' := by
  induction l generalizing i with
  | nil => simp at h
  | cons x xs ih =>
    cases i with
    | zero =>
      simp only [List.getElem?_cons_zero, Option.some.injEq] at h
      subst h
      simp only [List.set_cons_zero, List.map_cons, List.sum_cons]
      omega
    | succ i =>
      simp only [List.getElem?_cons_succ] at h
      simp only [List.set_cons_succ, List.map_cons, List.sum_cons, ih i h]
      omega

theorem countP_set {β : Type} (p : β → Bool) (l : List β) (i : Nat) (c c' : β)
    (h : l[i]? = some c) :
    (l.set i c').countP p + (if p c then 1 else 0)
      = l.countP p + (if p c' then 1 else 0) := by
  induction l generalizing i with
  | nil => simp at h
  | cons x xs ih =>
    cases i with
    | zero =>
      simp only [List.getElem?_cons_zero, Option.some.injEq] at h
      subst h
      simp only [List.set_cons_zero, List.countP_cons]
      split <;> split <;> omega
    | succ i =>
      simp only [List.getElem?_cons_succ] at h
      have := ih i h
      simp only [List.set_cons_succ, List.countP_cons]
      omega

theorem mem_set_cases {β : Type} (l : List β) (i : Nat) (c' x : β)
    (hx : x ∈ l.set i c') : x = c' ∨ x ∈ l := by
  induction l generalizing i with
  | nil => simp at hx
  | cons y ys ih =>
    cases i with
    | zero =>
      simp only [List.set_cons_zero, List.mem_cons] at hx
      rcases hx with hx | hx
      · exact Or.inl hx
      · exact Or.inr (List.mem_cons_of_mem _ hx)
    | succ i =>
      simp only [List.set_cons_succ, List.mem_cons] at hx
      rcases hx with hx | hx
      · exact Or.inr (hx ▸ List.mem_cons_self _ _)
      · rcases ih i hx with h | h
        · exact Or.inl h
        · exact Or.inr (List.mem_cons_of_mem _ h)

theorem exists_get_of_countP_lt {β : Type} (p : β → Bool) (l : List β)
    (h : l.countP p < l.length) : ∃ (i : Nat) (c : β), l[i]? = some c ∧ p c = false := by
  induction l with
  | nil => simp at h
  | cons x xs ih =>
    cases hp : p x with
    | false => exact ⟨0, x, by simp, hp⟩
    | true =>
      simp only [List.countP_cons, hp, if_true, List.length_cons] at h
      obtain ⟨i, c, hi, hc⟩ := ih (by omega)
      exact ⟨i + 1, c, by simpa using hi, hc⟩

theorem countP_eq_length_all {β : Type} (p : β → Bool) (l : List β)
    (h : l.countP p = l.length) : ∀ c ∈ l, p c = true := by
  intro c hc
  exact (List.countP_eq_length.mp h) c hc

/-! ### The aggregator -/

theorem wrap64_add (a b : Int) : wrap64 (wrap64 a + b) = wrap64 (a + b) := by
  unfold wrap64; omega

theorem wrap64_id (a : Int) (h1 : -9223372036854775808 ≤ a) (h2 : a ≤ 9223372036854775807) :
    wrap64 a = a := by
  unfold wrap64; omega

/-- The invariant of a tick. -/
structure AggInv (b : Nat) (s : AggState) : Prop where
  cnt : s.pc ≠ AggPC.start → s.commitsCnt = wrap64 ((s.calls.map CallPC.contribution).sum)
  wg : s.pc ≠ AggPC.start → s.wg + s.calls.countP CallPC.isDone = b
  len : s.pc ≠ AggPC.start → s.calls.length ≤ b
  spawn : ∀ i, s.pc = AggPC.spawn i → s.calls.length = i ∧ i < b
  full : s.pc ≠ AggPC.start → (∀ i, s.pc ≠ AggPC.spawn i) → s.calls.length = b
  done : s.pc = AggPC.report ∨ s.pc = AggPC.ctxCheck ∨ s.pc = AggPC.sleep
    ∨ s.pc = AggPC.returned → s.wg = 0
  ret : s.pc = AggPC.returned → s.cancelled = true

theorem aggInv_init (b : Nat) : AggInv b aggInit := by
  constructor <;> simp [aggInit]

theorem aggLoop_cases (b i : Nat) :
    (i < b ∧ aggLoop b i = AggPC.spawn i) ∨ (b ≤ i ∧ aggLoop b i = AggPC.wait) := by
  unfold aggLoop
  by_cases h : i < b
  · exact Or.inl ⟨h, by simp [h]⟩
  · exact Or.inr ⟨by omega, by simp [h]⟩

theorem aggInv_step (b : Nat) (s : AggState) (a : AggAction) (s' : AggState)
    (hinv : AggInv b s) (hs : aggStep b s a = some s') : AggInv b s' := by
  cases a with
  | cancel =>
    simp only [aggStep, Option.some.injEq] at hs
    subst hs
    exact ⟨hinv.cnt, hinv.wg, hinv.len, hinv.spawn, hinv.full, hinv.done, fun _ => rfl⟩
  | main =>
    simp only [aggStep] at hs
    cases hpc : s.pc with
    | start =>
      rw [hpc] at hs
      simp only [Option.some.injEq] at hs
      subst hs
      rcases aggLoop_cases b 0 with ⟨h0, hl⟩ | ⟨h0, hl⟩
      · constructor <;> simp only [hl] <;> simp [wrap64, h0]
      · constructor <;> simp only [hl] <;> simp [wrap64] <;> omega
    | spawn i =>
      rw [hpc] at hs
      simp only [Option.some.injEq] at hs
      subst hs
      obtain ⟨hlen, hib⟩ := hinv.spawn i hpc
      have hne : s.pc ≠ AggPC.start := by simp [hpc]
      have hcnt := hinv.cnt hne
      have hwg := hinv.wg hne
      have hsum : ((s.calls ++ [CallPC.query]).map CallPC.contribution).sum
          = (s.calls.map CallPC.contribution).sum := by
        simp [CallPC.contribution]
      have hcp : (s.calls ++ [CallPC.query]).countP CallPC.isDone
          = s.calls.countP CallPC.isDone := by
        simp [List.countP_append, CallPC.isDone]
      rcases aggLoop_cases b (i + 1) with ⟨h0, hl⟩ | ⟨h0, hl⟩
      · constructor <;> simp only [hl, hsum, hcp, List.length_append, List.length_singleton]
          <;> simp [hcnt, hwg, hlen, h0] <;> omega
      · constructor <;> simp only [hl, hsum, hcp, List.length_append, List.length_singleton]
          <;> simp [hcnt, hwg, hlen] <;> omega
    | wait =>
      rw [hpc] at hs
      have hne : s.pc ≠ AggPC.start := by simp [hpc]
      by_cases hw : s.wg = 0
      · simp only [hw, if_true, Option.some.injEq] at hs
        subst hs
        have hcnt := hinv.cnt hne
        have hwg := hinv.wg hne
        have hfull := hinv.full hne (by simp [hpc])
        constructor <;> simp [hcnt, hwg, hfull, hw] <;> omega
      · simp [hw] at hs
    | report =>
      rw [hpc] at hs
      simp only [Option.some.injEq] at hs
      subst hs
      have hne : s.pc ≠ AggPC.start := by simp [hpc]
      have hcnt := hinv.cnt hne
      have hwg := hinv.wg hne
      have hfull := hinv.full hne (by simp [hpc])
      have hd := hinv.done (Or.inl hpc)
      constructor <;> simp [hcnt, hwg, hfull, hd] <;> omega
    | ctxCheck =>
      rw [hpc] at hs
      have hne : s.pc ≠ AggPC.start := by simp [hpc]
      have hcnt := hinv.cnt hne
      have hwg := hinv.wg hne
      have hfull := hinv.full hne (by simp [hpc])
      have hd := hinv.done (Or.inr (Or.inl hpc))
      cases hc : s.cancelled with
      | true =>
        rw [hc] at hs
        simp only [if_true, Option.some.injEq] at hs
        subst hs
        constructor <;> simp [hcnt, hwg, hfull, hd, hc] <;> omega
      | false =>
        rw [hc] at hs
        simp only [Bool.false_eq_true, if_false, Option.some.injEq] at hs
        subst hs
        constructor <;> simp [hcnt, hwg, hfull, hd] <;> omega
    | sleep =>
      rw [hpc] at hs
      simp only [Option.some.injEq] at hs
      subst hs
      constructor <;> simp
    | returned =>
      rw [hpc] at hs
      simp at hs
  | query i r =>
    simp only [aggStep] at hs
    cases hget : s.calls[i]? with
    | none => simp [hget] at hs
    | some c =>
      rw [hget] at hs
      cases c with
      | query =>
        cases r with
        | none =>
          simp only [Option.some.injEq] at hs
          subst hs
          have hsum := sum_map_set CallPC.contribution s.calls i _ CallPC.failed hget
          have hcp := countP_set CallPC.isDone s.calls i _ CallPC.failed hget
          simp only [CallPC.contribution, CallPC.isDone] at hsum hcp
          have hlt : s.calls.countP CallPC.isDone < s.calls.length := by
            have := List.countP_le_length (p := CallPC.isDone) (l := s.calls.set i CallPC.failed)
            simp only [List.length_set] at this
            simp at hcp
            omega
          refine ⟨?_, ?_, ?_, ?_, ?_, ?_, hinv.ret⟩
          · intro hne
            simp only [hsum]
            rw [hinv.cnt hne]
            simp
          · intro hne
            have := hinv.wg hne
            have := hinv.len hne
            simp at hcp
            simp only
            omega
          · intro hne
            simpa using hinv.len hne
          · intro j hj
            simpa using hinv.spawn j hj
          · intro hne hsp
            simpa using hinv.full hne hsp
          · intro hd
            have h0 := hinv.done hd
            have hne : s.pc ≠ AggPC.start := by
              rcases hd with h | h | h | h <;> (simp only at h; simp [h])
            have := hinv.wg hne
            have := hinv.len hne
            omega
        | some cnt =>
          by_cases hr : isInt64 cnt = true
          · simp only [hr, if_true, Option.some.injEq] at hs
            subst hs
            have hsum := sum_map_set CallPC.contribution s.calls i _ (CallPC.add cnt) hget
            have hcp := countP_set CallPC.isDone s.calls i _ (CallPC.add cnt) hget
            simp only [CallPC.contribution, CallPC.isDone] at hsum hcp
            refine ⟨?_, ?_, ?_, ?_, ?_, hinv.done, hinv.ret⟩
            · intro hne
              simp only [hsum]
              rw [hinv.cnt hne]
              simp
            · intro hne
              have := hinv.wg hne
              simp at hcp
              simp only
              omega
            · intro hne
              simpa using hinv.len hne
            · intro j hj
              simpa using hinv.spawn j hj
            · intro hne hsp
              simpa using hinv.full hne hsp
          · simp [hr] at hs
      | add _ => simp at hs
      | failed => simp at hs
      | added _ => simp at hs
  | add i =>
    simp only [aggStep] at hs
    cases hget : s.calls[i]? with
    | none => simp [hget] at hs
    | some c =>
      rw [hget] at hs
      cases c with
      | add cnt =>
        simp only [Option.some.injEq] at hs
        subst hs
        have hsum := sum_map_set CallPC.contribution s.calls i _ (CallPC.added cnt) hget
        have hcp := countP_set CallPC.isDone s.calls i _ (CallPC.added cnt) hget
        simp only [CallPC.contribution, CallPC.isDone] at hsum hcp
        have hlt : s.calls.countP CallPC.isDone < s.calls.length := by
          have := List.countP_le_length (p := CallPC.isDone)
            (l := s.calls.set i (CallPC.added cnt))
          simp only [List.length_set] at this
          simp at hcp
          omega
        refine ⟨?_, ?_, ?_, ?_, ?_, ?_, hinv.ret⟩
        · intro hne
          simp only [hsum]
          rw [hinv.cnt hne, wrap64_add]
          simp
        · intro hne
          have := hinv.wg hne
          have := hinv.len hne
          simp at hcp
          simp only
          omega
        · intro hne
          simpa using hinv.len hne
        · intro j hj
          simpa using hinv.spawn j hj
        · intro hne hsp
          simpa using hinv.full hne hsp
        · intro hd
          have h0 := hinv.done hd
          have hne : s.pc ≠ AggPC.start := by
            rcases hd with h | h | h | h <;> (simp only at h; simp [h])
          have := hinv.wg hne
          have := hinv.len hne
          omega
      | query => simp at hs
      | failed => simp at hs
      | added _ => simp at hs

theorem aggInv_reachable (b : Nat) (sched : List AggAction) (s : AggState)
    (hrun : runFrom (aggStep b) aggInit sched = some s) : AggInv b s :=
  runFrom_invariant (aggStep b) (fun _ => True) (AggInv b)
    (fun s a s' _ hi hs => aggInv_step b s a s' hi hs) aggInit sched s (aggInv_init b)
    (fun _ _ => trivial) hrun

theorem sum_map_set_nat {β : Type} (f : β → Nat) (l : List β) (i : Nat) (c c' : β)
    (h : l[i]? = some c) :
    ((l.set i c').map f).sum + f c = (l.map f).sum + f c' := by
  induction l generalizing i with
  | nil => simp at h
  | cons x xs ih =>
    cases i with
    | zero =>
      simp only [List.getElem?_cons_zero, Option.some.injEq] at h
      subst h
      simp only [List.set_cons_zero, List.map_cons, List.sum_cons]
      omega
    | succ i =>
      simp only [List.getElem?_cons_succ] at h
      have := ih i h
      simp only [List.set_cons_succ, List.map_cons, List.sum_cons]
      omega

theorem contribution_eq_of_done (l : List CallPC) (h : ∀ c ∈ l, c.isDone = true) :
    (l.map CallPC.contribution).sum = okSum l := by
  unfold okSum
  induction l with
  | nil => rfl
  | cons c cs ih =>
    have hc := h c (List.mem_cons_self _ _)
    have ih2 := ih (fun x hx => h x (List.mem_cons_of_mem _ hx))
    simp only [List.map_cons, List.sum_cons, ih2]
    cases c <;> simp [CallPC.contribution, CallPC.returnedCount, CallPC.isDone] at hc ⊢

theorem agg_all_done (b : Nat) (s : AggState) (hinv : AggInv b s)
    (hpc : s.pc = AggPC.report ∨ s.pc = AggPC.ctxCheck ∨ s.pc = AggPC.sleep
      ∨ s.pc = AggPC.returned) :
    s.calls.length = b ∧ ∀ c ∈ s.calls, c.isDone = true := by
  have hne : s.pc ≠ AggPC.start := by
    rcases hpc with h | h | h | h <;> simp [h]
  have hsp : ∀ i, s.pc ≠ AggPC.spawn i := by
    intro i
    rcases hpc with h | h | h | h <;> simp [h]
  have hfull := hinv.full hne hsp
  have hwg := hinv.wg hne
  have h0 := hinv.done hpc
  exact ⟨hfull, countP_eq_length_all _ _ (by omega)⟩

theorem agg_progress (b : Nat) (s : AggState) (hinv : AggInv b s)
    (hpc : s.pc ≠ AggPC.returned) :
    ∃ a, a ≠ AggAction.cancel ∧ (aggStep b s a).isSome = true := by
  cases h : s.pc with
  | start => exact ⟨AggAction.main, by simp, by simp [aggStep, h]⟩
  | spawn i => exact ⟨AggAction.main, by simp, by simp [aggStep, h]⟩
  | report => exact ⟨AggAction.main, by simp, by simp [aggStep, h]⟩
  | ctxCheck =>
    refine ⟨AggAction.main, by simp, ?_⟩
    cases hc : s.cancelled <;> simp [aggStep, h, hc]
  | sleep => exact ⟨AggAction.main, by simp, by simp [aggStep, h]⟩
  | returned => exact absurd h hpc
  | wait =>
    by_cases hw : s.wg = 0
    · exact ⟨AggAction.main, by simp, by simp [aggStep, h, hw]⟩
    · have hne : s.pc ≠ AggPC.start := by simp [h]
      have hfull := hinv.full hne (by simp [h])
      have hwg := hinv.wg hne
      obtain ⟨i, c, hi, hc⟩ := exists_get_of_countP_lt CallPC.isDone s.calls (by omega)
      cases c with
      | query => exact ⟨AggAction.query i none, by simp, by simp [aggStep, hi]⟩
      | add cnt => exact ⟨AggAction.add i, by simp, by simp [aggStep, hi]⟩
      | failed => simp [CallPC.isDone] at hc
      | added cnt => simp [CallPC.isDone] at hc

theorem agg_tick_decreases (b : Nat) (s : AggState) (a : AggAction) (s' : AggState)
    (hinv : AggInv b s) (ha : a ≠ AggAction.cancel) (hpc : s.pc.inTick = true)
    (hs : aggStep b s a = some s') : tickWork b s' < tickWork b s := by
  cases a with
  | cancel => exact absurd rfl ha
  | main =>
    simp only [aggStep] at hs
    cases h : s.pc with
    | start =>
      rw [h] at hs
      simp only [Option.some.injEq] at hs
      subst hs
      rcases aggLoop_cases b 0 with ⟨_, hl⟩ | ⟨_, hl⟩ <;>
        simp only [tickWork, hl, h, AggPC.rank, List.map_nil, List.sum_nil] <;> omega
    | spawn i =>
      rw [h] at hs
      simp only [Option.some.injEq] at hs
      subst hs
      obtain ⟨_, hib⟩ := hinv.spawn i h
      rcases aggLoop_cases b (i + 1) with ⟨_, hl⟩ | ⟨_, hl⟩ <;>
        simp only [tickWork, hl, h, AggPC.rank, List.map_append, List.sum_append,
          List.map_cons, List.map_nil, List.sum_cons, List.sum_nil, CallPC.work] <;> omega
    | wait =>
      rw [h] at hs
      by_cases hw : s.wg = 0
      · simp only [hw, if_true, Option.some.injEq] at hs
        subst hs
        simp only [tickWork, h, AggPC.rank]
        omega
      · simp [hw] at hs
    | report => simp [h, AggPC.inTick] at hpc
    | ctxCheck => simp [h, AggPC.inTick] at hpc
    | sleep => simp [h, AggPC.inTick] at hpc
    | returned => simp [h, AggPC.inTick] at hpc
  | query i r =>
    simp only [aggStep] at hs
    cases hget : s.calls[i]? with
    | none => simp [hget] at hs
    | some c =>
      rw [hget] at hs
      cases c with
      | query =>
        cases r with
        | none =>
          simp only [Option.some.injEq] at hs
          subst hs
          have := sum_map_set_nat CallPC.work s.calls i _ CallPC.failed hget
          simp only [CallPC.work] at this
          simp only [tickWork]
          omega
        | some cnt =>
          by_cases hr : isInt64 cnt = true
          · simp only [hr, if_true, Option.some.injEq] at hs
            subst hs
            have := sum_map_set_nat CallPC.work s.calls i _ (CallPC.add cnt) hget
            simp only [CallPC.work] at this
            simp only [tickWork]
            omega
          · simp [hr] at hs
      | add _ => simp at hs
      | failed => simp at hs
      | added _ => simp at hs
  | add i =>
    simp only [aggStep] at hs
    cases hget : s.calls[i]? with
    | none => simp [hget] at hs
    | some c =>
      rw [hget] at hs
      cases c with
      | add cnt =>
        simp only [Option.some.injEq] at hs
        subst hs
        have := sum_map_set_nat CallPC.work s.calls i _ (CallPC.added cnt) hget
        simp only [CallPC.work] at this
        simp only [tickWork]
        omega
      | query => simp at hs
      | failed => simp at hs
      | added _ => simp at hs

/-- C4 (amended): in every state reached by `invokeBackendProcedures` with
`backendsArg` backends, whatever the outcome and the completion order of the
calls: when the aggregate of a tick is read (line 223) every goroutine of the
tick has returned and `commitsCnt` is the sum of the counts of exactly the
partitions whose call succeeded, reduced to `int64` (the sum itself when it is
an `int64` value), a failed partition counting 0; the tick completes, since
some step other than cancellation is always possible until the function
returns and every such step inside a tick decreases `tickWork`; after the
tick the loop sleeps and starts the next tick when the context is not
cancelled, whatever the number of failed partitions; it returns only when
the context is cancelled, and it does return when the check after the tick
finds the context cancelled. -/
theorem tick_aggregate (b : Nat) (sched : List AggAction) (s : AggState)
    (hrun : runFrom (aggStep b) aggInit sched = some s) :
    (s.pc = AggPC.report →
      s.calls.length = b ∧ (∀ c ∈ s.calls, c.isDone = true)
      ∧ s.commitsCnt = wrap64 (okSum s.calls)
      ∧ (isInt64 (okSum s.calls) = true → s.commitsCnt = okSum s.calls))
    ∧ (s.pc ≠ AggPC.returned → ∃ a, a ≠ AggAction.cancel ∧ (aggStep b s a).isSome = true)
    ∧ (∀ a s', a ≠ AggAction.cancel → s.pc.inTick = true → aggStep b s a = some s' →
        tickWork b s' < tickWork b s)
    ∧ (s.pc = AggPC.ctxCheck → s.cancelled = false →
        runFrom (aggStep b) s [AggAction.main, AggAction.main]
          = some { s with pc := AggPC.start })
    ∧ (s.pc = AggPC.returned → s.cancelled = true)
    ∧ (s.pc = AggPC.ctxCheck → s.cancelled = true →
        aggStep b s AggAction.main = some { s with pc := AggPC.returned }) := by
  have hinv := aggInv_reachable b sched s hrun
  refine ⟨?_, agg_progress b s hinv, ?_, ?_, hinv.ret, ?_⟩
  · intro hpc
    obtain ⟨hlen, hall⟩ := agg_all_done b s hinv (Or.inl hpc)
    have hcnt := hinv.cnt (by simp [hpc])
    rw [contribution_eq_of_done _ hall] at hcnt
    refine ⟨hlen, hall, hcnt, ?_⟩
    intro hr
    rw [hcnt]
    simp only [isInt64, Bool.and_eq_true, decide_eq_true_eq] at hr
    exact wrap64_id _ hr.1 hr.2
  · intro a s' ha hpc hs
    exact agg_tick_decreases b s a s' hinv ha hpc hs
  · intro hpc hc
    simp [runFrom, aggStep, hpc, hc]
  · intro hpc hc
    simp [aggStep, hpc, hc]

/-- Witness of C4 (amended): three backends, the third call fails, the other
two return 5 and 7; the aggregate read for the tick is 12. -/
theorem tick_aggregate_witness :
    (runFrom (aggStep 3) aggInit
        [AggAction.main, AggAction.main, AggAction.main, AggAction.main,
         AggAction.query 2 none, AggAction.query 0 (some 5), AggAction.query 1 (some 7),
         AggAction.add 1, AggAction.add 0, AggAction.main]
      = some { pc := AggPC.report, commitsCnt := 12, wg := 0,
               calls := [CallPC.added 5, CallPC.added 7, CallPC.failed],
               cancelled := false, logged := [] })
    ∧ (12 : Int) = wrap64 (okSum [CallPC.added 5, CallPC.added 7, CallPC.failed]) :=
  ⟨by decide,
   ((tick_aggregate 3
      [AggAction.main, AggAction.main, AggAction.main, AggAction.main,
       AggAction.query 2 none, AggAction.query 0 (some 5), AggAction.query 1 (some 7),
       AggAction.add 1, AggAction.add 0, AggAction.main]
      { pc := AggPC.report, commitsCnt := 12, wg := 0,
        calls := [CallPC.added 5, CallPC.added 7, CallPC.failed],
        cancelled := false, logged := [] } (by decide)).1 rfl).2.2.1⟩

/-- C4 as stated fails.  With two backends whose calls both return
4611686018427387904 the aggregate read for the tick is -9223372036854775808,
not the sum 9223372036854775808; and with one backend and the context
cancelled during the tick the loop does not go on to a next tick: the
function returns. -/
theorem tick_aggregate_counterexample :
    (runFrom (aggStep 2) aggInit
        [AggAction.main, AggAction.main, AggAction.main,
         AggAction.query 0 (some 4611686018427387904), AggAction.add 0,
         AggAction.query 1 (some 4611686018427387904), AggAction.add 1,
         AggAction.main]).map (fun s => (s.pc, s.commitsCnt, okSum s.calls))
      = some (AggPC.report, -9223372036854775808, 9223372036854775808)
    ∧ (runFrom (aggStep 1) aggInit
        [AggAction.main, AggAction.main, AggAction.query 0 (some 1), AggAction.cancel,
         AggAction.add 0, AggAction.main, AggAction.main, AggAction.main]).map
          (fun s => (s.pc, s.logged))
      = some (AggPC.returned, [1]) := by
  decide

/-! ### The pipeline: the transitions of `step` -/

theorem step_sound {Event : Type} (cfg : Config Event) (s : State Event) (a : Action)
    (s' : State Event) (hs : step cfg s a = some s') : Step cfg s a s' := by
  unfold step at hs
  by_cases hfat : s.fatal = true
  · rw [if_pos hfat] at hs
    simp at hs
  · rw [if_neg hfat] at hs
    have hf : s.fatal = false := by simpa using hfat
    cases a with
    | orch =>
      simp only [orchStep] at hs
      split at hs
      · simp only [Option.some.injEq] at hs; subst hs; exact Step.dayStart hf ‹_›
      · simp only [Option.some.injEq] at hs; subst hs; exact Step.scanEnd _ hf ‹_›
      · simp only [Option.some.injEq] at hs; subst hs; exact Step.scanLine _ _ _ hf ‹_›
      · split at hs
        · simp only [Option.some.injEq] at hs; subst hs; exact Step.send _ _ _ hf ‹_› ‹_›
        · simp at hs
      · by_cases hc : s.cancelled = true
        · rw [if_pos hc] at hs
          simp only [Option.some.injEq] at hs
          subst hs; exact Step.orchCancelled _ hf ‹_› hc
        · rw [if_neg hc] at hs
          simp only [Option.some.injEq] at hs
          subst hs; exact Step.orchContinue _ hf ‹_› (by simpa using hc)
      · split at hs
        · simp only [Option.some.injEq] at hs; subst hs; exact Step.sentinel _ hf ‹_› ‹_›
        · simp at hs
      · simp only [Option.some.injEq] at hs; subst hs; exact Step.report hf ‹_›
      · simp at hs
    | clock now =>
      simp only [clockStep] at hs
      split at hs
      · rename_i hour hpc
        cases ht : timeParse (dateString s.year s.month s.day hour) with
        | none =>
          simp only [ht, Option.some.injEq] at hs
          subst hs; exact Step.clockBreak hour now hf hpc (Or.inl ht)
        | some t =>
          simp only [ht] at hs
          by_cases hlt : now < t
          · simp only [hlt, if_true, Option.some.injEq] at hs
            subst hs; exact Step.clockBreak hour now hf hpc (Or.inr ⟨t, ht, hlt⟩)
          · simp only [hlt, if_false, Option.some.injEq] at hs
            subst hs; exact Step.clockPass hour now t hf hpc ht hlt
      · simp at hs
    | stat notExist =>
      simp only [statStep] at hs
      split at hs
      · simp only [Option.some.injEq] at hs; subst hs; exact Step.stat _ _ hf ‹_›
      · simp at hs
    | download ok =>
      simp only [downloadStep] at hs
      split at hs
      · simp only [Option.some.injEq] at hs; subst hs; exact Step.download _ _ hf ‹_›
      · simp at hs
    | read blob =>
      simp only [readStep] at hs
      split at hs
      · rename_i hour hpc
        cases blob with
        | none =>
          simp only [Option.some.injEq] at hs; subst hs; exact Step.readFail _ hf hpc
        | some b =>
          simp only [Option.some.injEq] at hs; subst hs; exact Step.readOk _ _ hf hpc
      · simp at hs
    | prepare ok =>
      simp only [prepareStep] at hs
      split at hs
      · cases ok with
        | true =>
          simp only [if_true, Option.some.injEq] at hs; subst hs; exact Step.prepareOk hf ‹_›
        | false =>
          simp only [Bool.false_eq_true, if_false, Option.some.injEq] at hs
          subst hs; exact Step.prepareFail hf ‹_›
      · simp at hs
    | pool =>
      simp only [poolStep] at hs
      split at hs
      · simp only [Option.some.injEq] at hs; subst hs; exact Step.spawn _ hf ‹_›
      · split at hs
        · simp only [Option.some.injEq] at hs; subst hs; exact Step.wait hf ‹_› ‹_›
        · simp at hs
      · simp at hs
    | finish =>
      simp only [finishStep] at hs
      split at hs
      · simp only [Option.some.injEq] at hs; subst hs; exact Step.finish hf ‹_› ‹_›
      · simp at hs
    | recv i =>
      simp only [recvStep] at hs
      split at hs
      · simp only [Option.some.injEq] at hs; subst hs; exact Step.recvNil _ _ hf ‹_› ‹_›
      · simp only [Option.some.injEq] at hs; subst hs; exact Step.recvSome _ _ _ hf ‹_› ‹_›
      · simp at hs
    | exec i ok =>
      simp only [execStep] at hs
      split at hs
      · simp only [Option.some.injEq] at hs; subst hs; exact Step.exec _ _ _ hf ‹_›
      · simp at hs
    | check i =>
      simp only [checkStep] at hs
      split at hs
      · rename_i hw
        by_cases hc : s.cancelled = true
        · rw [if_pos hc] at hs
          simp only [Option.some.injEq] at hs
          subst hs; exact Step.checkCancelled _ hf hw hc
        · rw [if_neg hc] at hs
          simp only [Option.some.injEq] at hs
          subst hs; exact Step.checkContinue _ hf hw (by simpa using hc)
      · simp at hs
    | cancel =>
      simp only [Option.some.injEq] at hs; subst hs; exact Step.cancel hf

/-! ### The accounting invariant -/

theorem hourLoop_cases {Event : Type} (cfg : Config Event) (h : Nat) :
    (h ≤ 23 ∧ hourLoop cfg h = OrchPC.hourCheck h)
    ∨ (23 < h ∧ hourLoop cfg h = sentinelLoop cfg 1) := by
  unfold hourLoop
  by_cases hh : h ≤ 23
  · exact Or.inl ⟨hh, by rw [if_pos hh]⟩
  · exact Or.inr ⟨by omega, by rw [if_neg hh]⟩

theorem sentinelLoop_cases {Event : Type} (cfg : Config Event) (i : Nat) :
    (i ≤ cfg.threadsArg ∧ sentinelLoop cfg i = OrchPC.sentinel i)
    ∨ (cfg.threadsArg < i ∧ sentinelLoop cfg i = OrchPC.waitFinished) := by
  unfold sentinelLoop
  by_cases hh : i ≤ cfg.threadsArg
  · exact Or.inl ⟨hh, by rw [if_pos hh]⟩
  · exact Or.inr ⟨by omega, by rw [if_neg hh]⟩

theorem spawnLoop_cases {Event : Type} (cfg : Config Event) (i : Nat) :
    (i ≤ cfg.threadsArg ∧ spawnLoop cfg i = PoolPC.spawn i)
    ∨ (cfg.threadsArg < i ∧ spawnLoop cfg i = PoolPC.wait) := by
  unfold spawnLoop
  by_cases hh : i ≤ cfg.threadsArg
  · exact Or.inl ⟨hh, by rw [if_pos hh]⟩
  · exact Or.inr ⟨by omega, by rw [if_neg hh]⟩

theorem nextDay_orch {Event : Type} (s : State Event) :
    (nextDay s).orch = OrchPC.dayStart ∨ (nextDay s).orch = OrchPC.returned := by
  unfold nextDay
  split
  · exact Or.inl rfl
  · split
    · exact Or.inl rfl
    · split
      · exact Or.inl rfl
      · exact Or.inr rfl

theorem nextDay_frame {Event : Type} (s : State Event) :
    (nextDay s).nils = s.nils ∧ (nextDay s).pool = s.pool ∧ (nextDay s).workers = s.workers
    ∧ (nextDay s).wg = s.wg ∧ (nextDay s).enq = s.enq ∧ (nextDay s).deq = s.deq
    ∧ (nextDay s).eventsCh = s.eventsCh ∧ (nextDay s).ins = s.ins
    ∧ (nextDay s).cancelled = s.cancelled ∧ (nextDay s).attempts = s.attempts
    ∧ (nextDay s).hours = s.hours ∧ (nextDay s).stop = s.stop
    ∧ (nextDay s).readings = s.readings ∧ (nextDay s).fatal = s.fatal := by
  unfold nextDay
  split
  · simp
  · split
    · simp
    · split <;> simp

/-! #### `NilsOk` -/

theorem nilsOk_inHours {Event : Type} (n : Nat) (orch : OrchPC Event) (nils : Nat)
    (h : orch.inHours = true) (h0 : nils = 0) : NilsOk n orch nils := by
  refine ⟨fun _ => h0, ?_, ?_, by omega⟩
  · intro i hi
    rw [hi] at h
    simp [OrchPC.inHours] at h
  · intro hi
    rcases hi with hi | hi <;> rw [hi] at h <;> simp [OrchPC.inHours] at h

theorem nilsOk_sentinelLoop {Event : Type} (cfg : Config Event) (i nils : Nat)
    (h1 : nils + 1 = i) (h2 : i ≤ cfg.threadsArg + 1) :
    NilsOk cfg.threadsArg (sentinelLoop cfg i) nils := by
  rcases sentinelLoop_cases cfg i with ⟨hi, hl⟩ | ⟨hi, hl⟩ <;> rw [hl]
  · refine ⟨by simp [OrchPC.inHours], ?_, by simp, by omega⟩
    intro j hj
    simp only [OrchPC.sentinel.injEq] at hj
    omega
  · refine ⟨by simp [OrchPC.inHours], by simp, fun _ => by omega, by omega⟩

theorem nilsOk_hourLoop {Event : Type} (cfg : Config Event) (h nils : Nat) (h0 : nils = 0) :
    NilsOk cfg.threadsArg (hourLoop cfg h) nils := by
  rcases hourLoop_cases cfg h with ⟨_, hl⟩ | ⟨_, hl⟩ <;> rw [hl]
  · exact nilsOk_inHours _ _ _ rfl h0
  · exact nilsOk_sentinelLoop cfg 1 nils (by omega) (by omega)

theorem nilsOk_other {Event : Type} (n : Nat) (orch : OrchPC Event) (nils : Nat)
    (h : orch = OrchPC.dayStart ∨ orch = OrchPC.returned) (hn : nils ≤ n) :
    NilsOk n orch nils := by
  rcases h with h | h <;> rw [h] <;> exact ⟨by simp [OrchPC.inHours], by simp, by simp, hn⟩

theorem nilsOk_step {Event : Type} (cfg : Config Event) (s : State Event) (a : Action)
    (s' : State Event) (h : NilsOk cfg.threadsArg s.orch s.nils) (hS : Step cfg s a s') :
    NilsOk cfg.threadsArg s'.orch s'.nils := by
  have hin : s.orch.inHours = true → s.nils = 0 := h.1
  cases hS <;> first | exact h | skip
  case dayStart hf hpc => exact nilsOk_hourLoop cfg 0 0 rfl
  case scanEnd hour hf hpc => exact nilsOk_inHours _ _ _ rfl (hin (by rw [hpc]; rfl))
  case scanLine hour line lines hf hpc =>
    exact nilsOk_inHours _ _ _ rfl (hin (by rw [hpc]; rfl))
  case send hour event lines hf hpc hcap =>
    exact nilsOk_inHours _ _ _ rfl (hin (by rw [hpc]; rfl))
  case orchCancelled hour hf hpc hc => exact nilsOk_other _ _ _ (Or.inr rfl) h.2.2.2
  case orchContinue hour hf hpc hc =>
    exact nilsOk_hourLoop cfg _ _ (hin (by rw [hpc]; rfl))
  case sentinel i hf hpc hcap =>
    have := h.2.1 i hpc
    exact nilsOk_sentinelLoop cfg (i + 1) (s.nils + 1) (by omega) (by omega)
  case report hf hpc =>
    rw [(nextDay_frame s).1]
    exact nilsOk_other _ _ _ (nextDay_orch s) h.2.2.2
  case clockBreak hour now hf hpc ht =>
    have h0 := hin (by rw [hpc]; rfl)
    exact nilsOk_sentinelLoop cfg 1 s.nils (by omega) (by omega)
  case clockPass hour now t hf hpc ht hnow =>
    exact nilsOk_inHours _ _ _ rfl (hin (by rw [hpc]; rfl))
  case stat hour notExist hf hpc =>
    exact nilsOk_inHours _ _ _ (by cases notExist <;> rfl) (hin (by rw [hpc]; rfl))
  case download hour ok hf hpc =>
    have h0 := hin (by rw [hpc]; rfl)
    cases ok
    · exact nilsOk_hourLoop cfg _ _ h0
    · exact nilsOk_inHours _ _ _ rfl h0
  case readFail hour hf hpc => exact nilsOk_inHours _ _ _ rfl (hin (by rw [hpc]; rfl))
  case readOk hour b hf hpc => exact nilsOk_inHours _ _ _ rfl (hin (by rw [hpc]; rfl))
  case finish hf hpool hpc =>
    have hn := h.2.2.1 (Or.inl hpc)
    exact ⟨by simp [OrchPC.inHours], by simp, fun _ => hn, h.2.2.2⟩

/-! #### `PhaseOk` -/

theorem phaseOk_orch_move {Event : Type} (pool : PoolPC) (orch orch' : OrchPC Event)
    (h : PhaseOk pool orch) (h1 : orch ≠ OrchPC.dayStart) (h2 : orch ≠ OrchPC.report)
    (h3 : orch ≠ OrchPC.returned) (h4 : orch' ≠ OrchPC.report) : PhaseOk pool orch' := by
  obtain ⟨hi, hd, hr⟩ := h
  refine ⟨?_, ?_, ?_⟩
  · intro hp
    exact absurd (hi hp) h1
  · intro hp
    rcases hd hp with h | h | h
    · exact absurd h h2
    · exact absurd h h1
    · exact absurd h h3
  · intro ho
    exact absurd ho h4

theorem hourLoop_ne_report {Event : Type} (cfg : Config Event) (h : Nat) :
    hourLoop cfg h ≠ OrchPC.report := by
  rcases hourLoop_cases cfg h with ⟨_, hl⟩ | ⟨_, hl⟩ <;> rw [hl]
  · simp
  · rcases sentinelLoop_cases cfg 1 with ⟨_, hl2⟩ | ⟨_, hl2⟩ <;> rw [hl2] <;> simp

theorem sentinelLoop_ne_report {Event : Type} (cfg : Config Event) (i : Nat) :
    sentinelLoop cfg i ≠ OrchPC.report := by
  rcases sentinelLoop_cases cfg i with ⟨_, hl2⟩ | ⟨_, hl2⟩ <;> rw [hl2] <;> simp

theorem phaseOk_pool_move {Event : Type} (pool pool' : PoolPC) (orch : OrchPC Event)
    (h : PhaseOk pool orch) (h1 : pool ≠ PoolPC.done) (h2 : pool' ≠ PoolPC.idle)
    (h3 : pool' ≠ PoolPC.done) : PhaseOk pool' orch := by
  obtain ⟨hi, hd, hr⟩ := h
  exact ⟨fun hp => absurd hp h2, fun hp => absurd hp h3, fun ho => absurd (hr ho) h1⟩

theorem spawnLoop_ne {Event : Type} (cfg : Config Event) (i : Nat) :
    spawnLoop cfg i ≠ PoolPC.idle ∧ spawnLoop cfg i ≠ PoolPC.done := by
  rcases spawnLoop_cases cfg i with ⟨_, hl2⟩ | ⟨_, hl2⟩ <;> rw [hl2] <;> simp

theorem phaseOk_step {Event : Type} (cfg : Config Event) (s : State Event) (a : Action)
    (s' : State Event) (h : PhaseOk s.pool s.orch) (hS : Step cfg s a s') :
    PhaseOk s'.pool s'.orch := by
  cases hS <;> first | exact h | skip
  case dayStart hf hpc =>
    exact ⟨by simp, by simp, fun ho => absurd ho (hourLoop_ne_report cfg 0)⟩
  case scanEnd hour hf hpc =>
    exact phaseOk_orch_move _ _ _ h (by simp [hpc]) (by simp [hpc]) (by simp [hpc]) (by simp)
  case scanLine hour line lines hf hpc =>
    exact phaseOk_orch_move _ _ _ h (by simp [hpc]) (by simp [hpc]) (by simp [hpc]) (by simp)
  case send hour event lines hf hpc hcap =>
    exact phaseOk_orch_move _ _ _ h (by simp [hpc]) (by simp [hpc]) (by simp [hpc]) (by simp)
  case orchCancelled hour hf hpc hc =>
    exact phaseOk_orch_move _ _ _ h (by simp [hpc]) (by simp [hpc]) (by simp [hpc]) (by simp)
  case orchContinue hour hf hpc hc =>
    exact phaseOk_orch_move _ _ _ h (by simp [hpc]) (by simp [hpc]) (by simp [hpc])
      (hourLoop_ne_report cfg _)
  case sentinel i hf hpc hcap =>
    exact phaseOk_orch_move _ _ _ h (by simp [hpc]) (by simp [hpc]) (by simp [hpc])
      (sentinelLoop_ne_report cfg _)
  case report hf hpc =>
    rw [(nextDay_frame s).2.1]
    have hd := h.2.2 hpc
    refine ⟨fun hp => ?_, fun _ => ?_, fun ho => ?_⟩
    · rw [hd] at hp; simp at hp
    · rcases nextDay_orch s with h1 | h1
      · exact Or.inr (Or.inl h1)
      · exact Or.inr (Or.inr h1)
    · rcases nextDay_orch s with h1 | h1 <;> rw [h1] at ho <;> simp at ho
  case clockBreak hour now hf hpc ht =>
    exact phaseOk_orch_move _ _ _ h (by simp [hpc]) (by simp [hpc]) (by simp [hpc])
      (sentinelLoop_ne_report cfg _)
  case clockPass hour now t hf hpc ht hnow =>
    exact phaseOk_orch_move _ _ _ h (by simp [hpc]) (by simp [hpc]) (by simp [hpc]) (by simp)
  case stat hour notExist hf hpc =>
    exact phaseOk_orch_move _ _ _ h (by simp [hpc]) (by simp [hpc]) (by simp [hpc])
      (by cases notExist <;> simp)
  case download hour ok hf hpc =>
    refine phaseOk_orch_move _ _ _ h (by simp [hpc]) (by simp [hpc]) (by simp [hpc]) ?_
    cases ok
    · exact hourLoop_ne_report cfg _
    · simp
  case readFail hour hf hpc =>
    exact phaseOk_orch_move _ _ _ h (by simp [hpc]) (by simp [hpc]) (by simp [hpc]) (by simp)
  case readOk hour b hf hpc =>
    exact phaseOk_orch_move _ _ _ h (by simp [hpc]) (by simp [hpc]) (by simp [hpc]) (by simp)
  case prepareOk hf hpool =>
    exact phaseOk_pool_move _ _ _ h (by simp [hpool]) (spawnLoop_ne cfg 1).1 (spawnLoop_ne cfg 1).2
  case spawn i hf hpool =>
    exact phaseOk_pool_move _ _ _ h (by simp [hpool]) (spawnLoop_ne cfg _).1
      (spawnLoop_ne cfg _).2
  case wait hf hpool hwg =>
    exact phaseOk_pool_move _ _ _ h (by simp [hpool]) (by simp) (by simp)
  case finish hf hpool hpc =>
    exact ⟨by simp, fun _ => Or.inl rfl, fun _ => rfl⟩

/-! #### `WorkersOk` -/

theorem pool_started_of_worker {Event : Type} (n : Nat) (pool : PoolPC)
    (workers : List (WorkerPC Event)) (wg : Nat) (h : WorkersOk n pool workers wg)
    (i : Nat) (c : WorkerPC Event) (hw : workers[i]? = some c) :
    pool.started = true ∧ workers.length ≤ n := by
  have hne : workers ≠ [] := by
    intro he
    rw [he] at hw
    simp at hw
  obtain ⟨h1, h2, h3, _, _⟩ := h
  cases hp : pool with
  | idle => exact absurd (h1 (Or.inl hp)) hne
  | entry => exact absurd (h1 (Or.inr hp)) hne
  | spawn j =>
    have := h2 j hp
    exact ⟨rfl, by omega⟩
  | wait =>
    have := h3 (by rw [hp]; rfl)
    exact ⟨rfl, by omega⟩
  | sendFinished =>
    have := h3 (by rw [hp]; rfl)
    exact ⟨rfl, by omega⟩
  | done =>
    have := h3 (by rw [hp]; rfl)
    exact ⟨rfl, by omega⟩

theorem workersOk_set_alive {Event : Type} (n : Nat) (pool : PoolPC)
    (workers : List (WorkerPC Event)) (wg : Nat) (h : WorkersOk n pool workers wg)
    (i : Nat) (c c' : WorkerPC Event) (hw : workers[i]? = some c)
    (hc : c.isDone = false) (hc' : c'.isDone = false) :
    WorkersOk n pool (workers.set i c') wg := by
  have hcp := countP_set WorkerPC.isDone workers i c c' hw
  rw [hc, hc'] at hcp
  simp only [Bool.false_eq_true, if_false, Nat.add_zero] at hcp
  obtain ⟨h1, h2, h3, h4, h5⟩ := h
  refine ⟨?_, ?_, ?_, ?_, h5⟩
  · intro hp
    have := h1 hp
    rw [this] at hw
    simp at hw
  · intro j hj
    rw [List.length_set]
    exact h2 j hj
  · intro hp
    rw [List.length_set]
    exact h3 hp
  · intro hp
    rw [hcp]
    exact h4 hp

theorem workersOk_set_done {Event : Type} (n : Nat) (pool : PoolPC)
    (workers : List (WorkerPC Event)) (wg : Nat) (h : WorkersOk n pool workers wg)
    (i : Nat) (c : WorkerPC Event) (hw : workers[i]? = some c) (hc : c.isDone = false) :
    WorkersOk n pool (workers.set i WorkerPC.done) (wg - 1) := by
  have hcp := countP_set WorkerPC.isDone workers i c WorkerPC.done hw
  rw [hc] at hcp
  simp only [Bool.false_eq_true, if_false, Nat.add_zero, WorkerPC.isDone, if_true] at hcp
  obtain ⟨hst, hlen⟩ := pool_started_of_worker n pool workers wg h i c hw
  have hle := List.countP_le_length (p := WorkerPC.isDone) (l := workers.set i WorkerPC.done)
  rw [List.length_set] at hle
  obtain ⟨h1, h2, h3, h4, h5⟩ := h
  have h4' := h4 hst
  refine ⟨?_, ?_, ?_, ?_, ?_⟩
  · intro hp
    have := h1 hp
    rw [this] at hw
    simp at hw
  · intro j hj
    rw [List.length_set]
    exact h2 j hj
  · intro hp
    rw [List.length_set]
    exact h3 hp
  · intro _
    omega
  · intro hp
    have h0 := h5 hp
    omega

theorem workersOk_step {Event : Type} (cfg : Config Event) (s : State Event) (a : Action)
    (s' : State Event) (h : WorkersOk cfg.threadsArg s.pool s.workers s.wg)
    (hS : Step cfg s a s') : WorkersOk cfg.threadsArg s'.pool s'.workers s'.wg := by
  cases hS <;> first | exact h | skip
  case dayStart hf hpc =>
    exact ⟨fun _ => rfl, by simp, by simp [PoolPC.spawned], by simp [PoolPC.started], by simp⟩
  case report hf hpc =>
    rw [(nextDay_frame s).2.1, (nextDay_frame s).2.2.1, (nextDay_frame s).2.2.2.1]
    exact h
  case prepareOk hf hpool =>
    have hw : s.workers = [] := h.1 (Or.inr hpool)
    show WorkersOk cfg.threadsArg (spawnLoop cfg 1) s.workers cfg.threadsArg
    rw [hw]
    rcases spawnLoop_cases cfg 1 with ⟨hi, hl⟩ | ⟨hi, hl⟩ <;> rw [hl]
    · exact ⟨by simp, by simpa using hi, by simp [PoolPC.spawned], by simp, by simp⟩
    · exact ⟨by simp, by simp, fun _ => by simp; omega, by simp, by simp⟩
  case spawn i hf hpool =>
    obtain ⟨h1, h2, h3, h4, h5⟩ := h
    have hi := h2 i hpool
    have hwg := h4 (by rw [hpool]; rfl)
    have hcp : (s.workers ++ [WorkerPC.recv]).countP WorkerPC.isDone
        = s.workers.countP WorkerPC.isDone := by
      simp [List.countP_append, WorkerPC.isDone]
    show WorkersOk cfg.threadsArg (spawnLoop cfg (i + 1)) (s.workers ++ [WorkerPC.recv]) s.wg
    rcases spawnLoop_cases cfg (i + 1) with ⟨hj, hl⟩ | ⟨hj, hl⟩ <;> rw [hl]
    · refine ⟨by simp, ?_, by simp [PoolPC.spawned], fun _ => by rw [hcp]; exact hwg, by simp⟩
      intro j hj2
      simp only [PoolPC.spawn.injEq] at hj2
      simp only [List.length_append, List.length_singleton]
      omega
    · refine ⟨by simp, by simp, ?_, fun _ => by rw [hcp]; exact hwg, by simp⟩
      intro _
      simp only [List.length_append, List.length_singleton]
      omega
  case wait hf hpool hwg =>
    obtain ⟨h1, h2, h3, h4, h5⟩ := h
    exact ⟨by simp, by simp, fun _ => h3 (by rw [hpool]; rfl),
      fun _ => h4 (by rw [hpool]; rfl), fun _ => hwg⟩
  case finish hf hpool hpc =>
    obtain ⟨h1, h2, h3, h4, h5⟩ := h
    exact ⟨by simp, by simp, fun _ => h3 (by rw [hpool]; rfl),
      fun _ => h4 (by rw [hpool]; rfl), fun _ => h5 (Or.inl hpool)⟩
  case recvNil i rest hf hw hch => exact workersOk_set_done _ _ _ _ h i _ hw rfl
  case recvSome i e rest hf hw hch => exact workersOk_set_alive _ _ _ _ h i _ _ hw rfl rfl
  case exec i e ok hf hw =>
    exact workersOk_set_alive _ _ _ _ h i _ _ hw rfl (by cases ok <;> rfl)
  case checkCancelled i hf hw hc => exact workersOk_set_done _ _ _ _ h i _ hw rfl
  case checkContinue i hf hw hc => exact workersOk_set_alive _ _ _ _ h i _ _ hw rfl rfl

/-! #### `FifoOk` -/

theorem fifoOk_step {Event : Type} (cfg : Config Event) (s : State Event) (a : Action)
    (s' : State Event) (h : FifoOk s.enq s.deq s.nils s.eventsCh)
    (hn : NilsOk cfg.threadsArg s.orch s.nils) (hS : Step cfg s a s') :
    FifoOk s'.enq s'.deq s'.nils s'.eventsCh := by
  unfold FifoOk at h ⊢
  cases hS <;> first | exact h | skip
  case dayStart hf hpc => simp
  case send hour event lines hf hpc hcap =>
    have h0 : s.nils = 0 := hn.1 (by rw [hpc]; rfl)
    rw [h0] at h ⊢
    simp only [List.replicate_zero, List.append_nil, List.map_append, List.map_cons,
      List.map_nil] at h ⊢
    rw [h, List.append_assoc]
  case sentinel i hf hpc hcap =>
    show s.enq.map Prod.snd ++ List.replicate (s.nils + 1) none
      = s.deq.map Prod.snd ++ (s.eventsCh ++ [none])
    rw [List.replicate_succ', ← List.append_assoc, h, List.append_assoc]
  case report hf hpc =>
    rw [(nextDay_frame s).1, (nextDay_frame s).2.2.2.2.1, (nextDay_frame s).2.2.2.2.2.1,
      (nextDay_frame s).2.2.2.2.2.2.1]
    exact h
  case recvNil i rest hf hw hch =>
    show s.enq.map Prod.snd ++ List.replicate s.nils none
      = (s.deq ++ [(i, none)]).map Prod.snd ++ rest
    rw [h, hch]
    simp
  case recvSome i e rest hf hw hch =>
    show s.enq.map Prod.snd ++ List.replicate s.nils none
      = (s.deq ++ [(i, some e)]).map Prod.snd ++ rest
    rw [h, hch]
    simp

theorem poolInv_init {Event : Type} (cfg : Config Event) : PoolInv cfg (init Event) := by
  refine ⟨?_, ?_, ?_, ?_⟩
  · simp [FifoOk, init]
  · exact nilsOk_other _ _ _ (Or.inl rfl) (Nat.zero_le _)
  · exact ⟨fun _ => rfl, by simp [init], by simp [init, PoolPC.spawned],
      by simp [init, PoolPC.started], by simp [init]⟩
  · exact ⟨fun _ => rfl, by simp [init], by simp [init]⟩

theorem poolInv_step {Event : Type} (cfg : Config Event) (s : State Event) (a : Action)
    (s' : State Event) (hinv : PoolInv cfg s) (hs : step cfg s a = some s') :
    PoolInv cfg s' := by
  have hS := step_sound cfg s a s' hs
  exact ⟨fifoOk_step cfg s a s' hinv.fifo hinv.nils hS, nilsOk_step cfg s a s' hinv.nils hS,
    workersOk_step cfg s a s' hinv.workers hS, phaseOk_step cfg s a s' hinv.phase hS⟩

theorem poolInv_reachable {Event : Type} (cfg : Config Event) (sched : List Action)
    (s : State Event) (hrun : run cfg sched = some s) : PoolInv cfg s :=
  runFrom_invariant (step cfg) (fun _ => True) (PoolInv cfg)
    (fun s a s' _ hi hs => poolInv_step cfg s a s' hi hs) (init Event) sched s
    (poolInv_init cfg) (fun _ _ => trivial) hrun

/-! ### The invariant of the workers -/

theorem getElem?_set_of_get {β : Type} (l : List β) (i j : Nat) (c c' : β)
    (h : l[i]? = some c) : (l.set i c')[j]? = if j = i then some c' else l[j]? := by
  have hi : i < l.length := by
    rcases List.getElem?_eq_some.mp h with ⟨hlt, _⟩
    exact hlt
  rw [List.getElem?_set]
  by_cases hij : i = j
  · subst hij
    simp [hi]
  · have hji : ¬ j = i := fun h => hij h.symm
    simp [hij, hji]

theorem heldAt_set {Event : Type} (workers : List (WorkerPC Event)) (i j : Nat)
    (c c' : WorkerPC Event) (h : workers[i]? = some c) :
    heldAt (workers.set i c') j = if j = i then c'.held else heldAt workers j := by
  unfold heldAt
  rw [getElem?_set_of_get workers i j c c' h]
  by_cases hji : j = i <;> simp [hji]

theorem doneAt_set {Event : Type} (workers : List (WorkerPC Event)) (i j : Nat)
    (c c' : WorkerPC Event) (h : workers[i]? = some c) :
    doneAt (workers.set i c') j = if j = i then c'.isDone else doneAt workers j := by
  unfold doneAt
  rw [getElem?_set_of_get workers i j c c' h]
  by_cases hji : j = i <;> simp [hji]

theorem heldAt_of_get {Event : Type} (workers : List (WorkerPC Event)) (i : Nat)
    (c : WorkerPC Event) (h : workers[i]? = some c) : heldAt workers i = c.held := by
  unfold heldAt
  rw [h]
  rfl

theorem doneAt_of_get {Event : Type} (workers : List (WorkerPC Event)) (i : Nat)
    (c : WorkerPC Event) (h : workers[i]? = some c) : doneAt workers i = c.isDone := by
  unfold doneAt
  rw [h]

theorem getElem?_append_recv {Event : Type} (workers : List (WorkerPC Event)) (i : Nat) :
    (workers ++ [WorkerPC.recv])[i]? = workers[i]?
    ∨ ((workers ++ [WorkerPC.recv])[i]? = some WorkerPC.recv ∧ workers[i]? = none) := by
  by_cases hi : i < workers.length
  · exact Or.inl (List.getElem?_append_left hi)
  · have hn : workers[i]? = none := List.getElem?_eq_none (by omega)
    by_cases hi2 : i = workers.length
    · right
      refine ⟨?_, hn⟩
      rw [hi2]
      exact List.getElem?_concat_length _ _
    · left
      rw [hn]
      apply List.getElem?_eq_none
      simp only [List.length_append, List.length_singleton]
      omega

theorem heldAt_append_recv {Event : Type} (workers : List (WorkerPC Event)) (i : Nat) :
    heldAt (workers ++ [WorkerPC.recv]) i = heldAt workers i := by
  unfold heldAt
  rcases getElem?_append_recv workers i with h | ⟨h1, h2⟩
  · rw [h]
  · rw [h1, h2]
    rfl

theorem doneAt_append_recv {Event : Type} (workers : List (WorkerPC Event)) (i : Nat) :
    doneAt (workers ++ [WorkerPC.recv]) i = doneAt workers i := by
  unfold doneAt
  rcases getElem?_append_recv workers i with h | ⟨h1, h2⟩
  · rw [h]
  · rw [h1, h2]
    rfl

theorem recvBy_snoc {Event : Type} (i j : Nat) (deq : List (Nat × Option Event))
    (x : Option Event) :
    recvBy i (deq ++ [(j, x)]) = recvBy i deq ++ (if j = i then x else none).toList := by
  unfold recvBy
  rw [List.filterMap_append]
  by_cases h : j = i <;> cases x <;> simp [List.filterMap_cons, h]

theorem insBy_snoc {Event : Type} (i j : Nat) (ins : List (Nat × Event × Bool))
    (e : Event) (ok : Bool) :
    insBy i (ins ++ [(j, e, ok)]) = insBy i ins ++ (if j = i then [e] else []) := by
  unfold insBy
  rw [List.filterMap_append]
  by_cases h : j = i <;> simp [List.filterMap_cons, h]

theorem nilsBy_snoc {Event : Type} (i j : Nat) (deq : List (Nat × Option Event))
    (x : Option Event) :
    nilsBy i (deq ++ [(j, x)])
      = nilsBy i deq + (if (decide (j = i) && x.isNone) = true then 1 else 0) := by
  unfold nilsBy
  rw [List.countP_append]
  by_cases h : j = i <;> cases x <;> simp [List.countP_cons, h]

theorem filterMap_set_perm {β γ : Type} (f : β → Option γ) (l : List β) (i : Nat) (c c' : β)
    (h : l[i]? = some c) :
    List.Perm ((l.set i c').filterMap f ++ (f c).toList) (l.filterMap f ++ (f c').toList) := by
  induction l generalizing i with
  | nil => simp at h
  | cons x xs ih =>
    cases i with
    | zero =>
      simp only [List.getElem?_cons_zero, Option.some.injEq] at h
      subst h
      simp only [List.set_cons_zero, List.filterMap_cons]
      cases hx : f x with
      | none =>
        cases hc : f c' with
        | none => simp
        | some b =>
          simp only [Option.toList, List.append_nil]
          exact (List.perm_append_singleton b _).symm
      | some a =>
        cases hc : f c' with
        | none =>
          simp only [Option.toList, List.append_nil]
          exact List.perm_append_singleton a _
        | some b =>
          simp only [Option.toList, List.cons_append]
          have h1 : List.Perm (b :: (List.filterMap f xs ++ [a]))
              (b :: a :: List.filterMap f xs) :=
            (List.perm_append_singleton a _).cons b
          have h2 : List.Perm (a :: (List.filterMap f xs ++ [b]))
              (a :: b :: List.filterMap f xs) :=
            (List.perm_append_singleton b _).cons a
          exact h1.trans ((List.Perm.swap a b _).trans h2.symm)
    | succ i =>
      simp only [List.getElem?_cons_succ] at h
      have := ih i h
      simp only [List.set_cons_succ, List.filterMap_cons]
      cases hx : f x
      · exact this
      · simpa using this

theorem heldOk_step {Event : Type} (cfg : Config Event) (s : State Event) (a : Action)
    (s' : State Event) (h : HeldOk s.workers s.deq s.ins) (hS : Step cfg s a s') :
    HeldOk s'.workers s'.deq s'.ins := by
  cases hS <;> first | exact h | skip
  case dayStart hf hpc =>
    intro i
    simp [recvBy, insBy, heldAt]
  case report hf hpc =>
    rw [(nextDay_frame s).2.2.1, (nextDay_frame s).2.2.2.2.2.1,
      (nextDay_frame s).2.2.2.2.2.2.2.1]
    exact h
  case spawn i hf hpool =>
    intro j
    show recvBy j s.deq = insBy j s.ins ++ (heldAt (s.workers ++ [WorkerPC.recv]) j).toList
    rw [heldAt_append_recv]
    exact h j
  case recvNil i rest hf hw hch =>
    intro j
    show recvBy j (s.deq ++ [(i, none)])
      = insBy j s.ins ++ (heldAt (s.workers.set i WorkerPC.done) j).toList
    rw [recvBy_snoc, heldAt_set _ _ _ _ _ hw, h j]
    by_cases hji : j = i
    · subst hji
      simp [heldAt_of_get _ _ _ hw, WorkerPC.held]
    · have hij : ¬ i = j := fun h => hji h.symm
      simp [hji, hij]
  case recvSome i e rest hf hw hch =>
    intro j
    show recvBy j (s.deq ++ [(i, some e)])
      = insBy j s.ins ++ (heldAt (s.workers.set i (WorkerPC.exec e)) j).toList
    rw [recvBy_snoc, heldAt_set _ _ _ _ _ hw, h j]
    by_cases hji : j = i
    · subst hji
      simp [heldAt_of_get _ _ _ hw, WorkerPC.held]
    · have hij : ¬ i = j := fun h => hji h.symm
      simp [hji, hij]
  case exec i e ok hf hw =>
    intro j
    show recvBy j s.deq = insBy j (s.ins ++ [(i, e, ok)])
      ++ (heldAt (s.workers.set i (if ok then WorkerPC.ctxCheck else WorkerPC.recv)) j).toList
    rw [insBy_snoc, heldAt_set _ _ _ _ _ hw, h j]
    by_cases hji : j = i
    · subst hji
      cases ok <;> simp [heldAt_of_get _ _ _ hw, WorkerPC.held]
    · have hij : ¬ i = j := fun h => hji h.symm
      simp [hji, hij]
  case checkCancelled i hf hw hc =>
    intro j
    show recvBy j s.deq = insBy j s.ins ++ (heldAt (s.workers.set i WorkerPC.done) j).toList
    rw [heldAt_set _ _ _ _ _ hw, h j]
    by_cases hji : j = i
    · subst hji
      simp [heldAt_of_get _ _ _ hw, WorkerPC.held]
    · simp [hji]
  case checkContinue i hf hw hc =>
    intro j
    show recvBy j s.deq = insBy j s.ins ++ (heldAt (s.workers.set i WorkerPC.recv) j).toList
    rw [heldAt_set _ _ _ _ _ hw, h j]
    by_cases hji : j = i
    · subst hji
      simp [heldAt_of_get _ _ _ hw, WorkerPC.held]
    · simp [hji]

theorem records_snoc {Event : Type} (l : List (Option Event)) (x : Option Event) :
    records (l ++ [x]) = records l ++ x.toList := by
  unfold records
  rw [List.filterMap_append]
  cases x <;> simp

theorem permOk_step {Event : Type} (cfg : Config Event) (s : State Event) (a : Action)
    (s' : State Event) (h : PermOk s.workers s.deq s.ins) (hS : Step cfg s a s') :
    PermOk s'.workers s'.deq s'.ins := by
  unfold PermOk at h ⊢
  cases hS <;> first | exact h | skip
  case dayStart hf hpc => simp [records]
  case report hf hpc =>
    rw [(nextDay_frame s).2.2.1, (nextDay_frame s).2.2.2.2.2.1,
      (nextDay_frame s).2.2.2.2.2.2.2.1]
    exact h
  case spawn i hf hpool =>
    show List.Perm (records (s.deq.map Prod.snd))
      (s.ins.map (fun x => x.2.1) ++ (s.workers ++ [WorkerPC.recv]).filterMap WorkerPC.held)
    rw [List.filterMap_append]
    simpa [WorkerPC.held] using h
  case recvNil i rest hf hw hch =>
    show List.Perm (records ((s.deq ++ [(i, none)]).map Prod.snd))
      (s.ins.map (fun x => x.2.1) ++ (s.workers.set i WorkerPC.done).filterMap WorkerPC.held)
    have hp := filterMap_set_perm WorkerPC.held s.workers i _ WorkerPC.done hw
    simp only [WorkerPC.held, Option.toList, List.append_nil] at hp
    rw [List.map_append, List.map_cons, List.map_nil, records_snoc]
    simp only [Option.toList, List.append_nil]
    exact h.trans (List.Perm.append_left _ hp.symm)
  case recvSome i e rest hf hw hch =>
    show List.Perm (records ((s.deq ++ [(i, some e)]).map Prod.snd))
      (s.ins.map (fun x => x.2.1)
        ++ (s.workers.set i (WorkerPC.exec e)).filterMap WorkerPC.held)
    have hp := filterMap_set_perm WorkerPC.held s.workers i _ (WorkerPC.exec e) hw
    simp only [WorkerPC.held, Option.toList, List.append_nil] at hp
    rw [List.map_append, List.map_cons, List.map_nil, records_snoc]
    simp only [Option.toList]
    have h1 := List.Perm.append_right [e] h
    rw [List.append_assoc] at h1
    exact h1.trans (List.Perm.append_left _ hp.symm)
  case exec i e ok hf hw =>
    show List.Perm (records (s.deq.map Prod.snd))
      ((s.ins ++ [(i, e, ok)]).map (fun x => x.2.1)
        ++ (s.workers.set i (if ok then WorkerPC.ctxCheck else WorkerPC.recv)).filterMap
            WorkerPC.held)
    have hp := filterMap_set_perm WorkerPC.held s.workers i _
      (if ok then WorkerPC.ctxCheck else WorkerPC.recv) hw
    have hnone : WorkerPC.held (if ok then (WorkerPC.ctxCheck : WorkerPC Event)
        else WorkerPC.recv) = none := by cases ok <;> rfl
    rw [hnone] at hp
    simp only [WorkerPC.held, Option.toList, List.append_nil] at hp
    rw [List.map_append, List.map_cons, List.map_nil, List.append_assoc]
    refine h.trans (List.Perm.append_left _ ?_)
    exact hp.symm.trans (List.perm_append_singleton e _)
  case checkCancelled i hf hw hc =>
    show List.Perm (records (s.deq.map Prod.snd))
      (s.ins.map (fun x => x.2.1) ++ (s.workers.set i WorkerPC.done).filterMap WorkerPC.held)
    have hp := filterMap_set_perm WorkerPC.held s.workers i _ WorkerPC.done hw
    simp only [WorkerPC.held, Option.toList, List.append_nil] at hp
    exact h.trans (List.Perm.append_left _ hp.symm)
  case checkContinue i hf hw hc =>
    show List.Perm (records (s.deq.map Prod.snd))
      (s.ins.map (fun x => x.2.1) ++ (s.workers.set i WorkerPC.recv).filterMap WorkerPC.held)
    have hp := filterMap_set_perm WorkerPC.held s.workers i _ WorkerPC.recv hw
    simp only [WorkerPC.held, Option.toList, List.append_nil] at hp
    exact h.trans (List.Perm.append_left _ hp.symm)

theorem exitOk_set_alive {Event : Type} (workers : List (WorkerPC Event))
    (deq : List (Nat × Option Event)) (i : Nat) (c c' : WorkerPC Event)
    (hw : workers[i]? = some c) (hc : c.isDone = false) (hc' : c'.isDone = false)
    (h : ExitOk false workers deq) : ExitOk false (workers.set i c') deq := by
  intro _
  obtain ⟨h1, h2⟩ := h rfl
  have hcp := countP_set WorkerPC.isDone workers i c c' hw
  rw [hc, hc'] at hcp
  simp only [Bool.false_eq_true, if_false, Nat.add_zero] at hcp
  refine ⟨?_, by rw [hcp]; exact h2⟩
  intro j
  rw [doneAt_set _ _ _ _ _ hw, h1 j]
  by_cases hji : j = i
  · subst hji
    simp [doneAt_of_get _ _ _ hw, hc, hc']
  · simp [hji]

theorem exitOk_step {Event : Type} (cfg : Config Event) (s : State Event) (a : Action)
    (s' : State Event) (h : ExitOk s.cancelled s.workers s.deq) (hS : Step cfg s a s') :
    ExitOk s'.cancelled s'.workers s'.deq := by
  cases hS <;> first | exact h | skip
  case dayStart hf hpc =>
    intro _
    exact ⟨fun i => by simp [nilsBy, doneAt], by simp⟩
  case report hf hpc =>
    rw [(nextDay_frame s).2.2.1, (nextDay_frame s).2.2.2.2.2.1,
      (nextDay_frame s).2.2.2.2.2.2.2.2.1]
    exact h
  case spawn i hf hpool =>
    intro hc
    obtain ⟨h1, h2⟩ := h hc
    refine ⟨?_, ?_⟩
    · intro j
      show nilsBy j s.deq = if doneAt (s.workers ++ [WorkerPC.recv]) j = true then 1 else 0
      rw [doneAt_append_recv]
      exact h1 j
    · show (s.workers ++ [WorkerPC.recv]).countP WorkerPC.isDone = _
      rw [List.countP_append]
      simpa [WorkerPC.isDone] using h2
  case recvNil i rest hf hw hch =>
    intro hc
    obtain ⟨h1, h2⟩ := h hc
    have hcp := countP_set WorkerPC.isDone s.workers i _ WorkerPC.done hw
    simp only [WorkerPC.isDone, Bool.false_eq_true, if_false, Nat.add_zero, if_true] at hcp
    refine ⟨?_, ?_⟩
    · intro j
      show nilsBy j (s.deq ++ [(i, none)])
        = if doneAt (s.workers.set i WorkerPC.done) j = true then 1 else 0
      rw [nilsBy_snoc, doneAt_set _ _ _ _ _ hw, h1 j]
      by_cases hji : j = i
      · subst hji
        simp [doneAt_of_get _ _ _ hw, WorkerPC.isDone]
      · have hij : ¬ i = j := fun h => hji h.symm
        simp [hji, hij]
    · show (s.workers.set i WorkerPC.done).countP WorkerPC.isDone
        = (s.deq ++ [(i, (none : Option Event))]).countP (fun x => x.2.isNone)
      rw [hcp, List.countP_append, h2]
      simp
  case recvSome i e rest hf hw hch =>
    intro hc
    have h' : ExitOk false s.workers s.deq := fun _ => h hc
    obtain ⟨h1, h2⟩ := exitOk_set_alive s.workers s.deq i _ (WorkerPC.exec e) hw rfl rfl h' rfl
    refine ⟨?_, ?_⟩
    · intro j
      show nilsBy j (s.deq ++ [(i, some e)]) = _
      rw [nilsBy_snoc]
      simpa using h1 j
    · show _ = (s.deq ++ [(i, some e)]).countP (fun x => x.2.isNone)
      rw [List.countP_append]
      simpa using h2
  case exec i e ok hf hw =>
    intro hc
    have h' : ExitOk false s.workers s.deq := fun _ => h hc
    exact exitOk_set_alive s.workers s.deq i _ _ hw rfl (by cases ok <;> rfl) h' rfl
  case checkCancelled i hf hw hc =>
    intro hc'
    have : s.cancelled = false := hc'
    rw [hc] at this
    exact absurd this (by simp)
  case checkContinue i hf hw hc =>
    intro hc
    have h' : ExitOk false s.workers s.deq := fun _ => h hc
    exact exitOk_set_alive s.workers s.deq i _ WorkerPC.recv hw rfl rfl h' rfl
  case cancel hf =>
    intro hc
    exact absurd hc (by simp)

theorem workInv_init (Event : Type) : WorkInv (init Event) := by
  refine ⟨?_, ?_, ?_⟩
  · intro i
    simp [init, recvBy, insBy, heldAt]
  · simp [PermOk, init, records]
  · intro _
    exact ⟨fun i => by simp [init, nilsBy, doneAt], by simp [init]⟩

theorem workInv_step {Event : Type} (cfg : Config Event) (s : State Event) (a : Action)
    (s' : State Event) (hinv : WorkInv s) (hs : step cfg s a = some s') : WorkInv s' := by
  have hS := step_sound cfg s a s' hs
  exact ⟨heldOk_step cfg s a s' hinv.held hS, permOk_step cfg s a s' hinv.perm hS,
    exitOk_step cfg s a s' hinv.exit hS⟩

theorem workInv_reachable {Event : Type} (cfg : Config Event) (sched : List Action)
    (s : State Event) (hrun : run cfg sched = some s) : WorkInv s :=
  runFrom_invariant (step cfg) (fun _ => True) WorkInv
    (fun s a s' _ hi hs => workInv_step cfg s a s' hi hs) (init Event) sched s
    (workInv_init Event) (fun _ _ => trivial) hrun

/-! ### Progress and the exactly-once theorem -/

theorem records_replicate_none {Event : Type} (k : Nat) :
    records (List.replicate k (none : Option Event)) = [] := by
  induction k with
  | zero => rfl
  | succ k ih =>
    rw [List.replicate_succ]
    simp [records] at ih ⊢

theorem records_append {Event : Type} (l1 l2 : List (Option Event)) :
    records (l1 ++ l2) = records l1 ++ records l2 := by
  unfold records
  exact List.filterMap_append _ _ _

theorem countP_isNone_of_all_some {Event : Type} (enq : List (Nat × Option Event))
    (h : ∀ x ∈ enq, x.2.isSome = true) :
    (enq.map Prod.snd).countP Option.isNone = 0 := by
  rw [List.countP_eq_zero]
  intro x hx
  rcases List.mem_map.mp hx with ⟨y, hy, rfl⟩
  have := h y hy
  cases hy2 : y.2 <;> simp [hy2] at this ⊢

/-- Without cancellation and with only records sent at line 324, the workers
that have returned and the nils still buffered add up to the nils sent. -/
theorem done_count {Event : Type} (cfg : Config Event) (s : State Event)
    (hp : PoolInv cfg s) (hw : WorkInv s) (hc : s.cancelled = false)
    (hrec : ∀ x ∈ s.enq, x.2.isSome = true) :
    s.workers.countP WorkerPC.isDone + s.eventsCh.countP Option.isNone = s.nils := by
  have hf := congrArg (List.countP Option.isNone) hp.fifo
  rw [List.countP_append, List.countP_append, countP_isNone_of_all_some s.enq hrec] at hf
  have hrep : (List.replicate s.nils (none : Option Event)).countP Option.isNone = s.nils := by
    rw [List.countP_replicate]
    simp
  rw [hrep, List.countP_map] at hf
  have h2 := (hw.exit hc).2
  have h3 : s.deq.countP (Option.isNone ∘ Prod.snd) = s.deq.countP (fun x => x.2.isNone) := rfl
  omega

theorem live_worker_step {Event : Type} (cfg : Config Event) (s : State Event)
    (hf : s.fatal = false) (i : Nat) (w : WorkerPC Event) (hw : s.workers[i]? = some w)
    (hd : w.isDone = false) (hch : s.eventsCh ≠ []) :
    ∃ a, a ≠ Action.cancel ∧ a ≠ Action.prepare false ∧ (step cfg s a).isSome = true := by
  cases w with
  | recv =>
    refine ⟨Action.recv i, by simp, by simp, ?_⟩
    cases hc : s.eventsCh with
    | nil => exact absurd hc hch
    | cons x rest =>
      cases x <;> simp [step, hf, recvStep, hw, hc]
  | exec e =>
    exact ⟨Action.exec i true, by simp, by simp, by simp [step, hf, execStep, hw]⟩
  | ctxCheck =>
    refine ⟨Action.check i, by simp, by simp, ?_⟩
    cases hc : s.cancelled <;> simp [step, hf, checkStep, hw, hc]
  | done => simp [WorkerPC.isDone] at hd

theorem pool_side_step {Event : Type} (cfg : Config Event) (s : State Event)
    (hp : PoolInv cfg s) (hf : s.fatal = false)
    (hpd : s.orch ≠ OrchPC.dayStart)
    (hlt : s.workers.countP WorkerPC.isDone < cfg.threadsArg)
    (hch : s.eventsCh ≠ []) :
    ∃ a, a ≠ Action.cancel ∧ a ≠ Action.prepare false ∧ (step cfg s a).isSome = true := by
  cases hpool : s.pool with
  | idle => exact absurd (hp.phase.1 hpool) hpd
  | entry =>
    exact ⟨Action.prepare true, by simp, by simp, by simp [step, hf, prepareStep, hpool]⟩
  | spawn i => exact ⟨Action.pool, by simp, by simp, by simp [step, hf, poolStep, hpool]⟩
  | wait =>
    have hlen := hp.workers.2.2.1 (by rw [hpool]; rfl)
    obtain ⟨i, w, hw, hd⟩ := exists_get_of_countP_lt WorkerPC.isDone s.workers (by omega)
    exact live_worker_step cfg s hf i w hw hd hch
  | sendFinished =>
    have hlen := hp.workers.2.2.1 (by rw [hpool]; rfl)
    obtain ⟨i, w, hw, hd⟩ := exists_get_of_countP_lt WorkerPC.isDone s.workers (by omega)
    exact live_worker_step cfg s hf i w hw hd hch
  | done =>
    have hlen := hp.workers.2.2.1 (by rw [hpool]; rfl)
    obtain ⟨i, w, hw, hd⟩ := exists_get_of_countP_lt WorkerPC.isDone s.workers (by omega)
    exact live_worker_step cfg s hf i w hw hd hch

theorem ne_nil_of_cap {Event : Type} (l : List (Option Event))
    (h : ¬ l.length < eventsChCap) : l ≠ [] := by
  intro he
  rw [he] at h
  exact h (by simp [eventsChCap])

/-- Deadlock freedom: without cancellation, with at least one worker and with
only records sent at line 324, some step other than a cancellation or a
failure of `db.PrepareContext` is possible until the orchestrator returns. -/
theorem progress {Event : Type} (cfg : Config Event) (s : State Event)
    (hp : PoolInv cfg s) (hw : WorkInv s) (hn : 1 ≤ cfg.threadsArg)
    (hc : s.cancelled = false) (hf : s.fatal = false)
    (hrec : ∀ x ∈ s.enq, x.2.isSome = true) (hret : s.orch ≠ OrchPC.returned) :
    ∃ a, a ≠ Action.cancel ∧ a ≠ Action.prepare false ∧ (step cfg s a).isSome = true := by
  have hcount := done_count cfg s hp hw hc hrec
  cases hpc : s.orch with
  | dayStart => exact ⟨Action.orch, by simp, by simp, by simp [step, hf, orchStep, hpc]⟩
  | hourCheck h =>
    refine ⟨Action.clock 0, by simp, by simp, ?_⟩
    simp only [step, hf, clockStep, hpc]
    cases timeParse (dateString s.year s.month s.day h) with
    | none => simp
    | some t => by_cases ht : (0 : Int) < t <;> simp [ht]
  | stat h => exact ⟨Action.stat false, by simp, by simp, by simp [step, hf, statStep, hpc]⟩
  | download h =>
    exact ⟨Action.download true, by simp, by simp, by simp [step, hf, downloadStep, hpc]⟩
  | read h => exact ⟨Action.read none, by simp, by simp, by simp [step, hf, readStep, hpc]⟩
  | scan h lines =>
    refine ⟨Action.orch, by simp, by simp, ?_⟩
    cases lines <;> simp [step, hf, orchStep, hpc]
  | send h ev lines =>
    by_cases hcap : s.eventsCh.length < eventsChCap
    · exact ⟨Action.orch, by simp, by simp, by simp [step, hf, orchStep, hpc, hcap]⟩
    · have h0 := hp.nils.1 (by rw [hpc]; rfl)
      exact pool_side_step cfg s hp hf (by simp [hpc]) (by omega) (ne_nil_of_cap _ hcap)
  | ctxCheck h =>
    exact ⟨Action.orch, by simp, by simp, by simp [step, hf, orchStep, hpc, hc]⟩
  | sentinel i =>
    by_cases hcap : s.eventsCh.length < eventsChCap
    · exact ⟨Action.orch, by simp, by simp, by simp [step, hf, orchStep, hpc, hcap]⟩
    · have h0 := hp.nils.2.1 i hpc
      exact pool_side_step cfg s hp hf (by simp [hpc]) (by omega) (ne_nil_of_cap _ hcap)
  | waitFinished =>
    have hnn := hp.nils.2.2.1 (Or.inl hpc)
    cases hpool : s.pool with
    | idle =>
      have := hp.phase.1 hpool
      rw [hpc] at this
      simp at this
    | entry =>
      exact ⟨Action.prepare true, by simp, by simp, by simp [step, hf, prepareStep, hpool]⟩
    | spawn i => exact ⟨Action.pool, by simp, by simp, by simp [step, hf, poolStep, hpool]⟩
    | wait =>
      by_cases hwg : s.wg = 0
      · exact ⟨Action.pool, by simp, by simp, by simp [step, hf, poolStep, hpool, hwg]⟩
      · have hwgs := hp.workers.2.2.2.1 (by rw [hpool]; rfl)
        have hch : s.eventsCh ≠ [] := by
          intro he
          rw [he] at hcount
          simp at hcount
          omega
        exact pool_side_step cfg s hp hf (by simp [hpc]) (by omega) hch
    | sendFinished =>
      exact ⟨Action.finish, by simp, by simp, by simp [step, hf, finishStep, hpool, hpc]⟩
    | done =>
      have := hp.phase.2.1 hpool
      rw [hpc] at this
      simp at this
  | report => exact ⟨Action.orch, by simp, by simp, by simp [step, hf, orchStep, hpc]⟩
  | returned => exact absurd hpc hret

/-! ### Termination: every step but a cancellation decreases the measure -/

theorem orchRank_eq {Event : Type} (y m d : Nat) (orch : OrchPC Event)
    (h : orch ≠ OrchPC.returned) :
    orchRank y m d orch = daysLeft y m d * 200 + orch.rank := by
  cases orch <;> first | rfl | exact absurd rfl h

theorem rank_sentinelLoop {Event : Type} (cfg : Config Event) (i : Nat) :
    (sentinelLoop cfg i).rank = 2 ∧ sentinelLoop cfg i ≠ OrchPC.returned := by
  rcases sentinelLoop_cases cfg i with ⟨_, hl⟩ | ⟨_, hl⟩ <;> rw [hl] <;>
    exact ⟨rfl, by simp⟩

theorem rank_hourLoop {Event : Type} (cfg : Config Event) (h : Nat) :
    (hourLoop cfg (h + 1)).rank < 6 * (24 - h) + 3
    ∧ hourLoop cfg (h + 1) ≠ OrchPC.returned := by
  rcases hourLoop_cases cfg (h + 1) with ⟨h23, hl⟩ | ⟨h23, hl⟩ <;> rw [hl]
  · refine ⟨?_, by simp⟩
    simp only [OrchPC.rank]
    omega
  · refine ⟨?_, (rank_sentinelLoop cfg 1).2⟩
    rw [(rank_sentinelLoop cfg 1).1]
    omega

theorem rank_hourLoop_zero {Event : Type} (cfg : Config Event) :
    (hourLoop cfg 0).rank < 160 ∧ hourLoop cfg 0 ≠ OrchPC.returned := by
  rcases hourLoop_cases cfg 0 with ⟨h23, hl⟩ | ⟨h23, hl⟩
  · rw [hl]
    exact ⟨by simp [OrchPC.rank], by simp⟩
  · omega

theorem left_sentinelLoop {Event : Type} (cfg : Config Event) (i : Nat)
    (hi : i ≤ cfg.threadsArg) :
    (sentinelLoop cfg (i + 1)).left cfg.threadsArg + 3
      < (OrchPC.sentinel i : OrchPC Event).left cfg.threadsArg := by
  rcases sentinelLoop_cases cfg (i + 1) with ⟨h1, hl⟩ | ⟨h1, hl⟩ <;> rw [hl] <;>
    simp only [OrchPC.left] <;> omega

theorem left_spawnLoop (Event : Type) (cfg : Config Event) (i : Nat)
    (hi : i ≤ cfg.threadsArg) :
    (spawnLoop cfg (i + 1)).left cfg.threadsArg < (PoolPC.spawn i).left cfg.threadsArg := by
  rcases spawnLoop_cases cfg (i + 1) with ⟨h1, hl⟩ | ⟨h1, hl⟩ <;> rw [hl] <;>
    simp only [PoolPC.left] <;> omega

theorem left_spawnLoop_one (Event : Type) (cfg : Config Event) :
    (spawnLoop cfg 1).left cfg.threadsArg < PoolPC.entry.left cfg.threadsArg := by
  rcases spawnLoop_cases cfg 1 with ⟨h1, hl⟩ | ⟨h1, hl⟩ <;> rw [hl] <;>
    simp only [PoolPC.left] <;> omega

theorem orchRank_nextDay {Event : Type} (s : State Event) :
    orchRank (nextDay s).year (nextDay s).month (nextDay s).day (nextDay s).orch
      < daysLeft s.year s.month s.day * 200 + 1 := by
  unfold nextDay
  split
  · simp only [orchRank, OrchPC.rank, daysLeft]
    omega
  · split
    · simp only [orchRank, OrchPC.rank, daysLeft]
      omega
    · split
      · simp only [orchRank, OrchPC.rank, daysLeft]
        omega
      · simp only [orchRank]
        omega
theorem remaining_decreases {Event : Type} (cfg : Config Event) (s : State Event)
    (a : Action) (s' : State Event) (hp : PoolInv cfg s) (hS : Step cfg s a s')
    (ha : a ≠ Action.cancel) :
    Prod.Lex (fun x y => x < y) (fun x y => x < y) (remaining cfg s') (remaining cfg s) := by
  rw [Prod.lex_def]
  cases hS
  case dayStart hf hpc =>
    left
    show orchRank s.year s.month s.day (hourLoop cfg 0) < orchRank s.year s.month s.day s.orch
    rw [orchRank_eq _ _ _ _ (rank_hourLoop_zero cfg).2, hpc]
    have := (rank_hourLoop_zero cfg).1
    show _ < daysLeft s.year s.month s.day * 200 + 160
    omega
  case scanEnd hour hf hpc =>
    left
    show orchRank s.year s.month s.day (OrchPC.ctxCheck hour)
      < orchRank s.year s.month s.day s.orch
    rw [hpc]
    simp only [orchRank, OrchPC.rank]
    omega
  case scanLine hour line lines hf hpc =>
    right
    constructor
    · show orchRank s.year s.month s.day (OrchPC.send hour (cfg.decode line) lines)
        = orchRank s.year s.month s.day s.orch
      rw [hpc]
      rfl
    · show (OrchPC.send hour (cfg.decode line) lines).left cfg.threadsArg
          + 3 * s.eventsCh.length + s.pool.left cfg.threadsArg
          + (s.workers.map WorkerPC.left).sum + (if s.fatal then 0 else 1)
        < s.orch.left cfg.threadsArg + 3 * s.eventsCh.length + s.pool.left cfg.threadsArg
          + (s.workers.map WorkerPC.left).sum + (if s.fatal then 0 else 1)
      rw [hpc]
      simp only [OrchPC.left, List.length_cons]
      omega
  case send hour event lines hf hpc hcap =>
    right
    constructor
    · show orchRank s.year s.month s.day (OrchPC.scan hour lines)
        = orchRank s.year s.month s.day s.orch
      rw [hpc]
      rfl
    · show (OrchPC.scan hour lines : OrchPC Event).left cfg.threadsArg
          + 3 * (s.eventsCh ++ [event]).length + s.pool.left cfg.threadsArg
          + (s.workers.map WorkerPC.left).sum + (if s.fatal then 0 else 1)
        < s.orch.left cfg.threadsArg + 3 * s.eventsCh.length + s.pool.left cfg.threadsArg
          + (s.workers.map WorkerPC.left).sum + (if s.fatal then 0 else 1)
      rw [hpc]
      simp only [OrchPC.left, List.length_append, List.length_singleton]
      omega
  case orchCancelled hour hf hpc hc =>
    left
    show orchRank s.year s.month s.day (OrchPC.returned : OrchPC Event)
      < orchRank s.year s.month s.day s.orch
    rw [hpc]
    simp only [orchRank, OrchPC.rank]
    omega
  case orchContinue hour hf hpc hc =>
    left
    show orchRank s.year s.month s.day (hourLoop cfg (hour + 1))
      < orchRank s.year s.month s.day s.orch
    rw [orchRank_eq _ _ _ _ (rank_hourLoop cfg hour).2, hpc]
    have := (rank_hourLoop cfg hour).1
    show _ < daysLeft s.year s.month s.day * 200 + (6 * (24 - hour) + 3)
    omega
  case sentinel i hf hpc hcap =>
    right
    have hi := (hp.nils.2.1 i hpc).2
    constructor
    · show orchRank s.year s.month s.day (sentinelLoop cfg (i + 1))
        = orchRank s.year s.month s.day s.orch
      rw [orchRank_eq _ _ _ _ (rank_sentinelLoop cfg (i + 1)).2,
        (rank_sentinelLoop cfg (i + 1)).1, hpc]
      rfl
    · show (sentinelLoop cfg (i + 1)).left cfg.threadsArg
          + 3 * (s.eventsCh ++ [none]).length + s.pool.left cfg.threadsArg
          + (s.workers.map WorkerPC.left).sum + (if s.fatal then 0 else 1)
        < s.orch.left cfg.threadsArg + 3 * s.eventsCh.length + s.pool.left cfg.threadsArg
          + (s.workers.map WorkerPC.left).sum + (if s.fatal then 0 else 1)
      have := left_sentinelLoop cfg i hi
      rw [hpc]
      simp only [List.length_append, List.length_singleton]
      omega
  case report hf hpc =>
    left
    show orchRank (nextDay s).year (nextDay s).month (nextDay s).day (nextDay s).orch
      < orchRank s.year s.month s.day s.orch
    rw [hpc]
    exact orchRank_nextDay s
  case clockBreak hour now hf hpc ht =>
    left
    show orchRank s.year s.month s.day (sentinelLoop cfg 1)
      < orchRank s.year s.month s.day s.orch
    rw [orchRank_eq _ _ _ _ (rank_sentinelLoop cfg 1).2, (rank_sentinelLoop cfg 1).1, hpc]
    simp only [orchRank, OrchPC.rank]
    omega
  case clockPass hour now t hf hpc ht hnow =>
    left
    show orchRank s.year s.month s.day (OrchPC.stat hour)
      < orchRank s.year s.month s.day s.orch
    rw [hpc]
    simp only [orchRank, OrchPC.rank]
    omega
  case stat hour notExist hf hpc =>
    left
    show orchRank s.year s.month s.day
        (if notExist then OrchPC.download hour else OrchPC.read hour)
      < orchRank s.year s.month s.day s.orch
    rw [hpc]
    cases notExist <;> simp only [orchRank, OrchPC.rank, if_true, Bool.false_eq_true, if_false]
      <;> omega
  case download hour ok hf hpc =>
    left
    show orchRank s.year s.month s.day
        (if ok then OrchPC.read hour else hourLoop cfg (hour + 1))
      < orchRank s.year s.month s.day s.orch
    rw [hpc]
    cases ok
    · simp only [Bool.false_eq_true, if_false]
      rw [orchRank_eq _ _ _ _ (rank_hourLoop cfg hour).2]
      have := (rank_hourLoop cfg hour).1
      show _ < daysLeft s.year s.month s.day * 200 + (6 * (24 - hour) + 6)
      omega
    · simp only [orchRank, OrchPC.rank, if_true]
      omega
  case readFail hour hf hpc =>
    left
    show orchRank s.year s.month s.day (OrchPC.ctxCheck hour)
      < orchRank s.year s.month s.day s.orch
    rw [hpc]
    simp only [orchRank, OrchPC.rank]
    omega
  case readOk hour b hf hpc =>
    left
    show orchRank s.year s.month s.day (OrchPC.scan hour (scanLines b))
      < orchRank s.year s.month s.day s.orch
    rw [hpc]
    simp only [orchRank, OrchPC.rank]
    omega
  case prepareOk hf hpool =>
    right
    refine ⟨rfl, ?_⟩
    show s.orch.left cfg.threadsArg + 3 * s.eventsCh.length
          + (spawnLoop cfg 1).left cfg.threadsArg
          + (s.workers.map WorkerPC.left).sum + (if s.fatal then 0 else 1)
        < s.orch.left cfg.threadsArg + 3 * s.eventsCh.length + s.pool.left cfg.threadsArg
          + (s.workers.map WorkerPC.left).sum + (if s.fatal then 0 else 1)
    have := left_spawnLoop_one Event cfg
    rw [hpool]
    omega
  case prepareFail hf hpool =>
    right
    refine ⟨rfl, ?_⟩
    show s.orch.left cfg.threadsArg + 3 * s.eventsCh.length + s.pool.left cfg.threadsArg
          + (s.workers.map WorkerPC.left).sum + (if true then 0 else 1)
        < s.orch.left cfg.threadsArg + 3 * s.eventsCh.length + s.pool.left cfg.threadsArg
          + (s.workers.map WorkerPC.left).sum + (if s.fatal then 0 else 1)
    rw [hf]
    simp
  case spawn i hf hpool =>
    right
    refine ⟨rfl, ?_⟩
    have hi := (hp.workers.2.1 i hpool).2
    show s.orch.left cfg.threadsArg + 3 * s.eventsCh.length
          + (spawnLoop cfg (i + 1)).left cfg.threadsArg
          + ((s.workers ++ [WorkerPC.recv]).map WorkerPC.left).sum
          + (if s.fatal then 0 else 1)
        < s.orch.left cfg.threadsArg + 3 * s.eventsCh.length + s.pool.left cfg.threadsArg
          + (s.workers.map WorkerPC.left).sum + (if s.fatal then 0 else 1)
    have := left_spawnLoop Event cfg i hi
    rw [hpool]
    simp only [List.map_append, List.sum_append, List.map_cons, List.map_nil, List.sum_cons,
      List.sum_nil, WorkerPC.left]
    omega
  case wait hf hpool hwg =>
    right
    refine ⟨rfl, ?_⟩
    show s.orch.left cfg.threadsArg + 3 * s.eventsCh.length
          + PoolPC.sendFinished.left cfg.threadsArg
          + (s.workers.map WorkerPC.left).sum + (if s.fatal then 0 else 1)
        < s.orch.left cfg.threadsArg + 3 * s.eventsCh.length + s.pool.left cfg.threadsArg
          + (s.workers.map WorkerPC.left).sum + (if s.fatal then 0 else 1)
    rw [hpool]
    simp only [PoolPC.left]
    omega
  case finish hf hpool hpc =>
    left
    show orchRank s.year s.month s.day (OrchPC.report : OrchPC Event)
      < orchRank s.year s.month s.day s.orch
    rw [hpc]
    simp only [orchRank, OrchPC.rank]
    omega
  case recvNil i rest hf hw hch =>
    right
    refine ⟨rfl, ?_⟩
    show s.orch.left cfg.threadsArg + 3 * rest.length + s.pool.left cfg.threadsArg
          + ((s.workers.set i WorkerPC.done).map WorkerPC.left).sum
          + (if s.fatal then 0 else 1)
        < s.orch.left cfg.threadsArg + 3 * s.eventsCh.length + s.pool.left cfg.threadsArg
          + (s.workers.map WorkerPC.left).sum + (if s.fatal then 0 else 1)
    have := sum_map_set_nat WorkerPC.left s.workers i _ WorkerPC.done hw
    rw [hch]
    simp only [WorkerPC.left, List.length_cons] at this ⊢
    omega
  case recvSome i e rest hf hw hch =>
    right
    refine ⟨rfl, ?_⟩
    show s.orch.left cfg.threadsArg + 3 * rest.length + s.pool.left cfg.threadsArg
          + ((s.workers.set i (WorkerPC.exec e)).map WorkerPC.left).sum
          + (if s.fatal then 0 else 1)
        < s.orch.left cfg.threadsArg + 3 * s.eventsCh.length + s.pool.left cfg.threadsArg
          + (s.workers.map WorkerPC.left).sum + (if s.fatal then 0 else 1)
    have := sum_map_set_nat WorkerPC.left s.workers i _ (WorkerPC.exec e) hw
    rw [hch]
    simp only [WorkerPC.left, List.length_cons] at this ⊢
    omega
  case exec i e ok hf hw =>
    right
    refine ⟨rfl, ?_⟩
    show s.orch.left cfg.threadsArg + 3 * s.eventsCh.length + s.pool.left cfg.threadsArg
          + ((s.workers.set i (if ok then WorkerPC.ctxCheck else WorkerPC.recv)).map
              WorkerPC.left).sum
          + (if s.fatal then 0 else 1)
        < s.orch.left cfg.threadsArg + 3 * s.eventsCh.length + s.pool.left cfg.threadsArg
          + (s.workers.map WorkerPC.left).sum + (if s.fatal then 0 else 1)
    have := sum_map_set_nat WorkerPC.left s.workers i _
      (if ok then WorkerPC.ctxCheck else WorkerPC.recv) hw
    cases ok <;> simp only [WorkerPC.left, if_true, Bool.false_eq_true, if_false] at this ⊢
      <;> omega
  case checkCancelled i hf hw hc =>
    right
    refine ⟨rfl, ?_⟩
    show s.orch.left cfg.threadsArg + 3 * s.eventsCh.length + s.pool.left cfg.threadsArg
          + ((s.workers.set i WorkerPC.done).map WorkerPC.left).sum
          + (if s.fatal then 0 else 1)
        < s.orch.left cfg.threadsArg + 3 * s.eventsCh.length + s.pool.left cfg.threadsArg
          + (s.workers.map WorkerPC.left).sum + (if s.fatal then 0 else 1)
    have := sum_map_set_nat WorkerPC.left s.workers i _ WorkerPC.done hw
    simp only [WorkerPC.left] at this ⊢
    omega
  case checkContinue i hf hw hc =>
    right
    refine ⟨rfl, ?_⟩
    show s.orch.left cfg.threadsArg + 3 * s.eventsCh.length + s.pool.left cfg.threadsArg
          + ((s.workers.set i WorkerPC.recv).map WorkerPC.left).sum
          + (if s.fatal then 0 else 1)
        < s.orch.left cfg.threadsArg + 3 * s.eventsCh.length + s.pool.left cfg.threadsArg
          + (s.workers.map WorkerPC.left).sum + (if s.fatal then 0 else 1)
    have := sum_map_set_nat WorkerPC.left s.workers i _ WorkerPC.recv hw
    simp only [WorkerPC.left] at this ⊢
    omega
  case cancel hf => exact absurd rfl ha

/-- Termination: an execution without end contains a cancellation; the measure
decreases at every other step and the lexicographic order is well founded. -/
theorem no_infinite_run {Event : Type} (cfg : Config Event) (f : Nat → State Event)
    (acts : Nat → Action) (hp : PoolInv cfg (f 0))
    (hstep : ∀ k, step cfg (f k) (acts k) = some (f (k + 1))) :
    ∃ k, acts k = Action.cancel := by
  by_contra hno
  have hne : ∀ k, acts k ≠ Action.cancel := fun k hk => hno ⟨k, hk⟩
  have hinv : ∀ k, PoolInv cfg (f k) := by
    intro k
    induction k with
    | zero => exact hp
    | succ k ih => exact poolInv_step cfg (f k) (acts k) (f (k + 1)) ih (hstep k)
  have hdec : ∀ k, Prod.Lex (fun x y => x < y) (fun x y => x < y)
      (remaining cfg (f (k + 1))) (remaining cfg (f k)) := fun k =>
    remaining_decreases cfg (f k) (acts k) (f (k + 1)) (hinv k)
      (step_sound cfg (f k) (acts k) (f (k + 1)) (hstep k)) (hne k)
  have wf : WellFounded (Prod.Lex (fun x y : Nat => x < y) (fun x y : Nat => x < y)) :=
    (Prod.lex Nat.lt_wfRel Nat.lt_wfRel).wf
  have key : ∀ m : Nat × Nat, ∀ k, remaining cfg (f k) = m → False := by
    intro m
    induction m using wf.induction with
    | _ m ih =>
      intro k hk
      exact ih (remaining cfg (f (k + 1))) (hk ▸ hdec k) (k + 1) rfl
  exact key _ 0 rfl
theorem no_cancel_run {Event : Type} (cfg : Config Event) (sched : List Action)
    (s : State Event) (hrun : run cfg sched = some s) (hnc : Action.cancel ∉ sched) :
    s.cancelled = false := by
  refine runFrom_invariant (step cfg) (fun a => a ≠ Action.cancel)
    (fun s => s.cancelled = false) ?_ (init Event) sched s rfl ?_ hrun
  · intro s a s' ha h hs
    have hS := step_sound cfg s a s' hs
    cases hS <;> first | exact h | skip
    case report hf hpc =>
      rw [(nextDay_frame s).2.2.2.2.2.2.2.2.1]
      exact h
    case cancel hf => exact absurd rfl ha
  · intro a ha hc
    exact hnc (hc ▸ ha)

theorem length_records_of_all_some {Event : Type} (enq : List (Nat × Option Event))
    (h : ∀ x ∈ enq, x.2.isSome = true) : (records (enq.map Prod.snd)).length = enq.length := by
  induction enq with
  | nil => rfl
  | cons x xs ih =>
    have hx := h x (List.mem_cons_self _ _)
    have ih2 := ih (fun y hy => h y (List.mem_cons_of_mem _ hy))
    cases hx2 : x.2 with
    | none => simp [hx2] at hx
    | some e =>
      simp only [List.map_cons, records, List.filterMap_cons, hx2, id, List.length_cons]
      simp only [records] at ih2
      rw [ih2]

theorem filterMap_held_of_done {Event : Type} (workers : List (WorkerPC Event))
    (h : ∀ w ∈ workers, w.isDone = true) : workers.filterMap WorkerPC.held = [] := by
  rw [List.filterMap_eq_nil_iff]
  intro w hw
  have := h w hw
  cases w <;> simp [WorkerPC.isDone] at this
  rfl

theorem none_mem_of_fifo {Event : Type} (a b ch : List (Option Event)) (k : Nat)
    (hk : 1 ≤ k) (h : a ++ List.replicate k none = b ++ ch) (hch : ch ≠ []) :
    0 < ch.countP Option.isNone := by
  rcases List.eq_nil_or_concat ch with he | ⟨L, x, he⟩
  · exact absurd he hch
  · obtain ⟨k', rfl⟩ : ∃ k', k = k' + 1 := ⟨k - 1, by omega⟩
    rw [List.concat_eq_append] at he
    rw [he, List.replicate_succ', ← List.append_assoc, ← List.append_assoc] at h
    have hx := List.append_inj_right' h rfl
    simp only [List.cons.injEq, and_true] at hx
    rw [he, ← hx, List.countP_append]
    simp

/-- The state of the day when the orchestrator has received on `finishedCh`
(without cancellation, with at least one worker and only records sent at
line 324): the channel is empty, every worker has returned, and the insert
calls are, up to order, the records sent. -/
theorem completion {Event : Type} (cfg : Config Event) (s : State Event)
    (hp : PoolInv cfg s) (hw : WorkInv s) (hn : 1 ≤ cfg.threadsArg)
    (hc : s.cancelled = false) (hrec : ∀ x ∈ s.enq, x.2.isSome = true)
    (hpc : s.orch = OrchPC.report) :
    s.eventsCh = []
    ∧ List.Perm (s.ins.map (fun x => x.2.1)) (records (s.enq.map Prod.snd))
    ∧ s.ins.length = s.enq.length
    ∧ s.nils = cfg.threadsArg
    ∧ s.workers.length = cfg.threadsArg
    ∧ ∀ w ∈ s.workers, w.isDone = true := by
  have hpool := hp.phase.2.2 hpc
  have hnils := hp.nils.2.2.1 (Or.inr hpc)
  have hlen := hp.workers.2.2.1 (by rw [hpool]; rfl)
  have hwg := hp.workers.2.2.2.1 (by rw [hpool]; rfl)
  have hwg0 := hp.workers.2.2.2.2 (Or.inr hpool)
  have hcount := done_count cfg s hp hw hc hrec
  have hall : ∀ w ∈ s.workers, w.isDone = true :=
    countP_eq_length_all _ _ (by omega)
  have hch : s.eventsCh = [] := by
    by_contra hne
    have := none_mem_of_fifo _ _ _ s.nils (by omega) hp.fifo hne
    omega
  have hfifo := congrArg records hp.fifo
  rw [records_append, records_append, records_replicate_none, hch] at hfifo
  simp only [records, List.filterMap_nil, List.append_nil] at hfifo
  have hperm := hw.perm
  unfold PermOk at hperm
  rw [filterMap_held_of_done _ hall, List.append_nil] at hperm
  have hperm2 : List.Perm (s.ins.map (fun x => x.2.1)) (records (s.enq.map Prod.snd)) := by
    unfold records
    rw [hfifo]
    exact hperm.symm
  refine ⟨hch, hperm2, ?_, hnils, hlen, hall⟩
  have := hperm2.length_eq
  rw [length_records_of_all_some s.enq hrec, List.length_map] at this
  exact this

/-- C2: at least one worker, no cancellation, only records sent at line 324
(then the nils of line 337).  In every state of every interleaving: the
records received are a prefix, in order, of the records sent (each record is
received once, by one worker); every worker has passed to `stmt.ExecContext`,
in order and once each, exactly the records it has received, but for the one
it holds; a worker has returned only if it has received a nil, and the
number of workers that have returned and of nils still buffered is the number
of nils sent; a failed insert puts the worker back at its receive; when the
orchestrator has received on `finishedCh` the channel is empty, every worker
has returned, the insert calls are up to order the records sent and their
number is the number of records; until the orchestrator returns some step
other than cancellation is possible (no deadlock); and no execution from the
state goes on for ever without a cancellation (termination). -/
theorem insert_exactly_once {Event : Type} (cfg : Config Event) (sched : List Action)
    (s : State Event) (hn : 1 ≤ cfg.threadsArg) (hrun : run cfg sched = some s)
    (hnc : Action.cancel ∉ sched) (hrec : ∀ x ∈ s.enq, x.2.isSome = true) :
    records (s.deq.map Prod.snd) ++ records s.eventsCh = records (s.enq.map Prod.snd)
    ∧ (∀ i, recvBy i s.deq = insBy i s.ins ++ (heldAt s.workers i).toList)
    ∧ List.Perm (records (s.deq.map Prod.snd))
        (s.ins.map (fun x => x.2.1) ++ s.workers.filterMap WorkerPC.held)
    ∧ (∀ i, doneAt s.workers i = true → nilsBy i s.deq = 1)
    ∧ s.workers.countP WorkerPC.isDone + s.eventsCh.countP Option.isNone = s.nils
    ∧ (∀ i e, s.fatal = false → s.workers[i]? = some (WorkerPC.exec e) →
        ∃ s', step cfg s (Action.exec i false) = some s'
          ∧ s'.workers[i]? = some WorkerPC.recv
          ∧ s'.ins = s.ins ++ [(i, e, false)])
    ∧ (s.orch = OrchPC.report →
        s.eventsCh = []
        ∧ List.Perm (s.ins.map (fun x => x.2.1)) (records (s.enq.map Prod.snd))
        ∧ s.ins.length = s.enq.length
        ∧ s.nils = cfg.threadsArg
        ∧ s.workers.length = cfg.threadsArg
        ∧ ∀ w ∈ s.workers, w.isDone = true)
    ∧ (s.fatal = false → s.orch ≠ OrchPC.returned →
        ∃ a, a ≠ Action.cancel ∧ a ≠ Action.prepare false
          ∧ (step cfg s a).isSome = true)
    ∧ (∀ (f : Nat → State Event) (acts : Nat → Action), f 0 = s →
        (∀ k, step cfg (f k) (acts k) = some (f (k + 1))) →
        ∃ k, acts k = Action.cancel) := by
  have hp := poolInv_reachable cfg sched s hrun
  have hw := workInv_reachable cfg sched s hrun
  have hc := no_cancel_run cfg sched s hrun hnc
  refine ⟨?_, hw.held, hw.perm, ?_, done_count cfg s hp hw hc hrec, ?_,
    completion cfg s hp hw hn hc hrec, fun hf hret => progress cfg s hp hw hn hc hf hrec hret,
    fun f acts h0 hstep => no_infinite_run cfg f acts (h0 ▸ hp) hstep⟩
  · have hfifo := congrArg records hp.fifo
    rw [records_append, records_append, records_replicate_none, List.append_nil] at hfifo
    exact hfifo.symm
  · intro i hi
    rw [(hw.exit hc).1 i, hi]
    rfl
  · intro i e hf hwi
    refine ⟨_, by simp only [step, hf, execStep, hwi]; rfl, ?_, rfl⟩
    have hlt : i < s.workers.length := by
      rcases List.getElem?_eq_some.mp hwi with ⟨hlt, _⟩
      exact hlt
    simp [hlt]

/-- Witness of C2: the run `failedInsertRun`, one worker, one record whose
insert call fails; the record has exactly one insert call and the worker
returns only on the sentinel. -/
theorem insert_exactly_once_witness :
    run (demoConfig 1) failedInsertRun = some failedInsertEnd
    ∧ failedInsertEnd.ins.length = failedInsertEnd.enq.length
    ∧ failedInsertEnd.ins = [(0, 2, false)] :=
  ⟨by decide,
   ((insert_exactly_once (demoConfig 1) failedInsertRun failedInsertEnd (by decide)
      (by decide) (by decide) (by decide)).2.2.2.2.2.2.1 rfl).2.2.1,
   rfl⟩

/-! ### A line that does not decode -/

/-- C1 at the failing input: one worker and a blob of two lines, `x` and `{}`.
The first line does not decode and nil is sent for it (line 324); the worker
receives that nil and returns (line 253); the record of the second line is
sent but never received and never inserted, and the pool still hands over on
`finishedCh`: at the end of the day the record is still in the channel and
there has been no insert call. -/
theorem malformed_line_stops_worker :
    scanLines [120, 10, 123, 125, 10] = [[120], [123, 125]]
    ∧ demoDecode [120] = none ∧ demoDecode [123, 125] = some 2
    ∧ run (demoConfig 1) malformedLineRun = some malformedLineEnd
    ∧ malformedLineEnd.orch = OrchPC.report
    ∧ malformedLineEnd.enq = [(0, none), (0, some 2)]
    ∧ malformedLineEnd.deq = [(0, none)]
    ∧ malformedLineEnd.workers = [WorkerPC.done]
    ∧ malformedLineEnd.ins = []
    ∧ malformedLineEnd.eventsCh = [some 2, none] := by
  decide

/-! ### The completion barrier -/

theorem workers_length_le {Event : Type} (cfg : Config Event) (s : State Event)
    (hp : PoolInv cfg s) : s.workers.length ≤ cfg.threadsArg := by
  obtain ⟨h1, h2, h3, _, _⟩ := hp.workers
  cases hpool : s.pool with
  | idle => rw [h1 (Or.inl hpool)]; exact Nat.zero_le _
  | entry => rw [h1 (Or.inr hpool)]; exact Nat.zero_le _
  | spawn i =>
    have := h2 i hpool
    omega
  | wait => exact Nat.le_of_eq (h3 (by rw [hpool]; rfl))
  | sendFinished => exact Nat.le_of_eq (h3 (by rw [hpool]; rfl))
  | done => exact Nat.le_of_eq (h3 (by rw [hpool]; rfl))

/-- Where only records are sent at line 324, every nil received is a
sentinel. -/
theorem sentinelsBy_of_records {Event : Type} (i : Nat) (enq deq : List (Nat × Option Event))
    (k : Nat) (ch : List (Option Event))
    (hfifo : enq.map Prod.snd ++ List.replicate k none = deq.map Prod.snd ++ ch)
    (hrec : ∀ x ∈ enq, x.2.isSome = true) :
    sentinelsBy i enq.length deq = nilsBy i deq := by
  have htake := congrArg (List.take enq.length) hfifo
  rw [List.take_left' (by simp), List.take_append_eq_append_take, ← List.map_take] at htake
  have hzero : (deq.take enq.length).countP (fun x => decide (x.1 = i) && x.2.isNone) = 0 := by
    rw [List.countP_eq_zero]
    intro x hx
    have hmem : x.2 ∈ enq.map Prod.snd := by
      rw [htake]
      exact List.mem_append_left _ (List.mem_map_of_mem Prod.snd hx)
    obtain ⟨y, hy, hxy⟩ := List.mem_map.mp hmem
    have := hrec y hy
    rw [hxy] at this
    cases hx2 : x.2 with
    | none => rw [hx2] at this; simp at this
    | some e => simp
  unfold sentinelsBy nilsBy
  conv_rhs => rw [← List.take_append_drop enq.length deq]
  rw [List.countP_append, hzero, Nat.zero_add]

/-- C3 (amended): for every worker count `threadsArg` and every state of
every run: at most `threadsArg` workers are started, exactly `threadsArg`
once the pool has left its start loop; at most `threadsArg` sentinels are
sent at line 337, none while the orchestrator is inside the hour loop and
exactly `threadsArg` once it waits on `finishedCh`, and in the channel they
come after the items of the day; the hand-over on `finishedCh` happens only
when the pool is at line 276, and when the pool is at or past line 276 all
`threadsArg` workers have returned; and when the context is not cancelled
and only records were sent at line 324, each of them has received exactly
one sentinel. -/
theorem finished_barrier {Event : Type} (cfg : Config Event) (sched : List Action)
    (s : State Event) (hrun : run cfg sched = some s) :
    s.workers.length ≤ cfg.threadsArg
    ∧ (s.pool.spawned = true → s.workers.length = cfg.threadsArg)
    ∧ s.nils ≤ cfg.threadsArg
    ∧ (s.orch.inHours = true → s.nils = 0)
    ∧ (s.orch = OrchPC.waitFinished ∨ s.orch = OrchPC.report → s.nils = cfg.threadsArg)
    ∧ s.enq.map Prod.snd ++ List.replicate s.nils none = s.deq.map Prod.snd ++ s.eventsCh
    ∧ (∀ s', step cfg s Action.finish = some s' →
        s.pool = PoolPC.sendFinished ∧ s'.orch = OrchPC.report)
    ∧ (s.pool = PoolPC.sendFinished ∨ s.pool = PoolPC.done →
        s.workers.length = cfg.threadsArg ∧ (∀ w ∈ s.workers, w.isDone = true)
        ∧ (s.cancelled = false → (∀ x ∈ s.enq, x.2.isSome = true) →
            ∀ i, i < cfg.threadsArg → sentinelsBy i s.enq.length s.deq = 1)) := by
  have hp := poolInv_reachable cfg sched s hrun
  have hw := workInv_reachable cfg sched s hrun
  refine ⟨workers_length_le cfg s hp, hp.workers.2.2.1, hp.nils.2.2.2, hp.nils.1,
    hp.nils.2.2.1, hp.fifo, ?_, ?_⟩
  · intro s' hs
    have hS := step_sound cfg s _ s' hs
    cases hS
    case finish hf hpool hpc => exact ⟨hpool, rfl⟩
  · intro hpool
    have hsp : s.pool.spawned = true := by
      rcases hpool with h | h <;> rw [h] <;> rfl
    have hst : s.pool.started = true := by
      rcases hpool with h | h <;> rw [h] <;> rfl
    have hlen := hp.workers.2.2.1 hsp
    have hwg := hp.workers.2.2.2.1 hst
    have hwg0 := hp.workers.2.2.2.2 hpool
    have hall : ∀ w ∈ s.workers, w.isDone = true :=
      countP_eq_length_all _ _ (by omega)
    refine ⟨hlen, hall, ?_⟩
    intro hc hrec i hi
    rw [sentinelsBy_of_records i s.enq s.deq s.nils s.eventsCh hp.fifo hrec, (hw.exit hc).1 i]
    have hlt : i < s.workers.length := by omega
    have hd : doneAt s.workers i = true := by
      unfold doneAt
      rw [List.getElem?_eq_getElem hlt]
      exact hall _ (List.getElem_mem hlt)
    rw [hd]
    rfl

/-- Witness of C3 (amended): at the end of `failedInsertRun` the one worker
has returned and has received exactly one sentinel. -/
theorem finished_barrier_witness :
    run (demoConfig 1) failedInsertRun = some failedInsertEnd
    ∧ sentinelsBy 0 failedInsertEnd.enq.length failedInsertEnd.deq = 1 :=
  ⟨by decide,
   ((finished_barrier (demoConfig 1) failedInsertRun failedInsertEnd (by decide)).2.2.2.2.2.2.2
      (Or.inr rfl)).2.2 rfl (by decide) 0 (by decide)⟩

/-- C3 as stated fails under cancellation.  In `cancelledWorkerRun` the
insert call of the one worker succeeds, the context is cancelled, and the
worker's check of `ctx.Done()` makes it return; the pool passes
`wg.Wait()` and hands over on `finishedCh`: the worker has received no
sentinel, and the sentinel is still in the channel.  In
`cancelledNoSentinelRun` the context is cancelled before the check of
lines 329-333 and the orchestrator returns there: with `threadsArg = 1` it
has sent no sentinel, and the worker waits on the empty channel.  At the end
of `malformedLineRun`, without cancellation, the nil the worker has received
is the one sent at line 324 for the line that did not decode: it has received
no sentinel either, and the sentinel is still in the channel. -/
theorem finished_barrier_counterexample :
    (run (demoConfig 1) cancelledWorkerRun = some cancelledWorkerEnd
      ∧ cancelledWorkerEnd.orch = OrchPC.report
      ∧ cancelledWorkerEnd.pool = PoolPC.done
      ∧ cancelledWorkerEnd.workers = [WorkerPC.done]
      ∧ sentinelsBy 0 cancelledWorkerEnd.enq.length cancelledWorkerEnd.deq = 0
      ∧ cancelledWorkerEnd.eventsCh = [none])
    ∧ (run (demoConfig 1) cancelledNoSentinelRun = some cancelledNoSentinelEnd
      ∧ (demoConfig 1).threadsArg = 1
      ∧ cancelledNoSentinelEnd.orch = OrchPC.returned
      ∧ cancelledNoSentinelEnd.nils = 0
      ∧ cancelledNoSentinelEnd.workers = [WorkerPC.recv]
      ∧ cancelledNoSentinelEnd.eventsCh = []
      ∧ step (demoConfig 1) cancelledNoSentinelEnd (Action.recv 0) = none)
    ∧ (run (demoConfig 1) malformedLineRun = some malformedLineEnd
      ∧ malformedLineEnd.cancelled = false
      ∧ malformedLineEnd.orch = OrchPC.report
      ∧ malformedLineEnd.pool = PoolPC.done
      ∧ malformedLineEnd.workers = [WorkerPC.done]
      ∧ malformedLineEnd.enq = [(0, none), (0, some 2)]
      ∧ malformedLineEnd.deq = [(0, none)]
      ∧ sentinelsBy 0 malformedLineEnd.enq.length malformedLineEnd.deq = 0
      ∧ malformedLineEnd.eventsCh = [some 2, none]) := by
  decide
/-! ### Cancellation and the orchestrator -/

/-- C9 (amended): the cancellation signal is checked once per bucket, at
lines 329-333, after the lines of the bucket have been sent.  When the
orchestrator is at that check with the context cancelled, its step is to
return, and in every continuation of the run it calls `os.Stat` for no
further bucket and sends nothing more on `eventsCh`, neither a record nor a
sentinel. -/
theorem cancel_at_check_returns {Event : Type} (cfg : Config Event) (s : State Event)
    (h : Nat) (sched : List Action) (s' : State Event) (hc : s.cancelled = true)
    (hpc : s.orch = OrchPC.ctxCheck h) (hrun : runFrom (step cfg) s sched = some s') :
    s'.attempts = s.attempts ∧ s'.enq = s.enq ∧ s'.nils = s.nils
    ∧ (s'.orch = OrchPC.ctxCheck h ∨ s'.orch = OrchPC.returned)
    ∧ (s.fatal = false → step cfg s Action.orch = some { s with orch := OrchPC.returned }) := by
  have key : s'.attempts = s.attempts ∧ s'.enq = s.enq ∧ s'.nils = s.nils
      ∧ s'.cancelled = true ∧ (s'.orch = OrchPC.ctxCheck h ∨ s'.orch = OrchPC.returned) := by
    refine runFrom_invariant (step cfg) (fun _ => True)
      (fun t => t.attempts = s.attempts ∧ t.enq = s.enq ∧ t.nils = s.nils
        ∧ t.cancelled = true ∧ (t.orch = OrchPC.ctxCheck h ∨ t.orch = OrchPC.returned))
      ?_ s sched s' ⟨rfl, rfl, rfl, hc, Or.inl hpc⟩ (fun _ _ => trivial) hrun
    intro t a t' _ hinv hs
    have hS := step_sound cfg t a t' hs
    obtain ⟨h1, h2, h3, h4, h5⟩ := hinv
    cases hS <;> first | exact ⟨h1, h2, h3, h4, h5⟩ | skip
    case dayStart hf hpc => rcases h5 with ho | ho <;> rw [ho] at hpc <;> simp at hpc
    case scanEnd hour hf hpc => rcases h5 with ho | ho <;> rw [ho] at hpc <;> simp at hpc
    case scanLine hour line lines hf hpc =>
      rcases h5 with ho | ho <;> rw [ho] at hpc <;> simp at hpc
    case send hour event lines hf hpc hcap =>
      rcases h5 with ho | ho <;> rw [ho] at hpc <;> simp at hpc
    case orchCancelled hour hf hpc hc => exact ⟨h1, h2, h3, h4, Or.inr rfl⟩
    case orchContinue hour hf hpc hc =>
      rw [h4] at hc
      simp at hc
    case sentinel i hf hpc hcap => rcases h5 with ho | ho <;> rw [ho] at hpc <;> simp at hpc
    case report hf hpc => rcases h5 with ho | ho <;> rw [ho] at hpc <;> simp at hpc
    case clockBreak hour now hf hpc ht =>
      rcases h5 with ho | ho <;> rw [ho] at hpc <;> simp at hpc
    case clockPass hour now t hf hpc ht hnow =>
      rcases h5 with ho | ho <;> rw [ho] at hpc <;> simp at hpc
    case stat hour notExist hf hpc => rcases h5 with ho | ho <;> rw [ho] at hpc <;> simp at hpc
    case download hour ok hf hpc => rcases h5 with ho | ho <;> rw [ho] at hpc <;> simp at hpc
    case readFail hour hf hpc => rcases h5 with ho | ho <;> rw [ho] at hpc <;> simp at hpc
    case readOk hour b hf hpc => rcases h5 with ho | ho <;> rw [ho] at hpc <;> simp at hpc
    case finish hf hpool hpc => rcases h5 with ho | ho <;> rw [ho] at hpc <;> simp at hpc
    case cancel hf => exact ⟨h1, h2, h3, rfl, h5⟩
  refine ⟨key.1, key.2.1, key.2.2.1, key.2.2.2.2, ?_⟩
  intro hf
  simp [step, hf, orchStep, hpc, hc]

/-- Witness of C9 (amended): `cancelledAtCheck` is reached by `cancelMidBlobRun`
followed by the sending of the two remaining records; from it the orchestrator
returns and nothing more is sent. -/
theorem cancel_at_check_returns_witness :
    run (demoConfig 1) (cancelMidBlobRun
        ++ [Action.orch, Action.orch, Action.orch, Action.orch, Action.orch])
      = some cancelledAtCheck
    ∧ runFrom (step (demoConfig 1)) cancelledAtCheck [Action.orch, Action.prepare true]
      = some cancelledReturned
    ∧ cancelledReturned.enq = cancelledAtCheck.enq
    ∧ cancelledReturned.nils = cancelledAtCheck.nils :=
  have h := cancel_at_check_returns (demoConfig 1) cancelledAtCheck 0
    [Action.orch, Action.prepare true] cancelledReturned (by decide) (by decide) (by decide)
  ⟨by decide, by decide, h.2.1, h.2.2.1⟩

/-- C9 as stated fails.  In `cancelMidBlobRun` the context is cancelled when
one of the three records of the bucket has been sent, and the orchestrator
then sends the other two: the signal is not checked between enqueue steps.
In `cancelBeforeDownloadRun` the context is cancelled while the download of
hour 0 is pending; the download fails, the `continue` of line 306 skips the
check, and the orchestrator calls `os.Stat` for hour 1. -/
theorem cancel_at_check_returns_counterexample :
    (run (demoConfig 1) cancelMidBlobRun).map (fun s => (s.cancelled, s.enq.length))
      = some (true, 1)
    ∧ (run (demoConfig 1) (cancelMidBlobRun
        ++ [Action.orch, Action.orch, Action.orch, Action.orch])).map
          (fun s => (s.cancelled, s.enq.length))
      = some (true, 3)
    ∧ (run (demoConfig 1) cancelBeforeDownloadRun).map
          (fun s => (s.cancelled, s.attempts.length))
      = some (true, 1)
    ∧ (run (demoConfig 1) (cancelBeforeDownloadRun
        ++ [Action.download false, Action.clock (newYear2019 + 7200000000000),
            Action.stat false])).map (fun s => (s.cancelled, s.attempts.length))
      = some (true, 2) := by
  decide

/-! ### The order of the buckets -/

theorem frontier_sentinelLoop {Event : Type} (cfg : Config Event) (i : Nat) :
    (sentinelLoop cfg i).frontier = none ∧ (sentinelLoop cfg i).hour? = none
    ∧ (∀ h, sentinelLoop cfg i ≠ OrchPC.stat h) ∧ sentinelLoop cfg i ≠ OrchPC.dayStart
    ∧ (sentinelLoop cfg i).inHours = false := by
  rcases sentinelLoop_cases cfg i with ⟨_, hl⟩ | ⟨_, hl⟩ <;> rw [hl] <;>
    exact ⟨rfl, rfl, fun _ => by simp, by simp, rfl⟩

theorem orderOk_move {Event : Type} (y m d : Nat) (orch orch' : OrchPC Event)
    (attempts : List Bucket) (h : OrderOk y m d orch attempts)
    (hf : ∀ f', orch'.frontier = some f' → ∃ f, orch.frontier = some f ∧ f ≤ f') :
    OrderOk y m d orch' attempts := by
  refine ⟨h.1, ?_⟩
  intro b hb
  rcases h.2 b hb with h1 | ⟨h1, h2, h3, h4⟩
  · exact Or.inl h1
  · refine Or.inr ⟨h1, h2, h3, ?_⟩
    intro f' hf'
    obtain ⟨f, hf1, hf2⟩ := hf f' hf'
    have := h4 f hf1
    omega

theorem orderOk_hourLoop {Event : Type} (cfg : Config Event) (y m d : Nat)
    (orch : OrchPC Event) (attempts : List Bucket) (hour f : Nat)
    (h : OrderOk y m d orch attempts) (hfr : orch.frontier = some f) (hle : f ≤ hour) :
    OrderOk y m d (hourLoop cfg hour) attempts := by
  apply orderOk_move y m d orch _ attempts h
  intro f' hf'
  rcases hourLoop_cases cfg hour with ⟨_, hl⟩ | ⟨_, hl⟩
  · rw [hl] at hf'
    simp only [OrchPC.frontier, Option.some.injEq] at hf'
    exact ⟨f, hfr, by omega⟩
  · rw [hl, (frontier_sentinelLoop cfg 1).1] at hf'
    simp at hf'

theorem orderOk_sentinelLoop {Event : Type} (cfg : Config Event) (y m d : Nat)
    (orch : OrchPC Event) (attempts : List Bucket) (i : Nat)
    (h : OrderOk y m d orch attempts) : OrderOk y m d (sentinelLoop cfg i) attempts := by
  apply orderOk_move y m d orch _ attempts h
  intro f' hf'
  rw [(frontier_sentinelLoop cfg i).1] at hf'
  simp at hf'

theorem orderOk_nextDay {Event : Type} (s : State Event)
    (h : OrderOk s.year s.month s.day s.orch s.attempts) :
    OrderOk (nextDay s).year (nextDay s).month (nextDay s).day (nextDay s).orch
      (nextDay s).attempts := by
  have hle : ∀ b ∈ s.attempts, b.dayLt s.year s.month s.day
      ∨ (b.year = s.year ∧ b.month = s.month ∧ b.day = s.day) := by
    intro b hb
    rcases h.2 b hb with h1 | ⟨h1, h2, h3, _⟩
    · exact Or.inl h1
    · exact Or.inr ⟨h1, h2, h3⟩
  unfold nextDay
  split
  · refine ⟨h.1, ?_⟩
    intro b hb
    left
    rcases hle b hb with h1 | ⟨h1, h2, h3⟩
    · unfold Bucket.dayLt at h1 ⊢
      simp only
      omega
    · unfold Bucket.dayLt
      simp only
      omega
  · split
    · refine ⟨h.1, ?_⟩
      intro b hb
      left
      rcases hle b hb with h1 | ⟨h1, h2, h3⟩
      · unfold Bucket.dayLt at h1 ⊢
        simp only
        omega
      · unfold Bucket.dayLt
        simp only
        omega
    · split
      · refine ⟨h.1, ?_⟩
        intro b hb
        left
        rcases hle b hb with h1 | ⟨h1, h2, h3⟩
        · unfold Bucket.dayLt at h1 ⊢
          simp only
          omega
        · unfold Bucket.dayLt
          simp only
          omega
      · refine ⟨h.1, ?_⟩
        intro b hb
        rcases hle b hb with h1 | ⟨h1, h2, h3⟩
        · exact Or.inl h1
        · exact Or.inr ⟨h1, h2, h3, by simp [OrchPC.frontier]⟩

theorem orderOk_step {Event : Type} (cfg : Config Event) (s : State Event) (a : Action)
    (s' : State Event) (h : OrderOk s.year s.month s.day s.orch s.attempts)
    (hS : Step cfg s a s') : OrderOk s'.year s'.month s'.day s'.orch s'.attempts := by
  cases hS <;> first | exact h | skip
  case dayStart hf hpc =>
    exact orderOk_hourLoop cfg _ _ _ _ _ 0 0 h (by rw [hpc]; rfl) (Nat.le_refl _)
  case scanEnd hour hf hpc =>
    exact orderOk_move _ _ _ _ _ _ h (fun f' hf' => ⟨hour + 1, by rw [hpc]; rfl, by
      simp only [OrchPC.frontier, Option.some.injEq] at hf'; omega⟩)
  case scanLine hour line lines hf hpc =>
    exact orderOk_move _ _ _ _ _ _ h (fun f' hf' => ⟨hour + 1, by rw [hpc]; rfl, by
      simp only [OrchPC.frontier, Option.some.injEq] at hf'; omega⟩)
  case send hour event lines hf hpc hcap =>
    exact orderOk_move _ _ _ _ _ _ h (fun f' hf' => ⟨hour + 1, by rw [hpc]; rfl, by
      simp only [OrchPC.frontier, Option.some.injEq] at hf'; omega⟩)
  case orchCancelled hour hf hpc hc =>
    exact orderOk_move _ _ _ _ _ _ h (fun f' hf' => by simp [OrchPC.frontier] at hf')
  case orchContinue hour hf hpc hc =>
    exact orderOk_hourLoop cfg _ _ _ _ _ (hour + 1) (hour + 1) h (by rw [hpc]; rfl)
      (Nat.le_refl _)
  case sentinel i hf hpc hcap => exact orderOk_sentinelLoop cfg _ _ _ _ _ _ h
  case report hf hpc => exact orderOk_nextDay s h
  case clockBreak hour now hf hpc ht => exact orderOk_sentinelLoop cfg _ _ _ _ _ _ h
  case clockPass hour now t hf hpc ht hnow =>
    exact orderOk_move _ _ _ _ _ _ h (fun f' hf' => ⟨hour, by rw [hpc]; rfl, by
      simp only [OrchPC.frontier, Option.some.injEq] at hf'; omega⟩)
  case stat hour notExist hf hpc =>
    have hfr : ∀ f, s.orch.frontier = some f → f = hour := by
      intro f hf2
      rw [hpc] at hf2
      simp only [OrchPC.frontier, Option.some.injEq] at hf2
      exact hf2.symm
    have hfr' : ∀ f, (if notExist = true then (OrchPC.download hour : OrchPC Event)
        else OrchPC.read hour).frontier = some f → f = hour + 1 := by
      intro f hf2
      cases notExist <;> simp [OrchPC.frontier] at hf2 <;> omega
    refine ⟨?_, ?_⟩
    · show (s.attempts ++ [s.bucket hour]).Pairwise Bucket.lt
      rw [List.pairwise_append]
      refine ⟨h.1, List.pairwise_singleton _ _, ?_⟩
      intro b hb c hc
      simp only [List.mem_singleton] at hc
      subst hc
      rcases h.2 b hb with h1 | ⟨h1, h2, h3, h4⟩
      · unfold Bucket.dayLt at h1
        unfold Bucket.lt State.bucket
        simp only
        omega
      · have := h4 hour (by rw [hpc]; rfl)
        unfold Bucket.lt State.bucket
        simp only
        omega
    · intro b hb
      show b.dayLt s.year s.month s.day ∨ (b.year = s.year ∧ b.month = s.month
        ∧ b.day = s.day ∧ ∀ f, (if notExist = true then (OrchPC.download hour : OrchPC Event)
          else OrchPC.read hour).frontier = some f → b.hour < f)
      have hb' : b ∈ s.attempts ∨ b = s.bucket hour := by
        simpa using hb
      rcases hb' with hb' | hb'
      · rcases h.2 b hb' with h1 | ⟨h1, h2, h3, h4⟩
        · exact Or.inl h1
        · refine Or.inr ⟨h1, h2, h3, ?_⟩
          intro f hf2
          have := h4 hour (by rw [hpc]; rfl)
          have := hfr' f hf2
          omega
      · subst hb'
        refine Or.inr ⟨rfl, rfl, rfl, ?_⟩
        intro f hf2
        have := hfr' f hf2
        simp only [State.bucket]
        omega
  case download hour ok hf hpc =>
    cases ok
    · exact orderOk_hourLoop cfg _ _ _ _ _ (hour + 1) (hour + 1) h (by rw [hpc]; rfl)
        (Nat.le_refl _)
    · exact orderOk_move _ _ _ _ _ _ h (fun f' hf' => ⟨hour + 1, by rw [hpc]; rfl, by
        simp only [OrchPC.frontier, if_true, Option.some.injEq] at hf'; omega⟩)
  case readFail hour hf hpc =>
    exact orderOk_move _ _ _ _ _ _ h (fun f' hf' => ⟨hour + 1, by rw [hpc]; rfl, by
      simp only [OrchPC.frontier, Option.some.injEq] at hf'; omega⟩)
  case readOk hour b hf hpc =>
    exact orderOk_move _ _ _ _ _ _ h (fun f' hf' => ⟨hour + 1, by rw [hpc]; rfl, by
      simp only [OrchPC.frontier, Option.some.injEq] at hf'; omega⟩)
  case finish hf hpool hpc =>
    exact orderOk_move _ _ _ _ _ _ h (fun f' hf' => by simp [OrchPC.frontier] at hf')

theorem orderOk_reachable {Event : Type} (cfg : Config Event) (sched : List Action)
    (s : State Event) (hrun : run cfg sched = some s) :
    OrderOk s.year s.month s.day s.orch s.attempts :=
  runFrom_invariant (step cfg) (fun _ => True)
    (fun s => OrderOk s.year s.month s.day s.orch s.attempts)
    (fun s a s' _ hi hs => orderOk_step cfg s a s' hi (step_sound cfg s a s' hs))
    (init Event) sched s ⟨List.Pairwise.nil, fun b hb => by simp [init] at hb⟩
    (fun _ _ => trivial) hrun

theorem bucket_lt_irrefl (b : Bucket) : ¬ b.lt b := by
  unfold Bucket.lt
  omega

/-- C5: in every run, whatever the clock readings and the outcomes of the
fetches and reads, the buckets for which `os.Stat` (the cache lookup that
precedes the fetch) has been called form, in the order of the calls, a
strictly increasing sequence in the chronological order of (year, month,
day, hour); so no bucket occurs twice. -/
theorem buckets_strictly_increasing {Event : Type} (cfg : Config Event)
    (sched : List Action) (s : State Event) (hrun : run cfg sched = some s) :
    s.attempts.Pairwise Bucket.lt ∧ s.attempts.Nodup := by
  have h := (orderOk_reachable cfg sched s hrun).1
  refine ⟨h, ?_⟩
  unfold List.Nodup
  refine List.Pairwise.imp ?_ h
  intro a b hab heq
  subst heq
  exact bucket_lt_irrefl a hab

/-- Witness of C5: `twoBucketsRun` attempts hour 0 and then hour 1 of
2019-01-01. -/
theorem buckets_strictly_increasing_witness :
    run (demoConfig 1) twoBucketsRun = some twoBucketsEnd
    ∧ twoBucketsEnd.attempts.Pairwise Bucket.lt
    ∧ twoBucketsEnd.attempts
        = [{ year := 2019, month := 1, day := 1, hour := 0 },
           { year := 2019, month := 1, day := 1, hour := 1 }] :=
  ⟨by decide,
   (buckets_strictly_increasing (demoConfig 1) twoBucketsRun twoBucketsEnd (by decide)).1,
   rfl⟩

/-! ### The hour loop of a day -/

theorem dayOk_move {Event : Type} (y m d : Nat) (orch orch' : OrchPC Event)
    (hours : List Nat) (stop : Option (Nat × Time)) (enq : List (Nat × Option Event))
    (readings : List Time) (h : DayOk y m d orch hours stop enq readings)
    (hne : orch ≠ OrchPC.dayStart)
    (hh : ∀ k, orch'.hour? = some k → k ≤ 23)
    (hf : ∀ f, orch'.frontier = some f → orch.frontier = some f)
    (hn : orch'.frontier = none →
      orch.frontier = none ∨ ∃ f, orch.frontier = some f ∧ f ≤ 24)
    (hs : ∀ k, orch' ≠ OrchPC.stat k) : DayOk y m d orch' hours stop enq readings := by
  intro _
  obtain ⟨h1, h2, h3, h4, h5, h6, h7⟩ := h hne
  refine ⟨hh, fun f hf' => h2 f (hf f hf'), ?_, h4, h5, h6, fun k hk => absurd hk (hs k)⟩
  intro hnone
  rcases hn hnone with h0 | ⟨f, hf1, hf2⟩
  · exact h3 h0
  · exact ⟨f, hf2, (h2 f hf1).1⟩

theorem dayOk_hourLoop {Event : Type} (cfg : Config Event) (y m d : Nat)
    (orch : OrchPC Event) (hours : List Nat) (stop : Option (Nat × Time))
    (enq : List (Nat × Option Event)) (readings : List Time) (hour : Nat)
    (h : DayOk y m d orch hours stop enq readings) (hne : orch ≠ OrchPC.dayStart)
    (hfr : orch.frontier = some (hour + 1)) (hhr : orch.hour? = some hour) :
    DayOk y m d (hourLoop cfg (hour + 1)) hours stop enq readings := by
  have hle : hour ≤ 23 := (h hne).1 hour hhr
  rcases hourLoop_cases cfg (hour + 1) with ⟨h23, hl⟩ | ⟨h23, hl⟩ <;> rw [hl]
  · exact dayOk_move y m d orch _ hours stop enq readings h hne
      (fun k hk => by simp only [OrchPC.hour?, Option.some.injEq] at hk; omega)
      (fun f hf => by simp only [OrchPC.frontier, Option.some.injEq] at hf; rw [hfr, ← hf])
      (fun hn => by simp [OrchPC.frontier] at hn) (fun k => by simp)
  · have hsl := frontier_sentinelLoop cfg 1
    exact dayOk_move y m d orch _ hours stop enq readings h hne
      (fun k hk => by rw [hsl.2.1] at hk; simp at hk)
      (fun f hf => by rw [hsl.1] at hf; simp at hf)
      (fun _ => Or.inr ⟨hour + 1, hfr, by omega⟩) hsl.2.2.1

theorem notAfter_mono (y m d h : Nat) (readings : List Time) (now : Time)
    (hm : ∀ c, readings.getLast? = some c → c ≤ now) (hn : NotAfter y m d h readings) :
    NotAfter y m d h (readings ++ [now]) := by
  obtain ⟨t, c, h1, h2, h3⟩ := hn
  exact ⟨t, now, h1, by simp, le_trans h3 (hm c h2)⟩

theorem dayOk_step {Event : Type} (cfg : Config Event) (s : State Event) (a : Action)
    (s' : State Event)
    (h : DayOk s.year s.month s.day s.orch s.hours s.stop s.enq s.readings)
    (hmono : ∀ now, a = Action.clock now → ∀ c, s.readings.getLast? = some c → c ≤ now)
    (hS : Step cfg s a s') :
    DayOk s'.year s'.month s'.day s'.orch s'.hours s'.stop s'.enq s'.readings := by
  cases hS <;> first | exact h | skip
  case dayStart hf hpc =>
    rcases hourLoop_cases cfg 0 with ⟨_, hl⟩ | ⟨h23, _⟩
    · show DayOk s.year s.month s.day (hourLoop cfg 0) [] none [] []
      rw [hl]
      intro _
      refine ⟨?_, ?_, by simp [OrchPC.frontier], by simp, by simp, by simp, by simp⟩
      · intro k hk
        simp only [OrchPC.hour?, Option.some.injEq] at hk
        omega
      · intro f hf2
        simp only [OrchPC.frontier, Option.some.injEq] at hf2
        subst hf2
        exact ⟨rfl, rfl⟩
    · omega
  case scanEnd hour hf hpc =>
    have hne : s.orch ≠ OrchPC.dayStart := by simp [hpc]
    have hle := (h hne).1 hour (by rw [hpc]; rfl)
    exact dayOk_move _ _ _ _ _ _ _ _ _ h hne
      (fun k hk => by simp only [OrchPC.hour?, Option.some.injEq] at hk; omega)
      (fun f hf2 => by rw [hpc]; exact hf2) (fun hn => by simp [OrchPC.frontier] at hn)
      (fun k => by simp)
  case scanLine hour line lines hf hpc =>
    have hne : s.orch ≠ OrchPC.dayStart := by simp [hpc]
    have hle := (h hne).1 hour (by rw [hpc]; rfl)
    exact dayOk_move _ _ _ _ _ _ _ _ _ h hne
      (fun k hk => by simp only [OrchPC.hour?, Option.some.injEq] at hk; omega)
      (fun f hf2 => by rw [hpc]; exact hf2) (fun hn => by simp [OrchPC.frontier] at hn)
      (fun k => by simp)
  case send hour event lines hf hpc hcap =>
    have hne : s.orch ≠ OrchPC.dayStart := by simp [hpc]
    obtain ⟨h1, h2, h3, h4, h5, h6, h7⟩ := h hne
    have hle := h1 hour (by rw [hpc]; rfl)
    have hrange := (h2 (hour + 1) (by rw [hpc]; rfl)).1
    intro _
    refine ⟨?_, ?_, by simp [OrchPC.frontier], h4, ?_, h6, by simp⟩
    · intro k hk
      simp only [OrchPC.hour?, Option.some.injEq] at hk
      omega
    · intro f hf2
      exact h2 f (by rw [hpc]; exact hf2)
    · intro x hx
      have hx' : x ∈ s.enq ∨ x = (hour, event) := by simpa using hx
      rcases hx' with hx' | hx'
      · exact h5 x hx'
      · rw [hx', hrange]
        simp
  case orchCancelled hour hf hpc hc =>
    have hne : s.orch ≠ OrchPC.dayStart := by simp [hpc]
    have hle := (h hne).1 hour (by rw [hpc]; rfl)
    exact dayOk_move _ _ _ _ _ _ _ _ _ h hne (fun k hk => by simp [OrchPC.hour?] at hk)
      (fun f hf2 => by simp [OrchPC.frontier] at hf2)
      (fun _ => Or.inr ⟨hour + 1, by rw [hpc]; rfl, by omega⟩) (fun k => by simp)
  case orchContinue hour hf hpc hc =>
    exact dayOk_hourLoop cfg _ _ _ _ _ _ _ _ hour h (by simp [hpc]) (by rw [hpc]; rfl)
      (by rw [hpc]; rfl)
  case sentinel i hf hpc hcap =>
    have hne : s.orch ≠ OrchPC.dayStart := by simp [hpc]
    have hsl := frontier_sentinelLoop cfg (i + 1)
    exact dayOk_move _ _ _ _ _ _ _ _ _ h hne (fun k hk => by rw [hsl.2.1] at hk; simp at hk)
      (fun f hf2 => by rw [hsl.1] at hf2; simp at hf2)
      (fun _ => Or.inl (by rw [hpc]; rfl)) hsl.2.2.1
  case report hf hpc =>
    have hne : s.orch ≠ OrchPC.dayStart := by simp [hpc]
    have hfr := nextDay_frame s
    rcases nextDay_orch s with ho | ho
    · intro hne2
      exact absurd ho hne2
    · have hymd : (nextDay s).year = s.year ∧ (nextDay s).month = s.month
          ∧ (nextDay s).day = s.day := by
        unfold nextDay at ho ⊢
        split
        · rename_i hc; simp [hc] at ho
        · split
          · rename_i hc1 hc2; simp [hc1, hc2] at ho
          · split
            · rename_i hc1 hc2 hc3; simp [hc1, hc2, hc3] at ho
            · exact ⟨rfl, rfl, rfl⟩
      rw [hymd.1, hymd.2.1, hymd.2.2, ho, hfr.2.2.2.2.1, hfr.2.2.2.2.2.2.2.2.2.2.1,
        hfr.2.2.2.2.2.2.2.2.2.2.2.1, hfr.2.2.2.2.2.2.2.2.2.2.2.2.1]
      exact dayOk_move _ _ _ _ _ _ _ _ _ h hne (fun k hk => by simp [OrchPC.hour?] at hk)
        (fun f hf2 => by simp [OrchPC.frontier] at hf2)
        (fun _ => Or.inl (by rw [hpc]; rfl)) (fun k => by simp)
  case clockBreak hour now hf hpc ht =>
    have hne : s.orch ≠ OrchPC.dayStart := by simp [hpc]
    obtain ⟨h1, h2, h3, h4, h5, h6, h7⟩ := h hne
    have hle := h1 hour (by rw [hpc]; rfl)
    have hrange := (h2 hour (by rw [hpc]; rfl)).1
    have hsl := frontier_sentinelLoop cfg 1
    have hm := hmono now rfl
    intro _
    refine ⟨?_, ?_, ?_, ?_, h5, ?_, ?_⟩
    · intro k hk
      rw [hsl.2.1] at hk
      simp at hk
    · intro f hf2
      rw [hsl.1] at hf2
      simp at hf2
    · intro _
      exact ⟨hour, by omega, hrange⟩
    · intro k r hkr
      simp only [Option.some.injEq, Prod.mk.injEq] at hkr
      obtain ⟨rfl, rfl⟩ := hkr
      exact ⟨hrange, hle, ht⟩
    · intro k hk
      exact notAfter_mono _ _ _ _ _ _ hm (h6 k hk)
    · intro k hk
      exact absurd hk (hsl.2.2.1 k)
  case clockPass hour now t hf hpc ht hnow =>
    have hne : s.orch ≠ OrchPC.dayStart := by simp [hpc]
    obtain ⟨h1, h2, h3, h4, h5, h6, h7⟩ := h hne
    have hle := h1 hour (by rw [hpc]; rfl)
    have hm := hmono now rfl
    intro _
    refine ⟨?_, ?_, by simp [OrchPC.frontier], h4, h5, ?_, ?_⟩
    · intro k hk
      simp only [OrchPC.hour?, Option.some.injEq] at hk
      omega
    · intro f hf2
      exact h2 f (by rw [hpc]; exact hf2)
    · intro k hk
      exact notAfter_mono _ _ _ _ _ _ hm (h6 k hk)
    · intro k hk
      simp only [OrchPC.stat.injEq] at hk
      subst hk
      exact ⟨t, now, ht, by simp, Int.not_lt.mp hnow⟩
  case stat hour notExist hf hpc =>
    have hne : s.orch ≠ OrchPC.dayStart := by simp [hpc]
    obtain ⟨h1, h2, h3, h4, h5, h6, h7⟩ := h hne
    have hle := h1 hour (by rw [hpc]; rfl)
    obtain ⟨hrange, hstop⟩ := h2 hour (by rw [hpc]; rfl)
    have hna := h7 hour hpc
    have hnew : s.hours ++ [hour] = List.range (hour + 1) := by
      rw [hrange, List.range_succ]
    intro _
    refine ⟨?_, ?_, ?_, ?_, ?_, ?_, ?_⟩
    · intro k hk
      have hk2 : k = hour := by
        cases notExist
        · simpa [OrchPC.hour?] using hk.symm
        · simpa [OrchPC.hour?] using hk.symm
      omega
    · intro f hf2
      have hf3 : f = hour + 1 := by
        cases notExist <;> simp [OrchPC.frontier] at hf2 <;> omega
      rw [hf3]
      exact ⟨hnew, hstop⟩
    · intro hn
      cases notExist <;> simp [OrchPC.frontier] at hn
    · intro k r hkr
      rw [hstop] at hkr
      simp at hkr
    · intro x hx
      exact List.mem_append_left _ (h5 x hx)
    · intro k hk
      have hk' : k ∈ s.hours ∨ k = hour := by simpa using hk
      rcases hk' with hk' | hk'
      · exact h6 k hk'
      · rw [hk']
        exact hna
    · intro k hk
      cases notExist <;> simp at hk
  case download hour ok hf hpc =>
    have hne : s.orch ≠ OrchPC.dayStart := by simp [hpc]
    have hle := (h hne).1 hour (by rw [hpc]; rfl)
    cases ok
    · exact dayOk_hourLoop cfg _ _ _ _ _ _ _ _ hour h hne (by rw [hpc]; rfl)
        (by rw [hpc]; rfl)
    · exact dayOk_move _ _ _ _ _ _ _ _ _ h hne
        (fun k hk => by simp only [OrchPC.hour?, if_true, Option.some.injEq] at hk; omega)
        (fun f hf2 => by rw [hpc]; exact hf2) (fun hn => by simp [OrchPC.frontier] at hn)
        (fun k => by simp)
  case readFail hour hf hpc =>
    have hne : s.orch ≠ OrchPC.dayStart := by simp [hpc]
    have hle := (h hne).1 hour (by rw [hpc]; rfl)
    exact dayOk_move _ _ _ _ _ _ _ _ _ h hne
      (fun k hk => by simp only [OrchPC.hour?, Option.some.injEq] at hk; omega)
      (fun f hf2 => by rw [hpc]; exact hf2) (fun hn => by simp [OrchPC.frontier] at hn)
      (fun k => by simp)
  case readOk hour b hf hpc =>
    have hne : s.orch ≠ OrchPC.dayStart := by simp [hpc]
    have hle := (h hne).1 hour (by rw [hpc]; rfl)
    exact dayOk_move _ _ _ _ _ _ _ _ _ h hne
      (fun k hk => by simp only [OrchPC.hour?, Option.some.injEq] at hk; omega)
      (fun f hf2 => by rw [hpc]; exact hf2) (fun hn => by simp [OrchPC.frontier] at hn)
      (fun k => by simp)
  case finish hf hpool hpc =>
    have hne : s.orch ≠ OrchPC.dayStart := by simp [hpc]
    exact dayOk_move _ _ _ _ _ _ _ _ _ h hne (fun k hk => by simp [OrchPC.hour?] at hk)
      (fun f hf2 => by simp [OrchPC.frontier] at hf2)
      (fun _ => Or.inl (by rw [hpc]; rfl)) (fun k => by simp)

theorem readings_frame {Event : Type} (cfg : Config Event) (s : State Event) (a : Action)
    (s' : State Event) (hS : Step cfg s a s') (hne : s.orch ≠ OrchPC.dayStart) :
    (∃ now, a = Action.clock now ∧ s'.readings = s.readings ++ [now])
    ∨ ((∀ now, a ≠ Action.clock now) ∧ s'.readings = s.readings) := by
  cases hS <;> first | exact Or.inr ⟨fun _ => by simp, rfl⟩ | skip
  case dayStart hf hpc => exact absurd hpc hne
  case report hf hpc =>
    exact Or.inr ⟨fun _ => by simp, (nextDay_frame s).2.2.2.2.2.2.2.2.2.2.2.2.1⟩
  case clockBreak hour now hf hpc ht => exact Or.inl ⟨now, rfl, rfl⟩
  case clockPass hour now t hf hpc ht hnow => exact Or.inl ⟨now, rfl, rfl⟩

theorem readings_of_step {Event : Type} (cfg : Config Event) (s : State Event) (a : Action)
    (s' : State Event) (hS : Step cfg s a s') (hne : s.orch ≠ OrchPC.dayStart)
    (hpw : s'.readings.Pairwise (fun a b => a ≤ b)) :
    s.readings.Pairwise (fun a b => a ≤ b)
    ∧ ∀ now, a = Action.clock now → ∀ c, s.readings.getLast? = some c → c ≤ now := by
  rcases readings_frame cfg s a s' hS hne with ⟨now, ha, hr⟩ | ⟨ha, hr⟩
  · rw [hr, List.pairwise_append] at hpw
    refine ⟨hpw.1, ?_⟩
    intro now2 ha2 c hc
    rw [ha] at ha2
    simp only [Action.clock.injEq] at ha2
    subst ha2
    exact hpw.2.2 c (List.mem_of_getLast?_eq_some hc) now (by simp)
  · rw [hr] at hpw
    exact ⟨hpw, fun now ha2 => absurd ha2 (ha now)⟩

theorem dayOk_reachable {Event : Type} (cfg : Config Event) (sched : List Action)
    (s : State Event) (hrun : run cfg sched = some s)
    (hmono : s.readings.Pairwise (fun a b => a ≤ b)) :
    DayOk s.year s.month s.day s.orch s.hours s.stop s.enq s.readings := by
  have key := runFrom_invariant (step cfg) (fun _ => True)
    (fun t => t.readings.Pairwise (fun a b => a ≤ b) →
      DayOk t.year t.month t.day t.orch t.hours t.stop t.enq t.readings)
    (by
      intro t a t' _ hinv hs hpw
      have hS := step_sound cfg t a t' hs
      by_cases hne : t.orch = OrchPC.dayStart
      · exact dayOk_step cfg t a t' (fun h => absurd hne h)
          (fun now ha => by
            subst ha
            cases hS <;> simp_all) hS
      · obtain ⟨hp, hm⟩ := readings_of_step cfg t a t' hS hne hpw
        exact dayOk_step cfg t a t' (hinv hp) hm hS)
    (init Event) sched s (fun _ hne => absurd rfl hne) (fun _ _ => trivial) hrun
  exact key hmono

theorem frontier_bound {Event : Type} (orch : OrchPC Event) (f : Nat)
    (hne : orch ≠ OrchPC.dayStart) (hf : orch.frontier = some f) :
    ∃ h, orch.hour? = some h ∧ f ≤ h + 1 := by
  cases orch <;> simp [OrchPC.frontier, OrchPC.hour?] at hf hne ⊢ <;> omega

theorem inHours_of_frontier_none {Event : Type} (orch : OrchPC Event)
    (hf : orch.frontier = none) : orch.inHours = false := by
  cases orch <;> simp [OrchPC.frontier, OrchPC.inHours] at hf ⊢

/-- C7: in every run, for the day the orchestrator is iterating, if the
clock readings taken by the hour checks of this day have not gone
backwards: the hours for which `os.Stat` has been called are the hours
`0 .. k-1` for some `k ≤ 24`, in this order; the date of each of them parses
and its instant is not after the latest clock reading;
every item sent at line 324 belongs to one of them; once the check of an hour
`k` has found its instant after the clock (or its date not to parse) the
orchestrator is outside the hour loop, the attempted hours are exactly
`0 .. k-1` and every item sent belongs to an hour before `k`; and such a
check is a step that leaves the hour loop without calling `os.Stat` and
without sending anything. -/
theorem hour_loop_prefix {Event : Type} (cfg : Config Event) (sched : List Action)
    (s : State Event) (hrun : run cfg sched = some s)
    (hmono : s.readings.Pairwise (fun a b => a ≤ b))
    (hday : s.orch ≠ OrchPC.dayStart) :
    (∃ k, k ≤ 24 ∧ s.hours = List.range k)
    ∧ (∀ h ∈ s.hours, ∃ t c,
        timeParse (dateString s.year s.month s.day h) = some t
        ∧ s.readings.getLast? = some c ∧ t ≤ c)
    ∧ (∀ x ∈ s.enq, x.1 ∈ s.hours)
    ∧ (∀ k r, s.stop = some (k, r) →
        s.hours = List.range k ∧ (∀ x ∈ s.enq, x.1 < k)
        ∧ (timeParse (dateString s.year s.month s.day k) = none
          ∨ ∃ t, timeParse (dateString s.year s.month s.day k) = some t ∧ r < t)
        ∧ s.orch.inHours = false)
    ∧ (∀ h now s', s.orch = OrchPC.hourCheck h → step cfg s (Action.clock now) = some s' →
        (timeParse (dateString s.year s.month s.day h) = none
          ∨ ∃ t, timeParse (dateString s.year s.month s.day h) = some t ∧ now < t) →
        s'.stop = some (h, now) ∧ s'.orch.inHours = false ∧ s'.hours = s.hours
        ∧ s'.enq = s.enq ∧ s'.attempts = s.attempts) := by
  obtain ⟨h1, h2, h3, h4, h5, h6, _⟩ := dayOk_reachable cfg sched s hrun hmono hday
  refine ⟨?_, h6, h5, ?_, ?_⟩
  · cases hf : s.orch.frontier with
    | none => exact h3 hf
    | some f =>
      obtain ⟨h, hh, hle⟩ := frontier_bound s.orch f hday hf
      have := h1 h hh
      exact ⟨f, by omega, (h2 f hf).1⟩
  · intro k r hkr
    obtain ⟨hr, _, hb⟩ := h4 k r hkr
    refine ⟨hr, ?_, hb, ?_⟩
    · intro x hx
      have := h5 x hx
      rw [hr] at this
      exact List.mem_range.mp this
    · apply inHours_of_frontier_none
      cases hf : s.orch.frontier with
      | none => rfl
      | some f =>
        have := (h2 f hf).2
        rw [this] at hkr
        simp at hkr
  · intro h now s' hpc hs hb
    have hS := step_sound cfg s _ s' hs
    cases hS
    case clockBreak hour hf hpc2 ht =>
      rw [hpc] at hpc2
      simp only [OrchPC.hourCheck.injEq] at hpc2
      subst hpc2
      exact ⟨rfl, (frontier_sentinelLoop cfg 1).2.2.2.2, rfl, rfl, rfl⟩
    case clockPass hour t hf hpc2 ht hnow =>
      rw [hpc] at hpc2
      simp only [OrchPC.hourCheck.injEq] at hpc2
      subst hpc2
      rcases hb with hb | ⟨t', ht', hlt⟩
      · rw [hb] at ht
        simp at ht
      · rw [ht'] at ht
        simp only [Option.some.injEq] at ht
        subst ht
        exact absurd hlt hnow

/-- Witness of C7: at the end of `failedInsertRun` hour 0 has been attempted,
and the check of hour 1 has left the hour loop. -/
theorem hour_loop_prefix_witness :
    run (demoConfig 1) failedInsertRun = some failedInsertEnd
    ∧ failedInsertEnd.hours = List.range 1
    ∧ failedInsertEnd.stop = some (1, 63681897600000000001)
    ∧ failedInsertEnd.orch.inHours = false :=
  have h := hour_loop_prefix (demoConfig 1) failedInsertRun failedInsertEnd (by decide)
    (by decide) (by decide)
  ⟨by decide, (h.2.2.2.1 1 63681897600000000001 rfl).1, rfl,
    (h.2.2.2.1 1 63681897600000000001 rfl).2.2.2⟩

end Spider
